import Mathlib

/-!
Verification of the kinesis reactive fragment runtime.

The repository contains several generations of the same engine side by side.
Each namespace below is a shallow embedding of one cited source module:

* `HML`        — src/kinesis/src/util/hash_map_list.rs (`HashMapList`)
* `CF`         — src/kinesis/src/component/fragment.rs (dependency-indexed
                 `Fragment`: dispatch-level model, no DOM)
* `FM`         — src/kinesis/src/fragment/mod.rs (`Fragment` implementing
                 `Dynamic`: broadcast update model)
* `DRCond`     — src/kinesis/src/fragment/dom_renderable/conditional.rs
* `DREach`     — src/kinesis/src/fragment/dom_renderable/each.rs and
                 src/kinesis/src/fragment/dom_renderable/iterator.rs
* `DRUpd`      — src/kinesis/src/fragment/dom_renderable/updatable.rs
* `UP`         — src/kinesis/src/dynamic/update_proxy.rs and
                 src/kinesis/src/nested/controller.rs
* `CTRL`       — src/kinesis/src/controller/mod.rs, controller/ref.rs and
                 src/kinesis/src/component/controller.rs (borrow traces)
* `ER`         — src/kinesis/src/fragment/event_registry.rs
* `CFDom`      — src/kinesis/src/component/fragment.rs with an explicit
                 host-tree (DOM) model, for the mount/detach lifecycle
-/

namespace HML

/-- Model of `HashMapList<K, V>` from util/hash_map_list.rs, with `K = Nat`.
Represented as an association list from keys to the `Vec` of values pushed
under that key.  `insert` appends to the existing vector (`entry(k)
.or_insert(Vec::new()).push(v)`), creating the entry on first use; no
deduplication happens anywhere, exactly as in the source. -/
abbrev HashMapList (V : Type) : Type := List (Nat × List V)

/-- Model of `HashMapList::new`. -/
def HashMapList.new {V : Type} : HashMapList V := []

/-- Model of `HashMapList::insert`: push `v` onto the vector for `k`,
initialising an empty vector first when `k` is absent. -/
def HashMapList.insert {V : Type} : HashMapList V → Nat → V → HashMapList V
  | [], k, v => [(k, [v])]
  | (k', vs) :: rest, k, v =>
    if k' = k then (k', vs ++ [v]) :: rest
    else (k', vs) :: HashMapList.insert rest k v

/-- Model of `HashMapList::get`: the vector for `k`, or `none`. -/
def HashMapList.get {V : Type} : HashMapList V → Nat → Option (List V)
  | [], _ => none
  | (k', vs) :: rest, k => if k' = k then some vs else HashMapList.get rest k

/-- The vector for `k`, defaulting to `[]`; matches how
`flat_map(|d| self.dependencies.get(d)).flatten()` treats a missing key. -/
def HashMapList.getList {V : Type} (m : HashMapList V) (k : Nat) : List V :=
  (m.get k).getD []

/-- Model of `HashMapList::keys` (`self.0.keys()`): the key set. -/
def HashMapList.keys {V : Type} (m : HashMapList V) : List Nat := m.map (·.1)

theorem HashMapList.get_insert_self {V : Type} (m : HashMapList V) (k : Nat) (v : V) :
    (m.insert k v).getList k = m.getList k ++ [v] := by
  induction m with
  | nil => simp [insert, getList, get]
  | cons hd tl ih =>
    obtain ⟨k', vs⟩ := hd
    by_cases h : k' = k
    · simp [insert, getList, get, h]
    · simpa [insert, getList, get, h] using ih

/-- Whether some value vector of the map contains `v`; decidable helper used
to discharge absence-from-the-index hypotheses on concrete maps. -/
def HashMapList.containsValue {V : Type} [DecidableEq V] (m : HashMapList V)
    (v : V) : Bool := m.any (fun kv => kv.2.contains v)

theorem HashMapList.not_mem_getList_of_containsValue {V : Type} [DecidableEq V]
    (m : HashMapList V) (v : V) (h : m.containsValue v = false) (d : Nat) :
    v ∉ m.getList d := by
  induction m with
  | nil => simp [getList, get]
  | cons hd tl ih =>
    obtain ⟨k', vs⟩ := hd
    simp only [containsValue, List.any_cons, Bool.or_eq_false_iff] at h
    by_cases hk : k' = d
    · simp only [getList, get, hk, if_pos rfl, Option.getD_some]
      intro hmem
      have hc : vs.contains v = true := by simpa using hmem
      simp [hc] at h
      exact h.1 (by simpa using hmem)
    · simp only [getList, get, hk, if_neg hk]
      exact ih (by simpa [containsValue] using h.2)

theorem HashMapList.get_insert_ne {V : Type} (m : HashMapList V) {k k' : Nat} (v : V)
    (h : k' ≠ k) : (m.insert k v).getList k' = m.getList k' := by
  induction m with
  | nil => simp [insert, getList, get, Ne.symm h]
  | cons hd tl ih =>
    obtain ⟨k'', vs⟩ := hd
    by_cases h2 : k'' = k
    · subst h2
      simp [insert, getList, get, Ne.symm h]
    · by_cases h3 : k'' = k'
      · simp [insert, getList, get, h2, h3, h]
      · simpa [insert, getList, get, h2, h3] using ih

end HML

namespace CF

open HML

/-- Model of the private enum `DependencyType` of component/fragment.rs:
which concrete part a dependency-index entry points at. -/
inductive DependencyType : Type
  | updatable (i : Nat)
  | conditional (i : Nat)
  | eachBlock (i : Nat)
deriving DecidableEq, Repr

/-- Model of `Updatable<Ctx>` from component/fragment.rs at the dispatch
level: the `get_text` closure plus the current character data of its owned
text node (`text_node` is created with content `""` by `with_updatable`).
Host-tree placement of the node is modelled separately in `CFDom`. -/
structure Updatable (Ctx : Type) : Type where
  get_text : Ctx → String
  text : String

/-- Dispatch-level model of `Fragment<Ctx>` from component/fragment.rs.
`conditionals` and `each_blocks` are instrumented as counters of how many
times their `update` was invoked by the dependency dispatch (their full
mount/detach behaviour is modelled in `CFDom`); `dependencies` is the
`HashMapList<usize, DependencyType>` reverse index. -/
structure Fragment (Ctx : Type) : Type where
  mounted : Bool
  updatables : List (Updatable Ctx)
  conditionalUpdates : List Nat
  eachBlockUpdates : List Nat
  dependencies : HashMapList DependencyType

/-- Model of `Fragment::new`. -/
def Fragment.new {Ctx : Type} : Fragment Ctx :=
  { mounted := false
    updatables := []
    conditionalUpdates := []
    eachBlockUpdates := []
    dependencies := HashMapList.new }

/-- Model of `Fragment::register_dependencies` (component/fragment.rs
lines 632-636): one index insertion per listed dependency id; a part with an
empty dependency list is not entered at all. -/
def Fragment.register_dependencies {Ctx : Type} (f : Fragment Ctx)
    (dependencies : List Nat) (dt : DependencyType) : Fragment Ctx :=
  { f with dependencies :=
      dependencies.foldl (fun m d => m.insert d dt) f.dependencies }

/-- Model of `Fragment::with_updatable`: append the part (text node content
starts out `""`), then register its dependencies under its index. -/
def Fragment.with_updatable {Ctx : Type} (f : Fragment Ctx)
    (dependencies : List Nat) (get_text : Ctx → String) : Fragment Ctx :=
  let id := f.updatables.length
  let f := { f with updatables := f.updatables ++ [Updatable.mk get_text ""] }
  f.register_dependencies dependencies (DependencyType.updatable id)

/-- Model of `Fragment::with_conditional` at the dispatch level. -/
def Fragment.with_conditional {Ctx : Type} (f : Fragment Ctx)
    (dependencies : List Nat) : Fragment Ctx :=
  let id := f.conditionalUpdates.length
  let f := { f with conditionalUpdates := f.conditionalUpdates ++ [0] }
  f.register_dependencies dependencies (DependencyType.conditional id)

/-- Model of `Fragment::with_each` at the dispatch level. -/
def Fragment.with_each {Ctx : Type} (f : Fragment Ctx)
    (dependencies : List Nat) : Fragment Ctx :=
  let id := f.eachBlockUpdates.length
  let f := { f with eachBlockUpdates := f.eachBlockUpdates ++ [0] }
  f.register_dependencies dependencies (DependencyType.eachBlock id)

/-- The sequence of dependency-index entries visited by `Fragment::update`
(component/fragment.rs lines 574-579):
`changed.iter().flat_map(|d| self.dependencies.get(d)).flatten()` — the ids
of `changed` in their given order, each expanded to its registered vector. -/
def Fragment.updateDispatch {Ctx : Type} (f : Fragment Ctx)
    (changed : List Nat) : List DependencyType :=
  changed.flatMap (fun d => f.dependencies.getList d)

/-- Effect of dispatching to one `DependencyType` entry (the `match` body of
`Fragment::update`): an updatable recomputes its text unconditionally; a
conditional or each block is updated only `if self.mounted`. -/
def Fragment.dispatchOne {Ctx : Type} (f : Fragment Ctx) (ctx : Ctx)
    (dt : DependencyType) : Fragment Ctx :=
  match dt with
  | DependencyType.updatable i =>
    { f with updatables :=
        f.updatables.modify (fun u => { u with text := u.get_text ctx }) i }
  | DependencyType.conditional i =>
    if f.mounted then
      { f with conditionalUpdates := f.conditionalUpdates.modify (· + 1) i }
    else f
  | DependencyType.eachBlock i =>
    if f.mounted then
      { f with eachBlockUpdates := f.eachBlockUpdates.modify (· + 1) i }
    else f

/-- Model of `Fragment::update` (component/fragment.rs lines 574-629): visit
the dispatch sequence in order, applying each entry's effect. -/
def Fragment.update {Ctx : Type} (f : Fragment Ctx) (changed : List Nat)
    (ctx : Ctx) : Fragment Ctx :=
  (f.updateDispatch changed).foldl (fun f dt => f.dispatchOne ctx dt) f

/-- Model of `Fragment::mount` restricted to the updatable parts: mounting
short-circuits when already mounted, otherwise calls `Updatable::mount`,
which is `self.update(..)` and so populates each text node from the current
context (component/fragment.rs lines 452-518 and 83-91).  Conditionals and
each blocks also populate on mount; their host-tree effects are modelled in
`CFDom`. -/
def Fragment.mount {Ctx : Type} (f : Fragment Ctx) (ctx : Ctx) : Fragment Ctx :=
  if f.mounted then f
  else
    { f with
      mounted := true
      updatables := f.updatables.map (fun u => { u with text := u.get_text ctx }) }

/-- A sequence of `update` calls, each with its own changed set and context. -/
def Fragment.applyUpdates {Ctx : Type} (f : Fragment Ctx)
    (us : List (List Nat × Ctx)) : Fragment Ctx :=
  us.foldl (fun f sc => f.update sc.1 sc.2) f

theorem getList_foldl_insert (deps : List Nat) (m : HashMapList DependencyType)
    (dt : DependencyType) (d : Nat) :
    ((deps.foldl (fun m d' => m.insert d' dt) m).getList d)
      = m.getList d ++ List.replicate (deps.count d) dt := by
  induction deps generalizing m with
  | nil => simp
  | cons a tl ih =>
    by_cases h : d = a
    · subst h
      rw [List.foldl_cons, ih, HashMapList.get_insert_self]
      simp [List.count_cons, List.replicate_succ, List.append_assoc]
    · rw [List.foldl_cons, ih, HashMapList.get_insert_ne _ _ h]
      simp [List.count_cons, Ne.symm h]

theorem dispatch_foldl_dependencies {Ctx : Type} (l : List DependencyType)
    (ctx : Ctx) (f : Fragment Ctx) :
    (l.foldl (fun f dt => f.dispatchOne ctx dt) f).dependencies = f.dependencies := by
  induction l generalizing f with
  | nil => rfl
  | cons dt tl ih =>
    rw [List.foldl_cons, ih]
    cases dt with
    | updatable i => rfl
    | conditional i =>
      simp only [Fragment.dispatchOne]
      split <;> rfl
    | eachBlock i =>
      simp only [Fragment.dispatchOne]
      split <;> rfl

theorem update_dependencies {Ctx : Type} (f : Fragment Ctx) (changed : List Nat)
    (ctx : Ctx) : (f.update changed ctx).dependencies = f.dependencies :=
  dispatch_foldl_dependencies _ _ _

theorem dispatch_foldl_updatable_untouched {Ctx : Type} (l : List DependencyType)
    (ctx : Ctx) (f : Fragment Ctx) (i : Nat)
    (h : DependencyType.updatable i ∉ l) :
    (l.foldl (fun f dt => f.dispatchOne ctx dt) f).updatables[i]?
      = f.updatables[i]? := by
  induction l generalizing f with
  | nil => rfl
  | cons dt tl ih =>
    rw [List.foldl_cons]
    rw [ih _ (fun hm => h (List.mem_cons_of_mem _ hm))]
    cases dt with
    | updatable j =>
      have hij : j ≠ i := fun hji => h (by simp [hji])
      simp [Fragment.dispatchOne, List.getElem?_modify, hij]
    | conditional j =>
      simp only [Fragment.dispatchOne]
      split <;> rfl
    | eachBlock j =>
      simp only [Fragment.dispatchOne]
      split <;> rfl

theorem dispatch_foldl_conditional_untouched {Ctx : Type} (l : List DependencyType)
    (ctx : Ctx) (f : Fragment Ctx) (i : Nat)
    (h : DependencyType.conditional i ∉ l) :
    (l.foldl (fun f dt => f.dispatchOne ctx dt) f).conditionalUpdates[i]?
      = f.conditionalUpdates[i]? := by
  induction l generalizing f with
  | nil => rfl
  | cons dt tl ih =>
    rw [List.foldl_cons]
    rw [ih _ (fun hm => h (List.mem_cons_of_mem _ hm))]
    cases dt with
    | updatable j => rfl
    | conditional j =>
      have hij : j ≠ i := fun hji => h (by simp [hji])
      simp only [Fragment.dispatchOne]
      split
      · simp [List.getElem?_modify, hij]
      · rfl
    | eachBlock j =>
      simp only [Fragment.dispatchOne]
      split <;> rfl

theorem dispatch_foldl_eachBlock_untouched {Ctx : Type} (l : List DependencyType)
    (ctx : Ctx) (f : Fragment Ctx) (i : Nat)
    (h : DependencyType.eachBlock i ∉ l) :
    (l.foldl (fun f dt => f.dispatchOne ctx dt) f).eachBlockUpdates[i]?
      = f.eachBlockUpdates[i]? := by
  induction l generalizing f with
  | nil => rfl
  | cons dt tl ih =>
    rw [List.foldl_cons]
    rw [ih _ (fun hm => h (List.mem_cons_of_mem _ hm))]
    cases dt with
    | updatable j => rfl
    | conditional j =>
      simp only [Fragment.dispatchOne]
      split <;> rfl
    | eachBlock j =>
      have hij : j ≠ i := fun hji => h (by simp [hji])
      simp only [Fragment.dispatchOne]
      split
      · simp [List.getElem?_modify, hij]
      · rfl

/-- Concrete two-updatable fragment used to refute the dispatch wording of
the spec: updatable 0 is registered under dependency id 1; updatable 1 is
registered under ids 0 and 1. -/
def exC1 : Fragment Unit :=
  (Fragment.new.with_updatable [1] (fun _ => "A")).with_updatable [0, 1]
    (fun _ => "B")

/-- C1, counterexample.  The claim says `update(S)` invokes each part whose
dependency set intersects S exactly once, in stored registration order; for
the fragment `exC1` (updatable 0 registered under id 1, updatable 1 under
ids 0 and 1) that would be the sequence `[updatable 0, updatable 1]`.  The
dispatch of component/fragment.rs instead visits `[updatable 1, updatable 0,
updatable 1]`: grouped by changed id (id 0 first, then id 1), and updatable 1
is visited twice because it is registered under both changed ids — duplicate
part indices do not collapse. -/
theorem c1_dispatch_counterexample :
    exC1.updateDispatch [0, 1]
        = [DependencyType.updatable 1, DependencyType.updatable 0,
            DependencyType.updatable 1]
      ∧ ¬ exC1.updateDispatch [0, 1]
        = [DependencyType.updatable 0, DependencyType.updatable 1] := by
  constructor
  · rfl
  · decide

/-- C1, amended.  `Fragment::update(S)` visits exactly the dependency-index
entries registered under some id of S (so parts registered against no id of S
are untouched), but a part is visited once per (changed id, registration)
pair — its visit count is the sum over the ids of S of its registration count
under that id, so duplicates do not collapse — and the visit order groups by
the changed ids in the order given, not by global registration order.
Concretely: membership in the dispatch sequence is equivalent to being
registered under some changed id; the dispatch count is the stated sum; and
an updatable, conditional or each block absent from the dispatch sequence has
its state left untouched by `update`. -/
theorem c1_update_selective_dispatch {Ctx : Type} (f : Fragment Ctx)
    (changed : List Nat) (ctx : Ctx) :
    (∀ dt : DependencyType,
        dt ∈ f.updateDispatch changed ↔ ∃ d ∈ changed, dt ∈ f.dependencies.getList d)
  ∧ (∀ dt : DependencyType,
      (f.updateDispatch changed).count dt
        = (changed.map (fun d => (f.dependencies.getList d).count dt)).sum)
  ∧ (∀ i : Nat, DependencyType.updatable i ∉ f.updateDispatch changed →
      (f.update changed ctx).updatables[i]? = f.updatables[i]?)
  ∧ (∀ i : Nat, DependencyType.conditional i ∉ f.updateDispatch changed →
      (f.update changed ctx).conditionalUpdates[i]? = f.conditionalUpdates[i]?)
  ∧ (∀ i : Nat, DependencyType.eachBlock i ∉ f.updateDispatch changed →
      (f.update changed ctx).eachBlockUpdates[i]? = f.eachBlockUpdates[i]?) := by
  refine ⟨fun dt => List.mem_flatMap, fun dt => ?_, fun i h => ?_, fun i h => ?_,
    fun i h => ?_⟩
  · rw [Fragment.updateDispatch, List.count_flatMap]
    rfl
  · exact dispatch_foldl_updatable_untouched _ _ _ _ h
  · exact dispatch_foldl_conditional_untouched _ _ _ _ h
  · exact dispatch_foldl_eachBlock_untouched _ _ _ _ h

/-- Witness for `c1_update_selective_dispatch`: instantiating the theorem at
`exC1` with changed set `[0]` shows updatable 0 (registered only under id 1)
is untouched while its dispatch count under `[0]` is 0. -/
theorem c1_update_selective_dispatch_witness :
    (exC1.update [0] ()).updatables[0]? = exC1.updatables[0]? :=
  (c1_update_selective_dispatch exC1 [0] ()).2.2.1 0 (by decide)

theorem mount_dependencies {Ctx : Type} (f : Fragment Ctx) (ctx : Ctx) :
    (f.mount ctx).dependencies = f.dependencies := by
  rw [Fragment.mount]
  split <;> rfl

theorem applyUpdates_updatable_untouched {Ctx : Type} (us : List (List Nat × Ctx))
    (f : Fragment Ctx) (i : Nat)
    (hi : ∀ d : Nat, DependencyType.updatable i ∉ f.dependencies.getList d) :
    (f.applyUpdates us).updatables[i]? = f.updatables[i]? := by
  induction us generalizing f with
  | nil => rfl
  | cons sc tl ih =>
    have hdisp : DependencyType.updatable i ∉ f.updateDispatch sc.1 := by
      intro hmem
      obtain ⟨d, _, hd⟩ := List.mem_flatMap.mp hmem
      exact hi d hd
    have hdep : ∀ d : Nat,
        DependencyType.updatable i ∉ (f.update sc.1 sc.2).dependencies.getList d := by
      intro d
      rw [update_dependencies]
      exact hi d
    calc (f.applyUpdates (sc :: tl)).updatables[i]?
        = ((f.update sc.1 sc.2).applyUpdates tl).updatables[i]? := rfl
      _ = (f.update sc.1 sc.2).updatables[i]? := ih _ hdep
      _ = f.updatables[i]? := dispatch_foldl_updatable_untouched _ _ _ _ hdisp

/-- C10.  A dynamic part registered with an empty dependency list is never
entered into the dependency index (`register_dependencies` loops over the
listed ids and an empty list inserts nothing), so for an updatable `i` that
appears under no index key: the dependency-indexed `update` never dispatches
to it for any changed set; no key of the index (the set `fullUpdate` would
use) reaches it; and after `mount` populates its text node, any sequence of
`update` calls leaves its state exactly as mount produced it. -/
theorem c10_empty_deps_part_never_updated {Ctx : Type} (f : Fragment Ctx)
    (i : Nat)
    (hi : ∀ d : Nat, DependencyType.updatable i ∉ f.dependencies.getList d)
    (g : Ctx → String) (ctx0 : Ctx) (us : List (List Nat × Ctx)) :
    ((f.with_updatable [] g).dependencies = f.dependencies)
  ∧ (∀ S : List Nat, DependencyType.updatable i ∉ f.updateDispatch S)
  ∧ (∀ d ∈ f.dependencies.keys, DependencyType.updatable i ∉ f.dependencies.getList d)
  ∧ (((f.mount ctx0).applyUpdates us).updatables[i]? = (f.mount ctx0).updatables[i]?) := by
  refine ⟨rfl, fun S hmem => ?_, fun d _ => hi d, ?_⟩
  · obtain ⟨d, _, hd⟩ := List.mem_flatMap.mp hmem
    exact hi d hd
  · refine applyUpdates_updatable_untouched _ _ _ ?_
    intro d
    rw [mount_dependencies]
    exact hi d

/-- Concrete fragment for the C10 witness: one updatable registered with an
empty dependency list next to one registered under id 0. -/
def exC10 : Fragment Unit :=
  (Fragment.new.with_updatable [] (fun _ => "static")).with_updatable [0]
    (fun _ => "live")

/-- Witness for `c10_empty_deps_part_never_updated`: in `exC10`, updatable 0
(empty dependency list) is untouched by an update /with changed set `[0]`/
after mount. -/
theorem c10_empty_deps_part_never_updated_witness :
    ((exC10.mount ()).applyUpdates [([0], ())]).updatables[0]?
      = (exC10.mount ()).updatables[0]? :=
  (c10_empty_deps_part_never_updated exC10 0
    (HashMapList.not_mem_getList_of_containsValue _ _ (by decide)) (fun _ => "w")
    () [([0], ())]).2.2.2

end CF

namespace FM

open HML

/-- Model of `Fragment<Ctx>` from fragment/mod.rs, the generation whose
`Dynamic` implementation (lines 126-213) broadcasts updates.  Renderables
(`Box<dyn Dynamic>`) and nested controllers are instrumented: for each we
keep its structural parent (`Option<usize>` into `static_nodes`) and the
list of `changed` slices its `update` has received, in call order.
`static_nodes` keeps `(parent_id, node)` pairs of node ids, and
`dependencies` is the `HashMapList<usize, usize>` reverse index (which this
generation fills in `register_dependencies` but never consults in
`update`). -/
structure Fragment : Type where
  static_nodes : List (Option Nat × Nat)
  renderables : List (Option Nat × List (List Nat))
  controllers : List (Option Nat × List (List Nat))
  dependencies : HashMapList Nat
  mounted : Bool
deriving DecidableEq, Repr

/-- Model of `<Fragment as Dynamic>::update` (fragment/mod.rs lines
202-212): when mounted, every renderable and every nested controller
receives `update(context, changed)`, regardless of the dependency index;
when not mounted, nothing happens. -/
def Fragment.update (f : Fragment) (changed : List Nat) : Fragment :=
  if f.mounted then
    { f with
      renderables := f.renderables.map (fun r => (r.1, r.2 ++ [changed]))
      controllers := f.controllers.map (fun c => (c.1, c.2 ++ [changed])) }
  else f

/-- Model of `Fragment::full_update` (fragment/mod.rs lines 106-116):
`update` with the collected key set of the dependency index. -/
def Fragment.full_update (f : Fragment) : Fragment :=
  f.update f.dependencies.keys

/-- Model of `<Fragment as Dynamic>::mount` (lines 132-181) at the
instrumentation level: marks the fragment mounted (node placement for this
generation is not needed by the claims settled on this model). -/
def Fragment.mount (f : Fragment) : Fragment := { f with mounted := true }

/-- The host-tree removals performed by `<Fragment as Dynamic>::detach`
(fragment/mod.rs lines 183-189): `self.static_nodes.iter().for_each(|(_,
node)| node.parent_node()...remove_child(node)...)` — every static node is
removed from its parent, with no filtering on `parent_id`. -/
def Fragment.detachRemovals (f : Fragment) : List Nat :=
  f.static_nodes.map (·.2)

/-- Model of `<Fragment as Dynamic>::detach` on the fragment state itself
(lines 183-200): parts are told to detach and `mounted` is cleared. -/
def Fragment.detach (f : Fragment) : Fragment := { f with mounted := false }

theorem fm_update_broadcast (f : Fragment) (changed : List Nat)
    (hm : f.mounted = true) (r : Option Nat × List (List Nat))
    (hr : r ∈ f.renderables) :
    (r.1, r.2 ++ [changed]) ∈ (f.update changed).renderables := by
  simp only [Fragment.update, hm, if_pos]
  exact List.mem_map.mpr ⟨r, hr, rfl⟩

/-- Concrete fragment/mod.rs fragment with a top-level static node 10 and a
static node 11 nested under it (`parent_id = Some 0`). -/
def exFM : Fragment :=
  { static_nodes := [(none, 10), (some 0, 11)]
    renderables := []
    controllers := []
    dependencies := HashMapList.new
    mounted := true }

/-- C7, counterexample.  The claim says `detach` removes from its host
parent exactly the static nodes that have no `parentIndex`, leaving nodes
with a `parentIndex` alone.  The `<Fragment as Dynamic>::detach` of
fragment/mod.rs removes every static node from its parent with no filter:
for `exFM` it removes both node 10 (top level) and node 11 (parentIndex
`Some 0`), where the claim predicts only `[10]`. -/
theorem c7_detach_removal_counterexample :
    exFM.detachRemovals = [10, 11]
      ∧ ¬ exFM.detachRemovals
          = (exFM.static_nodes.filter (fun sn => sn.1 = none)).map (·.2) := by
  constructor
  · rfl
  · decide

end FM

namespace DRCond

/-- Calls the `Conditional` of fragment/dom_renderable/conditional.rs makes
on its nested `Fragment` and on the host tree, reified as events. -/
inductive Event : Type
  | nestedMount
  | nestedFullUpdate
  | nestedUpdate (changed : List Nat)
  | nestedDetach (top_level : Bool)
  | anchorRemove
deriving DecidableEq, Repr

/-- Model of `Conditional<Ctx>` (conditional.rs): the `check_condition`
closure and the `fragment_mounted` flag.  The nested fragment's reaction is
reified in the event trace, so only the flag is state here. -/
structure Conditional (Ctx : Type) : Type where
  check_condition : Ctx → Bool
  fragment_mounted : Bool

/-- Model of `<Conditional as DomRenderable>::update` (conditional.rs lines
54-69): evaluate the condition; on a false-to-true transition mount the
nested fragment and run its `full_update`, setting the flag; on
true-to-false detach it with `top_level = true`, clearing the flag; when
unchanged and mounted, forward `update(context, changed)`; when unchanged
and unmounted, do nothing. -/
def Conditional.update {Ctx : Type} (c : Conditional Ctx) (ctx : Ctx)
    (changed : List Nat) : Conditional Ctx × List Event :=
  let should_mount := c.check_condition ctx
  if ¬ c.fragment_mounted ∧ should_mount then
    ({ c with fragment_mounted := true }, [Event.nestedMount, Event.nestedFullUpdate])
  else if c.fragment_mounted ∧ ¬ should_mount then
    ({ c with fragment_mounted := false }, [Event.nestedDetach true])
  else if c.fragment_mounted then
    (c, [Event.nestedUpdate changed])
  else
    (c, [])

/-- Model of `<Conditional as DomRenderable>::detach` (conditional.rs lines
71-81): the anchor is removed from its parent unconditionally (no
`top_level` check), then the nested fragment is detached, propagating
`top_level`, when it is mounted. -/
def Conditional.detach {Ctx : Type} (c : Conditional Ctx) (top_level : Bool) :
    Conditional Ctx × List Event :=
  if c.fragment_mounted then
    ({ c with fragment_mounted := false },
      [Event.anchorRemove, Event.nestedDetach top_level])
  else
    (c, [Event.anchorRemove])

/-- Run a sequence of `update` calls, accumulating all events in order. -/
def Conditional.run {Ctx : Type} :
    Conditional Ctx → List (Ctx × List Nat) → Conditional Ctx × List Event
  | c, [] => (c, [])
  | c, call :: calls =>
    let step := c.update call.1 call.2
    let rest := Conditional.run step.1 calls
    (rest.1, step.2 ++ rest.2)

/-- Number of false-to-true boundaries of the condition sequence, starting
from the given current flag value. -/
def rises : Bool → List Bool → Nat
  | _, [] => 0
  | prev, b :: bs => (if prev = false ∧ b = true then 1 else 0) + rises b bs

/-- Number of true-to-false boundaries of the condition sequence, starting
from the given current flag value. -/
def falls : Bool → List Bool → Nat
  | _, [] => 0
  | prev, b :: bs => (if prev = true ∧ b = false then 1 else 0) + falls b bs

/-- True for the events that mount the nested fragment. -/
def Event.isNestedMount : Event → Bool
  | Event.nestedMount => true
  | _ => false

/-- True for the events that detach the nested fragment. -/
def Event.isNestedDetach : Event → Bool
  | Event.nestedDetach _ => true
  | _ => false

theorem cond_update_flag {Ctx : Type} (c : Conditional Ctx) (ctx : Ctx)
    (changed : List Nat) :
    (c.update ctx changed).1.fragment_mounted = c.check_condition ctx := by
  rw [Conditional.update]
  by_cases hm : c.fragment_mounted = true
  · by_cases hc : c.check_condition ctx = true <;> simp [hm, hc]
  · have hm' : c.fragment_mounted = false := by
      cases h : c.fragment_mounted
      · rfl
      · exact absurd h hm
    by_cases hc : c.check_condition ctx = true <;> simp [hm', hc]

theorem cond_run_counts {Ctx : Type} (c : Conditional Ctx)
    (calls : List (Ctx × List Nat)) :
    ((c.run calls).2.countP Event.isNestedMount
        = rises c.fragment_mounted (calls.map (fun x => c.check_condition x.1)))
  ∧ ((c.run calls).2.countP Event.isNestedDetach
        = falls c.fragment_mounted (calls.map (fun x => c.check_condition x.1))) := by
  induction calls generalizing c with
  | nil => exact ⟨rfl, rfl⟩
  | cons call calls ih =>
    have hflag := cond_update_flag c call.1 call.2
    have hcheck : ∀ ctx,
        (c.update call.1 call.2).1.check_condition ctx = c.check_condition ctx := by
      intro ctx
      rw [Conditional.update]
      by_cases hm : c.fragment_mounted = true <;>
        by_cases hc : c.check_condition call.1 = true <;> simp [hm, hc]
    obtain ⟨ihm, ihd⟩ := ih (c.update call.1 call.2).1
    constructor
    · show ((c.update call.1 call.2).2
          ++ ((c.update call.1 call.2).1.run calls).2).countP Event.isNestedMount = _
      rw [List.countP_append, ihm, hflag]
      simp only [List.map_map, List.map_cons, rises]
      have harg : (calls.map (fun x => (c.update call.1 call.2).1.check_condition x.1))
          = calls.map (fun x => c.check_condition x.1) :=
        List.map_congr_left (fun x _ => hcheck x.1)
      rw [harg]
      rw [Conditional.update]
      by_cases hm : c.fragment_mounted = true <;>
        by_cases hc : c.check_condition call.1 = true <;>
        simp [hm, hc, Event.isNestedMount, List.countP_cons]
    · show ((c.update call.1 call.2).2
          ++ ((c.update call.1 call.2).1.run calls).2).countP Event.isNestedDetach = _
      rw [List.countP_append, ihd, hflag]
      simp only [List.map_map, List.map_cons, falls]
      have harg : (calls.map (fun x => (c.update call.1 call.2).1.check_condition x.1))
          = calls.map (fun x => c.check_condition x.1) :=
        List.map_congr_left (fun x _ => hcheck x.1)
      rw [harg]
      rw [Conditional.update]
      by_cases hm : c.fragment_mounted = true <;>
        by_cases hc : c.check_condition call.1 = true <;>
        simp [hm, hc, Event.isNestedDetach, List.countP_cons]

/-- Model of the legacy `Conditional<Ctx>` of component/fragment.rs (lines
111-155): it reads the nested fragment's own `mounted` flag as the actual
state.  Here the flag is kept directly. -/
structure LegacyConditional (Ctx : Type) : Type where
  check_condition : Ctx → Bool
  fragment_mounted : Bool

/-- Model of the legacy `Conditional::update` (component/fragment.rs lines
132-150): when the desired state differs from the actual one, mount or
detach the nested fragment (that generation's `Fragment::mount` populates
its parts while mounting, with no separate full update, and its `detach`
takes no `top_level` argument); when the state is unchanged, do nothing at
all — in particular no `update` is forwarded to the nested fragment. -/
def LegacyConditional.update {Ctx : Type} (c : LegacyConditional Ctx)
    (ctx : Ctx) : LegacyConditional Ctx × List Event :=
  let desired_state := c.check_condition ctx
  if desired_state ≠ c.fragment_mounted then
    if desired_state then
      ({ c with fragment_mounted := true }, [Event.nestedMount])
    else
      ({ c with fragment_mounted := false }, [Event.nestedDetach true])
  else
    (c, [])

/-- Concrete legacy conditional that is mounted with a constantly-true
condition. -/
def exLC : LegacyConditional Unit :=
  { check_condition := fun _ => true, fragment_mounted := true }

/-- C3, counterexample.  The claim says that when the condition is unchanged
and the nested fragment is mounted, `update` forwards `update(changed)` to
the nested fragment.  The legacy `Conditional::update` of
component/fragment.rs has no such branch: for `exLC` (mounted, condition
still true) it performs no nested-fragment call at all, where the claim
predicts a forwarded `update([0])`. -/
theorem c3_legacy_no_forward_counterexample :
    (exLC.update ()).2 = []
      ∧ ¬ (exLC.update ()).2 = [Event.nestedUpdate [0]] := by
  constructor
  · rfl
  · decide

/-- C3, amended.  For the dom_renderable `Conditional` (conditional.rs) the
claim holds verbatim: an unchanged condition forwards `update(changed)` when
mounted and does nothing when unmounted (so no mount and no detach); a
false-to-true transition emits exactly mount plus `full_update` and sets the
flag; a true-to-false transition emits exactly `detach(top_level = true)`
and clears it; over any call sequence the nested mount count equals the
number of false-to-true boundaries and the detach count the number of
true-to-false boundaries, so both stay at 1 after a single transition; and
two consecutive updates with the same condition value give a second call
with no mount and no detach.  The legacy `Conditional` of
component/fragment.rs also never re-mounts or re-detaches on an unchanged
condition, but it performs nothing at all in that case (no forwarding), and
its false-to-true transition mounts without a separate full update. -/
theorem c3_conditional_idempotence {Ctx : Type} (c : Conditional Ctx)
    (ctx : Ctx) (changed : List Nat) (calls : List (Ctx × List Nat))
    (lc : LegacyConditional Ctx) :
    (c.check_condition ctx = c.fragment_mounted →
      (c.update ctx changed).2
        = if c.fragment_mounted then [Event.nestedUpdate changed] else [])
  ∧ (c.fragment_mounted = false → c.check_condition ctx = true →
      (c.update ctx changed).2 = [Event.nestedMount, Event.nestedFullUpdate]
        ∧ (c.update ctx changed).1.fragment_mounted = true)
  ∧ (c.fragment_mounted = true → c.check_condition ctx = false →
      (c.update ctx changed).2 = [Event.nestedDetach true]
        ∧ (c.update ctx changed).1.fragment_mounted = false)
  ∧ (∀ ctx2 : Ctx, ∀ changed2 : List Nat,
      c.check_condition ctx2 = c.check_condition ctx →
        (((c.update ctx changed).1.update ctx2 changed2).2.countP
            Event.isNestedMount = 0
          ∧ ((c.update ctx changed).1.update ctx2 changed2).2.countP
            Event.isNestedDetach = 0))
  ∧ ((c.run calls).2.countP Event.isNestedMount
      = rises c.fragment_mounted (calls.map (fun x => c.check_condition x.1)))
  ∧ ((c.run calls).2.countP Event.isNestedDetach
      = falls c.fragment_mounted (calls.map (fun x => c.check_condition x.1)))
  ∧ (lc.check_condition ctx = lc.fragment_mounted → (lc.update ctx).2 = []) := by
  refine ⟨?_, ?_, ?_, ?_, (cond_run_counts c calls).1, (cond_run_counts c calls).2, ?_⟩
  · intro h
    rw [Conditional.update]
    by_cases hm : c.fragment_mounted = true
    · simp [hm, h ▸ hm]
    · have hm' : c.fragment_mounted = false := by
        cases hmm : c.fragment_mounted
        · rfl
        · exact absurd hmm hm
      simp [hm', h ▸ hm']
  · intro hm hc
    refine ⟨?_, by rw [cond_update_flag, hc]⟩
    rw [Conditional.update]
    simp [hm, hc]
  · intro hm hc
    refine ⟨?_, by rw [cond_update_flag, hc]⟩
    rw [Conditional.update]
    simp [hm, hc]
  · intro ctx2 changed2 heq
    have hflag := cond_update_flag c ctx changed
    have hcheck : (c.update ctx changed).1.check_condition = c.check_condition := by
      rw [Conditional.update]
      by_cases hm : c.fragment_mounted = true <;>
        by_cases hc : c.check_condition ctx = true <;> simp [hm, hc]
    rw [Conditional.update]
    by_cases hc2 : c.check_condition ctx2 = true
    · have : (c.update ctx changed).1.fragment_mounted = true := by
        rw [hflag, ← heq, hc2]
      simp [this, hcheck, hc2, Event.isNestedMount, Event.isNestedDetach]
    · have hc2' : c.check_condition ctx2 = false := by
        cases hcc : c.check_condition ctx2
        · rfl
        · exact absurd hcc hc2
      have : (c.update ctx changed).1.fragment_mounted = false := by
        rw [hflag, ← heq, hc2']
      simp [this, hcheck, hc2', Event.isNestedMount, Event.isNestedDetach]
  · intro h
    rw [LegacyConditional.update]
    simp [h]

/-- Witness for `c3_conditional_idempotence`: a conditional whose condition
flips to true mounts exactly once with a full update, and with the condition
held true a second update emits no mount and no detach. -/
theorem c3_conditional_idempotence_witness :
    ((Conditional.mk (fun b : Bool => b) false).update true [0]).2
        = [Event.nestedMount, Event.nestedFullUpdate]
      ∧ (((Conditional.mk (fun b : Bool => b) true).update true [0]).1.update
          true [1]).2.countP Event.isNestedMount = 0 :=
  ⟨((c3_conditional_idempotence (Conditional.mk (fun b : Bool => b) false) true
      [0] [] (LegacyConditional.mk (fun _ => true) true)).2.1 rfl rfl).1,
    ((c3_conditional_idempotence (Conditional.mk (fun b : Bool => b) true) true
      [0] [] (LegacyConditional.mk (fun _ => true) true)).2.2.2.1 true [1] rfl).1⟩

end DRCond

namespace DREach

/-- Calls an `Each` (each.rs) or `Iterator` (iterator.rs) part makes on its
child fragments and on the host tree, reified as events.  Children are named
by the identity of the fragment instance. -/
inductive Event : Type
  | childDetach (id : Nat) (top_level : Bool)
  | childMount (id : Nat)
  | childUpdate (id : Nat) (changed : List Nat)
  | anchorRemove
deriving DecidableEq, Repr

/-- One retained child fragment: a fresh instance identity plus the built
fragment/mod.rs `Fragment` state. -/
structure Child : Type where
  id : Nat
  frag : FM.Fragment
deriving DecidableEq, Repr

/-- Model of `Each<Ctx>` (each.rs) / `Iterator<Ctx>` (iterator.rs): the
`get_items` closure and the `mounted_fragments: Option<Vec<Fragment>>`
store.  An item (`FragmentBuilder`) is abstracted to the number of dynamic
renderables the built child fragment carries, which is all the claims about
this part observe; `FragmentBuilder::build` always yields an unmounted
fragment. -/
structure Each (Ctx : Type) : Type where
  get_items : Ctx → List Nat
  mounted_fragments : Option (List Child)

/-- Model of `FragmentBuilder::build` for a child item: a fresh, unmounted
fragment/mod.rs `Fragment` with the item's renderables, carrying a fresh
instance identity. -/
def buildChild (renderableCount : Nat) (freshId : Nat) : Child :=
  { id := freshId
    frag :=
      { static_nodes := []
        renderables := List.replicate renderableCount (none, [])
        controllers := []
        dependencies := HML.HashMapList.new
        mounted := false } }

/-- Model of `Each::detach_fragments` (each.rs lines 53-59):
`mounted_fragments.take()` and detach each retained child, propagating
`top_level`. -/
def Each.detach_fragments {Ctx : Type} (e : Each Ctx) (top_level : Bool) :
    Each Ctx × List Event :=
  ({ e with mounted_fragments := none },
    (e.mounted_fragments.getD []).map (fun c => Event.childDetach c.id top_level))

/-- The per-item body of `Each::update`: for each item, build a fresh
fragment (fresh identity), mount it at the anchor and call its
`update(context, changed)`, in item order. -/
def Each.buildChildren (changed : List Nat) : List Nat → Nat → List Child
  | [], _ => []
  | n :: rest, counter =>
    { buildChild n counter with
        frag := (((buildChild n counter).frag.mount).update changed) }
      :: Each.buildChildren changed rest (counter + 1)

/-- Model of `<Each as DomRenderable>::update` (each.rs lines 70-88,
identically iterator.rs lines 79-96): unconditionally detach all currently
retained child fragments with `top_level = true`; then for each item of
`get_items(context)`, build a fresh fragment, mount it at the anchor, call
its `update(context, changed)` (the built fragment is mounted, so the
broadcast `Fragment::update` reaches every renderable — the full-update
effect), and retain exactly the new list.  Takes and returns the fresh-id
counter used to mint child identities. -/
def Each.update {Ctx : Type} (e : Each Ctx) (ctx : Ctx) (changed : List Nat)
    (counter : Nat) : Each Ctx × List Event × Nat :=
  let old := e.mounted_fragments.getD []
  let detachEvents := old.map (fun c => Event.childDetach c.id true)
  let items := e.get_items ctx
  let children := Each.buildChildren changed items counter
  let mountEvents := children.flatMap (fun c =>
    [Event.childMount c.id, Event.childUpdate c.id changed])
  ({ e with mounted_fragments := some children },
    detachEvents ++ mountEvents, counter + items.length)

/-- Model of `<Each as DomRenderable>::detach` (each.rs lines 90-98):
detach all retained children propagating `top_level`, then remove the
anchor from its parent unconditionally. -/
def Each.detach {Ctx : Type} (e : Each Ctx) (top_level : Bool) :
    Each Ctx × List Event :=
  let step := e.detach_fragments top_level
  (step.1, step.2 ++ [Event.anchorRemove])

theorem buildChildren_length (changed : List Nat) (items : List Nat)
    (counter : Nat) :
    (Each.buildChildren changed items counter).length = items.length := by
  induction items generalizing counter with
  | nil => rfl
  | cons n rest ih => simp [Each.buildChildren, ih]

theorem buildChildren_ids (changed : List Nat) (items : List Nat)
    (counter : Nat) :
    (Each.buildChildren changed items counter).map (fun c => c.id)
      = List.range' counter items.length := by
  induction items generalizing counter with
  | nil => rfl
  | cons n rest ih =>
    simp [Each.buildChildren, buildChild, List.range'_succ, ih]

theorem buildChildren_frag (changed : List Nat) (items : List Nat)
    (counter : Nat) (c : Child)
    (hc : c ∈ Each.buildChildren changed items counter) :
    c.frag.mounted = true ∧ ∀ r ∈ c.frag.renderables, r = (none, [changed]) := by
  induction items generalizing counter with
  | nil => cases hc
  | cons n rest ih =>
    rw [Each.buildChildren] at hc
    rcases List.mem_cons.mp hc with h | h
    · subst h
      constructor
      · rfl
      · intro r hr
        simp only [buildChild, FM.Fragment.mount, FM.Fragment.update, if_pos,
          List.map_map] at hr
        obtain ⟨x, hx, hfx⟩ := List.mem_map.mp hr
        have := List.eq_of_mem_replicate hx
        subst this
        exact hfx.symm
    · exact ih _ h

/-- C2.  Every `Each::update` call first detaches each currently retained
child fragment exactly once with `top_level = true`, then builds one fresh
fragment per item of `get_items(state)` (no previous instance is reused),
mounts them at the anchor in item order and gives each exactly one
`update(context, changed)` call — which, the fresh child being mounted,
reaches every one of its renderables, the full-update effect — and retains
exactly the new list: after an update yielding m items exactly m child
fragments are alive.  The freshness hypotheses (retained ids below the
fresh-id counter and no duplicates) are reestablished by the call, so they
hold inductively over any call sequence. -/
theorem c2_each_full_rebuild {Ctx : Type} (e : Each Ctx) (ctx : Ctx)
    (changed : List Nat) (counter : Nat)
    (hfresh : ∀ c ∈ e.mounted_fragments.getD [], c.id < counter)
    (hnodup : ((e.mounted_fragments.getD []).map (fun c => c.id)).Nodup) :
    ((e.update ctx changed counter).1.mounted_fragments
        = some (Each.buildChildren changed (e.get_items ctx) counter))
  ∧ (((e.update ctx changed counter).1.mounted_fragments.getD []).length
        = (e.get_items ctx).length)
  ∧ (∀ c ∈ e.mounted_fragments.getD [],
      ((e.update ctx changed counter).2.1).count (Event.childDetach c.id true) = 1)
  ∧ ((e.update ctx changed counter).2.1
      = (e.mounted_fragments.getD []).map (fun c => Event.childDetach c.id true)
        ++ ((e.update ctx changed counter).1.mounted_fragments.getD []).flatMap
            (fun c => [Event.childMount c.id, Event.childUpdate c.id changed]))
  ∧ (∀ c' ∈ (e.update ctx changed counter).1.mounted_fragments.getD [],
      ∀ c ∈ e.mounted_fragments.getD [], c'.id ≠ c.id)
  ∧ (∀ c' ∈ (e.update ctx changed counter).1.mounted_fragments.getD [],
      c'.frag.mounted = true ∧ ∀ r ∈ c'.frag.renderables, r = (none, [changed]))
  ∧ (∀ c' ∈ (e.update ctx changed counter).1.mounted_fragments.getD [],
      c'.id < (e.update ctx changed counter).2.2)
  ∧ (((e.update ctx changed counter).1.mounted_fragments.getD []).map
      (fun c => c.id)).Nodup := by
  have hmem_id : ∀ c' ∈ Each.buildChildren changed (e.get_items ctx) counter,
      ∃ i < (e.get_items ctx).length, c'.id = counter + i := by
    intro c' hc'
    have : c'.id ∈ (Each.buildChildren changed (e.get_items ctx) counter).map
        (fun c => c.id) := List.mem_map.mpr ⟨c', hc', rfl⟩
    rw [buildChildren_ids] at this
    obtain ⟨i, hi, hci⟩ := List.mem_range'.mp this
    exact ⟨i, hi, by omega⟩
  refine ⟨rfl, ?_, ?_, rfl, ?_, ?_, ?_, ?_⟩
  · show (Each.buildChildren changed (e.get_items ctx) counter).length = _
    exact buildChildren_length _ _ _
  · intro c hc
    show ((e.mounted_fragments.getD []).map (fun c => Event.childDetach c.id true)
        ++ (Each.buildChildren changed (e.get_items ctx) counter).flatMap
            (fun c => [Event.childMount c.id, Event.childUpdate c.id changed])).count
        (Event.childDetach c.id true) = 1
    rw [List.count_append]
    have h1 : ((e.mounted_fragments.getD []).map
        (fun c => Event.childDetach c.id true)).count (Event.childDetach c.id true)
        = 1 := by
      have hmapped : (e.mounted_fragments.getD []).map
          (fun c => Event.childDetach c.id true)
          = ((e.mounted_fragments.getD []).map (fun c => c.id)).map
              (fun i => Event.childDetach i true) := by
        rw [List.map_map]
        rfl
      rw [hmapped,
        List.count_map_of_injective _ (fun i => Event.childDetach i true)
          (fun a b hab => by cases hab; rfl) c.id]
      exact List.count_eq_one_of_mem hnodup (List.mem_map.mpr ⟨c, hc, rfl⟩)
    have h2 : ((Each.buildChildren changed (e.get_items ctx) counter).flatMap
        (fun c => [Event.childMount c.id, Event.childUpdate c.id changed])).count
        (Event.childDetach c.id true) = 0 := by
      rw [List.count_eq_zero]
      intro hmem
      obtain ⟨c', _, hin⟩ := List.mem_flatMap.mp hmem
      rcases List.mem_cons.mp hin with h | h
      · cases h
      · rcases List.mem_cons.mp h with h | h
        · cases h
        · cases h
    omega
  · intro c' hc' c hc
    obtain ⟨i, _, hci⟩ := hmem_id c' hc'
    have := hfresh c hc
    omega
  · intro c' hc'
    exact buildChildren_frag _ _ _ _ hc'
  · intro c' hc'
    obtain ⟨i, hi, hci⟩ := hmem_id c' hc'
    show c'.id < counter + (e.get_items ctx).length
    omega
  · show ((Each.buildChildren changed (e.get_items ctx) counter).map
      (fun c => c.id)).Nodup
    rw [buildChildren_ids]
    exact List.nodup_range' _ _

/-- Witness for `c2_each_full_rebuild`: an each block retaining one child
(id 0) rebuilt from two items ends with exactly 2 fresh children and exactly
one `detach(true)` for the old child. -/
theorem c2_each_full_rebuild_witness :
    (((Each.mk (fun _ : Unit => [1, 2]) (some [buildChild 1 0])).update () [7]
        1).1.mounted_fragments.getD []).length = 2
      ∧ (((Each.mk (fun _ : Unit => [1, 2]) (some [buildChild 1 0])).update ()
          [7] 1).2.1).count (Event.childDetach 0 true) = 1 :=
  ⟨(c2_each_full_rebuild (Each.mk (fun _ : Unit => [1, 2])
      (some [buildChild 1 0])) () [7] 1 (by decide) (by decide)).2.1,
    (c2_each_full_rebuild (Each.mk (fun _ : Unit => [1, 2])
      (some [buildChild 1 0])) () [7] 1 (by decide) (by decide)).2.2.1
      (buildChild 1 0) (by decide)⟩

end DREach

namespace DRUpd

/-- Host-tree calls an `Updatable` part makes while detaching. -/
inductive Event : Type
  | textNodeRemove
deriving DecidableEq, Repr

/-- Model of `Updatable<Ctx>` from fragment/dom_renderable/updatable.rs:
`get_text` plus the current data of its owned text node. -/
structure Updatable (Ctx : Type) : Type where
  get_text : Ctx → String
  text : String

/-- Model of `<Updatable as DomRenderable>::update` (updatable.rs lines
38-40): unconditionally overwrite the text node data. -/
def Updatable.update {Ctx : Type} (u : Updatable Ctx) (ctx : Ctx) :
    Updatable Ctx :=
  { u with text := u.get_text ctx }

/-- Model of `<Updatable as DomRenderable>::detach` (updatable.rs lines
42-49): the text node is removed from its parent only when `top_level` is
true; otherwise no host-tree call is made. -/
def Updatable.detach {Ctx : Type} (_ : Updatable Ctx) (top_level : Bool) :
    List Event :=
  if top_level then [Event.textNodeRemove] else []

end DRUpd

/-- C8, counterexample.  The claim says a Conditional removes its persistent
anchor only when `topLevel` is true.  `<Conditional as DomRenderable>::detach`
(conditional.rs lines 71-81) removes the anchor with no `top_level` check:
for an unmounted conditional, `detach(false)` performs the host-tree call
`[anchorRemove]`, where the claim predicts no removal at all. -/
theorem c8_conditional_detach_counterexample :
    ((DRCond.Conditional.mk (fun _ : Unit => true) false).detach false).2
        = [DRCond.Event.anchorRemove]
      ∧ ¬ ((DRCond.Conditional.mk (fun _ : Unit => true) false).detach false).2
        = [] := by
  constructor
  · rfl
  · decide

/-- C8, amended.  `detach(topLevel = false)` on a TextBinding performs no
host-tree removal (its text node is removed exactly when `topLevel` is
true), and child-fragment detaching propagates `topLevel` in either case
(an Each passes it to every retained child, a Conditional to its nested
fragment when mounted); but a Conditional and an Each remove their
persistent anchor unconditionally on every `detach`, regardless of
`topLevel`. -/
theorem c8_detach_toplevel {Ctx : Type} (u : DRUpd.Updatable Ctx)
    (c : DRCond.Conditional Ctx) (e : DREach.Each Ctx) (tl : Bool) :
    (u.detach true = [DRUpd.Event.textNodeRemove] ∧ u.detach false = [])
  ∧ (DRCond.Event.anchorRemove ∈ (c.detach tl).2)
  ∧ (c.fragment_mounted = true → DRCond.Event.nestedDetach tl ∈ (c.detach tl).2)
  ∧ (c.fragment_mounted = false →
      (c.detach tl).2.countP DRCond.Event.isNestedDetach = 0)
  ∧ (DREach.Event.anchorRemove ∈ (e.detach tl).2)
  ∧ (∀ ch ∈ e.mounted_fragments.getD [],
      DREach.Event.childDetach ch.id tl ∈ (e.detach tl).2) := by
  refine ⟨⟨rfl, rfl⟩, ?_, ?_, ?_, ?_, ?_⟩
  · rw [DRCond.Conditional.detach]
    by_cases hm : c.fragment_mounted = true <;> simp [hm]
  · intro hm
    rw [DRCond.Conditional.detach]
    simp [hm]
  · intro hm
    rw [DRCond.Conditional.detach]
    simp [hm, DRCond.Event.isNestedDetach]
  · rw [DREach.Each.detach]
    simp [DREach.Each.detach_fragments]
  · intro ch hch
    rw [DREach.Each.detach]
    simp only [DREach.Each.detach_fragments, List.mem_append]
    exact Or.inl (List.mem_map.mpr ⟨ch, hch, rfl⟩)

/-- Witness for `c8_detach_toplevel`: a mounted conditional's `detach(false)`
propagates `top_level = false` to the nested fragment. -/
theorem c8_detach_toplevel_witness :
    DRCond.Event.nestedDetach false
      ∈ ((DRCond.Conditional.mk (fun _ : Unit => true) true).detach false).2 :=
  (c8_detach_toplevel (DRUpd.Updatable.mk (fun _ : Unit => "") "")
    (DRCond.Conditional.mk (fun _ : Unit => true) true)
    (DREach.Each.mk (fun _ : Unit => []) none) false).2.2.1 rfl

namespace UP

/-- Calls a nested-component wrapper makes during `update`, reified: the
adapter invocation (with the parent-side changed ids it receives) and the
inner dynamic's `update` (with the ids it is forwarded). -/
inductive Event : Type
  | adapterCall (changed : List Nat)
  | childUpdate (changed : List Nat)
deriving DecidableEq, Repr

/-- True for adapter-invocation events. -/
def Event.isAdapterCall : Event → Bool
  | Event.adapterCall _ => true
  | _ => false

/-- True for inner-update events. -/
def Event.isChildUpdate : Event → Bool
  | Event.childUpdate _ => true
  | _ => false

/-- Model of `UpdateProxy` (dynamic/update_proxy.rs): the `proxy_update`
adapter, `Fn(&[usize]) -> Option<Vec<usize>>`.  The wrapped `Box<dyn
Dynamic>` is observed through the event trace. -/
structure UpdateProxy : Type where
  proxy_update : List Nat → Option (List Nat)

/-- Model of `<UpdateProxy as Dynamic>::update` (update_proxy.rs lines
42-50): run the adapter once on the incoming ids; only when it returns
`Some(changed)` run the inner dynamic's update, passing exactly the returned
ids. -/
def UpdateProxy.update (p : UpdateProxy) (changed : List Nat) : List Event :=
  Event.adapterCall changed ::
    (match p.proxy_update changed with
      | none => []
      | some ids => [Event.childUpdate ids])

/-- Model of the legacy `<NestedController as Dynamic>::update`
(nested/controller.rs lines 24-32): run the attached update function (whose
return is unit — it cannot veto), then unconditionally run the child
controller's update with the parent's own `changed` ids (the source carries
a TODO admitting the parent-to-child id conversion is missing). -/
def legacyNestedUpdate (changed : List Nat) : List Event :=
  [Event.adapterCall changed, Event.childUpdate changed]

/-- C4, counterexample.  The claim says that when the adapter deems nothing
relevant the child controller's update is not invoked at all, and the
forwarded ids are never the parent's raw ids.  The legacy
`NestedController::update` invoked with parent ids `[0]` always performs
`childUpdate [0]` — the child is updated unconditionally and receives
exactly the parent's raw ids. -/
theorem c4_legacy_raw_forward_counterexample :
    legacyNestedUpdate [0] = [Event.adapterCall [0], Event.childUpdate [0]]
      ∧ Event.childUpdate [0] ∈ legacyNestedUpdate [0] := by
  constructor
  · rfl
  · decide

/-- C4, amended.  For the `UpdateProxy` wrapper the claim holds verbatim:
`update(S)` invokes the adapter exactly once with S; `None` means the inner
dynamic's update is not invoked at all; `Some(ids)` means it is invoked
exactly once carrying exactly `ids`.  The legacy `NestedController::update`
of nested/controller.rs instead runs its unit-returning update function and
then always forwards the parent's raw ids to the child controller. -/
theorem c4_update_proxy_adapter (p : UpdateProxy) (changed : List Nat) :
    ((p.update changed).countP Event.isAdapterCall = 1
      ∧ Event.adapterCall changed ∈ p.update changed)
  ∧ (p.proxy_update changed = none →
      ∀ ids : List Nat, Event.childUpdate ids ∉ p.update changed)
  ∧ (∀ ids : List Nat, p.proxy_update changed = some ids →
      (p.update changed).countP Event.isChildUpdate = 1
        ∧ Event.childUpdate ids ∈ p.update changed)
  ∧ (legacyNestedUpdate changed
      = [Event.adapterCall changed, Event.childUpdate changed]) := by
  refine ⟨⟨?_, ?_⟩, ?_, ?_, rfl⟩
  · rw [UpdateProxy.update]
    cases h : p.proxy_update changed <;>
      simp [List.countP_cons, Event.isAdapterCall]
  · exact List.mem_cons_self _ _
  · intro h ids
    rw [UpdateProxy.update, h]
    intro hmem
    rcases List.mem_cons.mp hmem with h2 | h2
    · cases h2
    · cases h2
  · intro ids h
    rw [UpdateProxy.update, h]
    exact ⟨by simp [List.countP_cons, Event.isChildUpdate, Event.isAdapterCall],
      by simp⟩

/-- Witness for `c4_update_proxy_adapter`: an adapter mapping parent id 0 to
child id 5 gives exactly one child update carrying `[5]`; an adapter
returning `None` gives no child update. -/
theorem c4_update_proxy_adapter_witness :
    (Event.childUpdate [5]
        ∈ (UpdateProxy.mk (fun ch => if ch = [0] then some [5] else none)).update [0])
      ∧ (Event.childUpdate [0]
        ∉ (UpdateProxy.mk (fun _ => none)).update [0]) :=
  ⟨((c4_update_proxy_adapter
      (UpdateProxy.mk (fun ch => if ch = [0] then some [5] else none)) [0]).2.2.1
      [5] rfl).2,
    (c4_update_proxy_adapter (UpdateProxy.mk (fun _ => none)) [0]).2.1 rfl [0]⟩

end UP

namespace CTRL

/-- The borrow-relevant steps of a controller's event-notify sequence, in
program order.  `acquireCompMut`/`releaseCompMut` bracket a
`RefCell::borrow_mut` on the shared component cell; `acquireCtrl`/
`releaseCtrl` bracket borrows of the controller cell (a different
`RefCell`); `invokeFragmentUpdate` runs the fragment update path (user
closures and nested-component adapters execute inside it) and
`invokeBoundUpdate` runs the bound-update hook — the two closure classes
that can synchronously re-enter the component. -/
inductive Action : Type
  | acquireCompMut
  | releaseCompMut
  | callHandleEvent
  | acquireCtrl
  | releaseCtrl
  | invokeFragmentUpdate
  | invokeBoundUpdate
deriving DecidableEq, Repr

/-- True for the actions that invoke a closure able to re-enter the
component (the fragment update path and the bound-update hook). -/
def Action.isReentrantInvoke : Action → Bool
  | Action.invokeFragmentUpdate => true
  | Action.invokeBoundUpdate => true
  | _ => false

/-- Effect of one action on the number of open mutable borrows of the
component cell. -/
def compStep (d : Nat) : Action → Nat
  | Action.acquireCompMut => d + 1
  | Action.releaseCompMut => d - 1
  | _ => d

/-- Whether every re-entrant closure invocation in the trace happens with
zero open mutable borrows of the component cell (running depth `d`). -/
def safeFrom (d : Nat) : List Action → Bool
  | [] => true
  | a :: rest =>
    (if a.isReentrantInvoke then decide (d = 0) else true)
      && safeFrom (compStep d a) rest

/-- Whether the trace never invokes a re-entrant closure while a mutable
borrow of the component cell is open. -/
def notifySafe (tr : List Action) : Bool := safeFrom 0 tr

/-- Open component-borrow count immediately before the first action
satisfying `p`, with running depth `d`. -/
def depthBeforeFirstFrom (d : Nat) (p : Action → Bool) :
    List Action → Option Nat
  | [] => none
  | a :: rest =>
    if p a then some d else depthBeforeFirstFrom (compStep d a) p rest

/-- Open component-borrow count immediately before the first action
satisfying `p`. -/
def depthBeforeFirst (p : Action → Bool) (tr : List Action) : Option Nat :=
  depthBeforeFirstFrom 0 p tr

/-- The event-notify sequence of the current controller generation, read
off controller/mod.rs lines 55-63 and controller/ref.rs lines 35-53: the
event closure takes `component.borrow_mut()` inside a block expression
whose end releases it, so `handle_event` runs under the borrow and the
borrow is gone before `notify_changed` is entered; `notify_changed` borrows
the controller cell, runs `update_fragment` (the fragment update path, with
no component borrow open), clones `bound_update`, releases the controller
borrow at the end of its block, and only then invokes the bound-update
hook. -/
def newNotifyTrace : List Action :=
  [Action.acquireCompMut, Action.callHandleEvent, Action.releaseCompMut,
    Action.acquireCtrl, Action.invokeFragmentUpdate, Action.releaseCtrl,
    Action.invokeBoundUpdate]

/-- The event closure of the legacy controller generation, read off
component/controller.rs lines 48-60 (the component/controller/mod.rs
closure, lines 61-73, is identical): `let mut component =
component.borrow_mut()` binds the guard for the whole closure body, so
`fragment.update(&component, &changed)` — the fragment update path — runs
while the mutable component borrow is still open; both borrows are released
only when the closure body ends. -/
def legacyEventTrace : List Action :=
  [Action.acquireCompMut, Action.callHandleEvent, Action.acquireCtrl,
    Action.invokeFragmentUpdate, Action.releaseCtrl, Action.releaseCompMut]

/-- C5, counterexample.  The claim says the mutable borrow of the shared
component cell is released before any closure that can re-enter the
component is invoked.  In the legacy event closure the fragment update path
is invoked with the component borrow still open (depth 1), so the sequence
is not safe in the claim's sense. -/
theorem c5_legacy_borrow_counterexample :
    depthBeforeFirst (fun a => a = Action.invokeFragmentUpdate) legacyEventTrace
        = some 1
      ∧ ¬ notifySafe legacyEventTrace = true := by
  constructor
  · rfl
  · decide

/-- C5, amended.  In the current controller generation (controller/mod.rs
event closure plus ControllerRef::notify_changed) the component cell's
mutable borrow is scoped to the `handle_event` block and released before
the notify path runs, so the fragment update path and the bound-update hook
are both invoked with zero open component borrows — a synchronous
parent-to-child-to-parent chain can re-borrow the component there.  The
legacy event closure of component/controller.rs instead holds the mutable
borrow across its fragment update call (depth 1 at the invocation). -/
theorem c5_notify_borrow_discipline :
    notifySafe newNotifyTrace = true
      ∧ depthBeforeFirst (fun a => a = Action.invokeFragmentUpdate) newNotifyTrace
          = some 0
      ∧ depthBeforeFirst (fun a => a = Action.invokeBoundUpdate) newNotifyTrace
          = some 0
      ∧ depthBeforeFirst (fun a => a = Action.invokeFragmentUpdate)
          legacyEventTrace = some 1 := by
  refine ⟨rfl, rfl, rfl, rfl⟩

end CTRL

namespace ER

/-- Association lookup in a list of `(event_id, callback)` pairs; the map
side of `HashMap<usize, Function>`. -/
def assocLookup : List (Nat × Nat) → Nat → Option Nat
  | [], _ => none
  | kv :: rest, k => if kv.1 = k then some kv.2 else assocLookup rest k

/-- Model of `EventRegistry` (fragment/event_registry.rs): the `closures`
cache maps an event id to the identity of the `js_sys::Function` created
for it (callback identities are minted from `counter`, standing for the
reference identity of a freshly created closure — each
`Closure::new(..).into_js_value()` call yields a new object). -/
structure EventRegistry : Type where
  closures : List (Nat × Nat)
  counter : Nat

/-- Model of `EventRegistry::get` (event_registry.rs lines 30-40):
`self.closures.entry(event_id).or_insert_with(..)` — return the cached
callback when present, otherwise create a fresh one, cache it and return
it.  Returns the callback identity and the registry afterwards. -/
def EventRegistry.get (r : EventRegistry) (event_id : Nat) :
    Nat × EventRegistry :=
  match assocLookup r.closures event_id with
  | some f => (f, r)
  | none =>
    (r.counter,
      { closures := r.closures ++ [(event_id, r.counter)],
        counter := r.counter + 1 })

/-- Well-formedness of a registry state: cached callback identities were
minted below the counter, the cache is functional on keys, and distinct
entries never share a callback identity.  Holds for the empty registry and
is preserved by `get`. -/
def WF (r : EventRegistry) : Prop :=
  (∀ kv ∈ r.closures, kv.2 < r.counter)
  ∧ (∀ kv ∈ r.closures, ∀ kv' ∈ r.closures, kv.1 = kv'.1 → kv.2 = kv'.2)
  ∧ (∀ kv ∈ r.closures, ∀ kv' ∈ r.closures, kv.2 = kv'.2 → kv.1 = kv'.1)

theorem assocLookup_mem {l : List (Nat × Nat)} {k v : Nat}
    (h : assocLookup l k = some v) : (k, v) ∈ l := by
  induction l with
  | nil => cases h
  | cons kv rest ih =>
    rw [assocLookup] at h
    by_cases hk : kv.1 = k
    · rw [if_pos hk] at h
      cases h
      exact List.mem_cons.mpr (Or.inl (by rw [← hk]))
    · rw [if_neg hk] at h
      exact List.mem_cons.mpr (Or.inr (ih h))

theorem assocLookup_none_not_mem {l : List (Nat × Nat)} {k : Nat}
    (h : assocLookup l k = none) : ∀ kv ∈ l, kv.1 ≠ k := by
  induction l with
  | nil => intro kv hkv; cases hkv
  | cons kv0 rest ih =>
    rw [assocLookup] at h
    intro kv hkv
    by_cases hk : kv0.1 = k
    · rw [if_pos hk] at h
      cases h
    · rw [if_neg hk] at h
      rcases List.mem_cons.mp hkv with h2 | h2
      · subst h2
        exact hk
      · exact ih h kv h2

theorem assocLookup_append_right {l l2 : List (Nat × Nat)} {k : Nat}
    (h : assocLookup l k = none) :
    assocLookup (l ++ l2) k = assocLookup l2 k := by
  induction l with
  | nil => rfl
  | cons kv rest ih =>
    rw [assocLookup] at h
    by_cases hk : kv.1 = k
    · rw [if_pos hk] at h
      cases h
    · rw [if_neg hk] at h
      simpa [assocLookup, hk] using ih h

theorem assocLookup_append_left {l l2 : List (Nat × Nat)} {k v : Nat}
    (h : assocLookup l k = some v) :
    assocLookup (l ++ l2) k = some v := by
  induction l with
  | nil => cases h
  | cons kv rest ih =>
    rw [assocLookup] at h
    by_cases hk : kv.1 = k
    · rw [if_pos hk] at h
      simpa [assocLookup, hk] using h
    · rw [if_neg hk] at h
      simpa [assocLookup, hk] using ih h

/-- C9.  For a well-formed `EventRegistry`: a repeated `get` for the same id
returns the identical cached callback and leaves the registry unchanged (the
first call creates the entry when absent); `get` for two distinct ids, in
sequence, returns distinct callbacks; and no cached entry is ever evicted —
every existing `(id, callback)` pair survives any `get`, and `get` on an id
already cached returns exactly the stored callback and changes nothing.
Well-formedness is preserved, so this holds along any call sequence. -/
theorem c9_event_registry_caching (r : EventRegistry) (hwf : WF r)
    (i j : Nat) :
    (((r.get i).2.get i).1 = (r.get i).1 ∧ ((r.get i).2.get i).2 = (r.get i).2)
  ∧ (i ≠ j → ((r.get i).2.get j).1 ≠ (r.get i).1)
  ∧ (∀ kv ∈ r.closures, kv ∈ (r.get i).2.closures)
  ∧ (∀ f : Nat, assocLookup r.closures i = some f → (r.get i).1 = f ∧ (r.get i).2 = r)
  ∧ WF (r.get i).2 := by
  obtain ⟨hlt, hfun, hinj⟩ := hwf
  have hwf2 : WF (r.get i).2 := by
    rw [EventRegistry.get]
    cases hl : assocLookup r.closures i with
    | some f => exact ⟨hlt, hfun, hinj⟩
    | none =>
      refine ⟨?_, ?_, ?_⟩
      · intro kv hkv
        rcases List.mem_append.mp hkv with h | h
        · exact Nat.lt_succ_of_lt (hlt kv h)
        · rcases List.mem_singleton.mp h with rfl
          exact Nat.lt_succ_self _
      · intro kv hkv kv' hkv'
        rcases List.mem_append.mp hkv with h | h <;>
          rcases List.mem_append.mp hkv' with h' | h'
        · exact hfun kv h kv' h'
        · rcases List.mem_singleton.mp h' with rfl
          intro hkk
          exact absurd hkk (assocLookup_none_not_mem hl kv h)
        · rcases List.mem_singleton.mp h with rfl
          intro hkk
          exact absurd hkk.symm (assocLookup_none_not_mem hl kv' h')
        · rcases List.mem_singleton.mp h with rfl
          rcases List.mem_singleton.mp h' with rfl
          intro _
          rfl
      · intro kv hkv kv' hkv'
        rcases List.mem_append.mp hkv with h | h <;>
          rcases List.mem_append.mp hkv' with h' | h'
        · exact hinj kv h kv' h'
        · rcases List.mem_singleton.mp h' with rfl
          intro hvv
          exact absurd (hvv ▸ hlt kv h) (Nat.lt_irrefl _)
        · rcases List.mem_singleton.mp h with rfl
          intro hvv
          exact absurd (hvv ▸ hlt kv' h') (Nat.lt_irrefl _)
        · rcases List.mem_singleton.mp h with rfl
          rcases List.mem_singleton.mp h' with rfl
          intro _
          rfl
  have get_some : ∀ (r' : EventRegistry) (k f : Nat),
      assocLookup r'.closures k = some f → r'.get k = (f, r') := by
    intro r' k f h
    rw [EventRegistry.get, h]
  have get_none : ∀ (r' : EventRegistry) (k : Nat),
      assocLookup r'.closures k = none →
        r'.get k = (r'.counter,
          { closures := r'.closures ++ [(k, r'.counter)],
            counter := r'.counter + 1 }) := by
    intro r' k h
    rw [EventRegistry.get, h]
  refine ⟨?_, ?_, ?_, ?_, hwf2⟩
  · cases hl : assocLookup r.closures i with
    | some f =>
      rw [get_some r i f hl, get_some r i f hl]
      exact ⟨rfl, rfl⟩
    | none =>
      rw [get_none r i hl]
      have hl2 : assocLookup
          (r.closures ++ [(i, r.counter)]) i = some r.counter := by
        rw [assocLookup_append_right hl]
        simp [assocLookup]
      rw [get_some _ i r.counter hl2]
      exact ⟨rfl, rfl⟩
  · intro hij
    cases hl : assocLookup r.closures i with
    | some f =>
      rw [get_some r i f hl]
      cases hl2 : assocLookup r.closures j with
      | some f2 =>
        rw [get_some r j f2 hl2]
        intro hff
        exact hij (hinj _ (assocLookup_mem hl2) _ (assocLookup_mem hl) hff).symm
      | none =>
        rw [get_none r j hl2]
        intro hff
        dsimp only at hff
        have h2 : f < r.counter := hlt _ (assocLookup_mem hl)
        omega
    | none =>
      rw [get_none r i hl]
      cases hl2 : assocLookup r.closures j with
      | some f2 =>
        have hl3 : assocLookup (r.closures ++ [(i, r.counter)]) j = some f2 :=
          assocLookup_append_left hl2
        rw [get_some _ j f2 hl3]
        intro hff
        dsimp only at hff
        have h2 : f2 < r.counter := hlt _ (assocLookup_mem hl2)
        omega
      | none =>
        have hl3 : assocLookup (r.closures ++ [(i, r.counter)]) j = none := by
          rw [assocLookup_append_right hl2]
          simp [assocLookup, hij]
        rw [get_none _ j hl3]
        simp
  · intro kv hkv
    cases hl : assocLookup r.closures i with
    | some f =>
      rw [get_some r i f hl]
      exact hkv
    | none =>
      rw [get_none r i hl]
      exact List.mem_append.mpr (Or.inl hkv)
  · intro f hf
    rw [get_some r i f hf]
    exact ⟨rfl, rfl⟩

/-- Witness for `c9_event_registry_caching`: starting from the empty
registry, `get 5` twice returns the same callback, and `get 6` after
`get 5` returns a different one. -/
theorem ER_WF_empty : WF (EventRegistry.mk [] 0) :=
  ⟨(fun kv hkv => by cases hkv), (fun kv hkv => by cases hkv),
    (fun kv hkv => by cases hkv)⟩

theorem c9_event_registry_caching_witness :
    ((((EventRegistry.mk [] 0).get 5).2.get 5).1 = ((EventRegistry.mk [] 0).get 5).1)
      ∧ ((((EventRegistry.mk [] 0).get 5).2.get 6).1 ≠ ((EventRegistry.mk [] 0).get 5).1) :=
  ⟨(c9_event_registry_caching (EventRegistry.mk [] 0) ER_WF_empty 5 6).1.1,
    (c9_event_registry_caching (EventRegistry.mk [] 0) ER_WF_empty 5 6).2.1
      (by decide)⟩

end ER

namespace CFDom

/-- The host tree, as an association from a parent node id to its ordered
child list; a node absent as a key has no children.  Models the mutable DOM
surface component/fragment.rs consumes (`append_child`, `insert_before`,
`remove_child`, `parent_node`). -/
abbrev Dom : Type := List (Nat × List Nat)

/-- Ordered child list of `p`. -/
def childList : Dom → Nat → List Nat
  | [], _ => []
  | kv :: rest, p => if kv.1 = p then kv.2 else childList rest p

/-- Replace the child list of `p` (creating the entry when absent). -/
def setChildren : Dom → Nat → List Nat → Dom
  | [], p, l => [(p, l)]
  | kv :: rest, p, l => if kv.1 = p then (p, l) :: rest else kv :: setChildren rest p l

/-- Remove `n` from every child list (a node has one parent, so this is the
`removeChild` a DOM `insertBefore` performs on a node that is being moved). -/
def eraseAllD (n : Nat) (dom : Dom) : Dom :=
  dom.map (fun kv => (kv.1, kv.2.erase n))

/-- Insert `n` before anchor `a` (when given; `none` appends); fails when
the anchor is not in the list, as the DOM call would. -/
def insertList (n : Nat) : Option Nat → List Nat → Option (List Nat)
  | none, l => some (l ++ [n])
  | some _, [] => none
  | some a, x :: xs =>
    if x = a then some (n :: x :: xs)
    else (insertList n (some a) xs).map (fun l => x :: l)

/-- Model of `parent.insert_before(node, anchor)` (and of `append_child`
when `a = none`): detach `n` from wherever it is, then place it in `p`'s
child list. -/
def insertBeforeD (dom : Dom) (p n : Nat) (a : Option Nat) : Option Dom :=
  (insertList n a (childList (eraseAllD n dom) p)).map
    (setChildren (eraseAllD n dom) p)

/-- Model of `node.parent_node()`: the key whose child list holds `n`. -/
def parentD (dom : Dom) (n : Nat) : Option Nat :=
  (dom.find? (fun kv => kv.2.contains n)).map (fun kv => kv.1)

/-- Model of `parent.remove_child(node)`: fails when `n` is not a child of
`p`, as the DOM call would. -/
def removeChildD (dom : Dom) (p n : Nat) : Option Dom :=
  if n ∈ childList dom p then
    some (setChildren dom p ((childList dom p).erase n))
  else none

/-- Every node id sitting in some child list of the tree is below `b`. -/
def DomBound (dom : Dom) (b : Nat) : Prop :=
  ∀ q x, x ∈ childList dom q → x < b

/-- The association is a forest: keys are unique, every child list is
duplicate-free, and no node is a child of two parents. -/
def TreeInv (dom : Dom) : Prop :=
  (dom.map (fun kv => kv.1)).Nodup
    ∧ (∀ q, (childList dom q).Nodup)
    ∧ (∀ n q1 q2, n ∈ childList dom q1 → n ∈ childList dom q2 → q1 = q2)

/-- The node occurs somewhere in the tree. -/
def Present (dom : Dom) (n : Nat) : Prop :=
  ∃ q, n ∈ childList dom q

end CFDom

namespace CFDom

theorem childList_setChildren_self (dom : Dom) (p : Nat) (l : List Nat) :
    childList (setChildren dom p l) p = l := by
  induction dom with
  | nil => simp [setChildren, childList]
  | cons kv rest ih =>
    by_cases h : kv.1 = p
    · simp [setChildren, childList, h]
    · simp [setChildren, childList, h, ih]

theorem childList_setChildren_ne (dom : Dom) (p q : Nat) (l : List Nat)
    (h : q ≠ p) : childList (setChildren dom p l) q = childList dom q := by
  induction dom with
  | nil => simp [setChildren, childList, Ne.symm h]
  | cons kv rest ih =>
    by_cases h1 : kv.1 = p
    · simp [setChildren, childList, h1, Ne.symm h]
    · by_cases h2 : kv.1 = q
      · rw [setChildren, if_neg h1, childList, if_pos h2, childList, if_pos h2]
      · rw [setChildren, if_neg h1, childList, if_neg h2, childList, if_neg h2]
        exact ih

theorem childList_eraseAllD (n : Nat) (dom : Dom) (q : Nat) :
    childList (eraseAllD n dom) q = (childList dom q).erase n := by
  induction dom with
  | nil => simp [eraseAllD, childList]
  | cons kv rest ih =>
    by_cases h : kv.1 = q
    · simp [eraseAllD, childList, h]
    · simpa [eraseAllD, childList, h] using ih

theorem keys_setChildren (dom : Dom) (p : Nat) (l : List Nat) :
    (setChildren dom p l).map (fun kv => kv.1) = dom.map (fun kv => kv.1)
      ∨ (setChildren dom p l).map (fun kv => kv.1)
          = dom.map (fun kv => kv.1) ++ [p] := by
  induction dom with
  | nil => simp [setChildren]
  | cons kv rest ih =>
    by_cases h : kv.1 = p
    · simp [setChildren, h]
    · rcases ih with ih | ih
      · exact Or.inl (by simp [setChildren, h, ih])
      · exact Or.inr (by simp [setChildren, h, ih])

theorem keys_eraseAllD (n : Nat) (dom : Dom) :
    (eraseAllD n dom).map (fun kv => kv.1) = dom.map (fun kv => kv.1) := by
  induction dom with
  | nil => rfl
  | cons kv rest ih =>
    rw [eraseAllD, List.map_cons, List.map_cons]
    rw [eraseAllD] at ih
    rw [ih, List.map_cons]

theorem insertList_shape (n : Nat) (a : Option Nat) (l l2 : List Nat)
    (h : insertList n a l = some l2) :
    ∃ u v, l = u ++ v ∧ l2 = u ++ n :: v := by
  induction l generalizing l2 with
  | nil =>
    cases a with
    | none =>
      cases h
      exact ⟨[], [], rfl, rfl⟩
    | some a => cases h
  | cons x xs ih =>
    cases a with
    | none =>
      cases h
      exact ⟨x :: xs, [], by simp, by simp⟩
    | some a =>
      rw [insertList] at h
      by_cases hx : x = a
      · rw [if_pos hx] at h
        cases h
        exact ⟨[], x :: xs, rfl, rfl⟩
      · rw [if_neg hx] at h
        cases h2 : insertList n (some a) xs with
        | none => rw [h2] at h; cases h
        | some l3 =>
          rw [h2] at h
          cases h
          obtain ⟨u, v, hu, hv⟩ := ih l3 h2
          exact ⟨x :: u, v, by simp [hu], by simp [hv]⟩

theorem childList_of_not_present {dom : Dom} {q : Nat}
    (h : ∀ kv ∈ dom, kv.1 ≠ q) : childList dom q = [] := by
  induction dom with
  | nil => rfl
  | cons kv rest ih =>
    rw [childList, if_neg (h kv (List.mem_cons_self _ _))]
    exact ih (fun kv2 h2 => h kv2 (List.mem_cons_of_mem _ h2))

theorem mem_childList_mem_entry {dom : Dom} {q n : Nat}
    (h : n ∈ childList dom q) : ∃ kv ∈ dom, kv.1 = q ∧ n ∈ kv.2 := by
  induction dom with
  | nil => cases h
  | cons kv rest ih =>
    by_cases h1 : kv.1 = q
    · rw [childList, if_pos h1] at h
      exact ⟨kv, List.mem_cons_self _ _, h1, h⟩
    · rw [childList, if_neg h1] at h
      obtain ⟨kv2, hm, hk, hn⟩ := ih h
      exact ⟨kv2, List.mem_cons_of_mem _ hm, hk, hn⟩

theorem childList_entry_of_keysNodup {dom : Dom} {kv : Nat × List Nat}
    (hnd : (dom.map (fun kv => kv.1)).Nodup) (h : kv ∈ dom) :
    childList dom kv.1 = kv.2 := by
  induction dom with
  | nil => cases h
  | cons kv0 rest ih =>
    rcases List.mem_cons.mp h with h1 | h1
    · subst h1
      simp [childList]
    · rw [List.map_cons, List.nodup_cons] at hnd
      have hne : kv0.1 ≠ kv.1 := by
        intro he
        exact hnd.1 (he ▸ List.mem_map.mpr ⟨kv, h1, rfl⟩)
      rw [childList, if_neg hne]
      exact ih hnd.2 h1

theorem parentD_eq {dom : Dom} {q n : Nat} (hinv : TreeInv dom)
    (h : n ∈ childList dom q) : parentD dom n = some q := by
  obtain ⟨hnd, _, huniq⟩ := hinv
  obtain ⟨kv, hm, hk, hn⟩ := mem_childList_mem_entry h
  have hfind : ∃ kv2, dom.find? (fun kv => kv.2.contains n) = some kv2 := by
    rcases hf : dom.find? (fun kv => kv.2.contains n) with _ | kv2
    · exfalso
      have hne := List.find?_eq_none.mp hf kv hm
      simp [hn] at hne
    · exact ⟨kv2, hf⟩
  obtain ⟨kv2, hf⟩ := hfind
  have hmem2 : kv2 ∈ dom := List.mem_of_find?_eq_some hf
  have hcontains : n ∈ kv2.2 := by
    have := List.find?_some hf
    simpa using this
  have hq2 : n ∈ childList dom kv2.1 := by
    rw [childList_entry_of_keysNodup hnd hmem2]
    exact hcontains
  have : kv2.1 = q := huniq n kv2.1 q hq2 h
  rw [parentD, hf]
  simpa using this

end CFDom

namespace CFDom

theorem mem_setChildren {dom : Dom} {p : Nat} {l : List Nat} :
    ∀ kv' ∈ setChildren dom p l, kv' ∈ dom ∨ kv'.1 = p := by
  induction dom with
  | nil =>
    intro kv' h
    rcases List.mem_singleton.mp h with rfl
    exact Or.inr rfl
  | cons kv rest ih =>
    intro kv' h
    by_cases h1 : kv.1 = p
    · rw [setChildren, if_pos h1] at h
      rcases List.mem_cons.mp h with h2 | h2
      · subst h2
        exact Or.inr rfl
      · exact Or.inl (List.mem_cons_of_mem _ h2)
    · rw [setChildren, if_neg h1] at h
      rcases List.mem_cons.mp h with h2 | h2
      · subst h2
        exact Or.inl (List.mem_cons_self _ _)
      · rcases ih kv' h2 with h3 | h3
        · exact Or.inl (List.mem_cons_of_mem _ h3)
        · exact Or.inr h3

theorem mem_keys_setChildren {dom : Dom} {p q : Nat} {l : List Nat}
    (h : q ∈ (setChildren dom p l).map (fun kv => kv.1)) :
    q ∈ dom.map (fun kv => kv.1) ∨ q = p := by
  obtain ⟨kv', hkv', hq⟩ := List.mem_map.mp h
  rcases mem_setChildren kv' hkv' with h2 | h2
  · exact Or.inl (List.mem_map.mpr ⟨kv', h2, hq⟩)
  · exact Or.inr (hq ▸ h2)

theorem keysNodup_setChildren {dom : Dom} {p : Nat} {l : List Nat}
    (h : (dom.map (fun kv => kv.1)).Nodup) :
    ((setChildren dom p l).map (fun kv => kv.1)).Nodup := by
  induction dom with
  | nil => simp [setChildren]
  | cons kv rest ih =>
    rw [List.map_cons, List.nodup_cons] at h
    by_cases h1 : kv.1 = p
    · rw [setChildren, if_pos h1, List.map_cons, List.nodup_cons]
      exact ⟨by rw [← h1]; exact h.1, h.2⟩
    · rw [setChildren, if_neg h1, List.map_cons, List.nodup_cons]
      refine ⟨?_, ih h.2⟩
      intro hmem
      rcases mem_keys_setChildren hmem with h2 | h2
      · exact h.1 h2
      · exact h1 h2

theorem insertBeforeD_childList {dom dom2 : Dom} {p n : Nat} {a : Option Nat}
    (hfresh : ∀ q, n ∉ childList dom q)
    (h : insertBeforeD dom p n a = some dom2) :
    (∀ q, q ≠ p → childList dom2 q = childList dom q)
      ∧ ∃ u v, childList dom p = u ++ v ∧ childList dom2 p = u ++ n :: v := by
  rw [insertBeforeD] at h
  have herase : ∀ q, childList (eraseAllD n dom) q = childList dom q := by
    intro q
    rw [childList_eraseAllD]
    exact List.erase_of_not_mem (hfresh q)
  cases h2 : insertList n a (childList (eraseAllD n dom) p) with
  | none => rw [h2] at h; cases h
  | some l2 =>
    rw [h2] at h
    cases h
    constructor
    · intro q hq
      rw [childList_setChildren_ne _ _ _ _ hq, herase]
    · obtain ⟨u, v, hu, hl2⟩ := insertList_shape _ _ _ _ h2
      rw [herase] at hu
      exact ⟨u, v, hu, by rw [childList_setChildren_self, hl2]⟩

theorem insertBeforeD_treeInv {dom dom2 : Dom} {p n : Nat} {a : Option Nat}
    (hfresh : ∀ q, n ∉ childList dom q) (hinv : TreeInv dom)
    (h : insertBeforeD dom p n a = some dom2) : TreeInv dom2 := by
  obtain ⟨hne, ⟨u, v, huv, hp⟩⟩ := insertBeforeD_childList hfresh h
  obtain ⟨hk, hnd, huniq⟩ := hinv
  refine ⟨?_, ?_, ?_⟩
  · rw [insertBeforeD] at h
    cases h2 : insertList n a (childList (eraseAllD n dom) p) with
    | none => rw [h2] at h; cases h
    | some l2 =>
      rw [h2] at h
      cases h
      apply keysNodup_setChildren
      rw [keys_eraseAllD]
      exact hk
  · intro q
    by_cases hq : q = p
    · subst hq
      rw [hp]
      rw [List.nodup_middle, List.nodup_cons, ← huv]
      exact ⟨hfresh q, hnd q⟩
    · rw [hne q hq]
      exact hnd q
  · intro m q1 q2 hm1 hm2
    by_cases hmn : m = n
    · subst hmn
      by_cases h1 : q1 = p
      · by_cases h2 : q2 = p
        · rw [h1, h2]
        · rw [hne q2 h2] at hm2
          exact absurd hm2 (hfresh q2)
      · rw [hne q1 h1] at hm1
        exact absurd hm1 (hfresh q1)
    · have hm1' : m ∈ childList dom q1 := by
        by_cases h1 : q1 = p
        · subst h1
          rw [hp] at hm1
          rw [huv]
          rcases List.mem_append.mp hm1 with h3 | h3
          · exact List.mem_append.mpr (Or.inl h3)
          · rcases List.mem_cons.mp h3 with h4 | h4
            · exact absurd h4 hmn
            · exact List.mem_append.mpr (Or.inr h4)
        · rw [← hne q1 h1]
          exact hm1
      have hm2' : m ∈ childList dom q2 := by
        by_cases h2 : q2 = p
        · subst h2
          rw [hp] at hm2
          rw [huv]
          rcases List.mem_append.mp hm2 with h3 | h3
          · exact List.mem_append.mpr (Or.inl h3)
          · rcases List.mem_cons.mp h3 with h4 | h4
            · exact absurd h4 hmn
            · exact List.mem_append.mpr (Or.inr h4)
        · rw [← hne q2 h2]
          exact hm2
      exact huniq m q1 q2 hm1' hm2'

theorem insertBeforeD_mem_mono {dom dom2 : Dom} {p n : Nat} {a : Option Nat}
    (hfresh : ∀ q, n ∉ childList dom q)
    (h : insertBeforeD dom p n a = some dom2) :
    ∀ q m, m ∈ childList dom q → m ∈ childList dom2 q := by
  obtain ⟨hne, ⟨u, v, huv, hp⟩⟩ := insertBeforeD_childList hfresh h
  intro q m hm
  by_cases hq : q = p
  · subst hq
    rw [hp]
    rw [huv] at hm
    rcases List.mem_append.mp hm with h3 | h3
    · exact List.mem_append.mpr (Or.inl h3)
    · exact List.mem_append.mpr (Or.inr (List.mem_cons_of_mem _ h3))
  · rw [hne q hq]
    exact hm

theorem removeChildD_childList {dom dom2 : Dom} {p n : Nat}
    (h : removeChildD dom p n = some dom2) :
    n ∈ childList dom p
      ∧ childList dom2 p = (childList dom p).erase n
      ∧ ∀ q, q ≠ p → childList dom2 q = childList dom q := by
  rw [removeChildD] at h
  by_cases hmem : n ∈ childList dom p
  · rw [if_pos hmem] at h
    cases h
    exact ⟨hmem, childList_setChildren_self _ _ _,
      fun q hq => childList_setChildren_ne _ _ _ _ hq⟩
  · rw [if_neg hmem] at h
    cases h

theorem removeChildD_pointwise {dom dom2 : Dom} {p n : Nat}
    (hinv : TreeInv dom) (h : removeChildD dom p n = some dom2) :
    ∀ q, childList dom2 q = (childList dom q).filter (fun x => x != n) := by
  obtain ⟨hmem, hp, hne⟩ := removeChildD_childList h
  obtain ⟨hk, hnd, huniq⟩ := hinv
  intro q
  by_cases hq : q = p
  · subst hq
    rw [hp, List.Nodup.erase_eq_filter (hnd q) n]
  · rw [hne q hq]
    have hno : n ∉ childList dom q := by
      intro hn
      exact hq (huniq n q p hn hmem)
    rw [List.filter_eq_self.mpr]
    intro x hx
    simp only [bne_iff_ne, ne_eq]
    intro hxn
    subst hxn
    exact hno hx

theorem removeChildD_treeInv {dom dom2 : Dom} {p n : Nat}
    (hinv : TreeInv dom) (h : removeChildD dom p n = some dom2) :
    TreeInv dom2 := by
  have hpt := removeChildD_pointwise hinv h
  obtain ⟨hk, hnd, huniq⟩ := hinv
  refine ⟨?_, ?_, ?_⟩
  · rw [removeChildD] at h
    by_cases hmem : n ∈ childList dom p
    · rw [if_pos hmem] at h
      cases h
      exact keysNodup_setChildren hk
    · rw [if_neg hmem] at h
      cases h
  · intro q
    rw [hpt q]
    exact (hnd q).filter _
  · intro m q1 q2 hm1 hm2
    rw [hpt q1] at hm1
    rw [hpt q2] at hm2
    exact huniq m q1 q2 (List.mem_of_mem_filter hm1) (List.mem_of_mem_filter hm2)

end CFDom

namespace CFDom

theorem DomBound.mono {dom : Dom} {b b2 : Nat} (h : DomBound dom b)
    (hb : b ≤ b2) : DomBound dom b2 :=
  fun q x hx => Nat.lt_of_lt_of_le (h q x hx) hb

theorem DomBound.fresh {dom : Dom} {b n : Nat} (h : DomBound dom b)
    (hn : b ≤ n) : ∀ q, n ∉ childList dom q := by
  intro q hmem
  exact absurd (h q n hmem) (Nat.not_lt.mpr hn)

theorem insertBeforeD_domBound {dom dom2 : Dom} {p n b : Nat} {a : Option Nat}
    (hb : DomBound dom b) (hn : n < b) (hfresh : ∀ q, n ∉ childList dom q)
    (h : insertBeforeD dom p n a = some dom2) : DomBound dom2 b := by
  obtain ⟨hne, ⟨u, v, huv, hp⟩⟩ := insertBeforeD_childList hfresh h
  intro q x hx
  by_cases hq : q = p
  · subst hq
    rw [hp] at hx
    rcases List.mem_append.mp hx with h2 | h2
    · exact hb q x (by rw [huv]; exact List.mem_append.mpr (Or.inl h2))
    · rcases List.mem_cons.mp h2 with h3 | h3
      · exact h3 ▸ hn
      · exact hb q x (by rw [huv]; exact List.mem_append.mpr (Or.inr h3))
  · rw [hne q hq] at hx
    exact hb q x hx

theorem removeChildD_domBound {dom dom2 : Dom} {p n b : Nat}
    (hb : DomBound dom b) (h : removeChildD dom p n = some dom2) :
    DomBound dom2 b := by
  obtain ⟨hmem, hp, hne⟩ := removeChildD_childList h
  intro q x hx
  by_cases hq : q = p
  · subst hq
    rw [hp] at hx
    exact hb q x (List.mem_of_mem_erase hx)
  · rw [hne q hq] at hx
    exact hb q x hx

end CFDom

namespace CFDom

mutual

/-- Model of `FragmentBuilder<Ctx>` (component/fragment.rs lines 229-334).
Static parents are addressed the way every builder call site in the
repository does: an optional parent index into the previously listed pieces
(`parentIndex`); `none` means top level.  Pieces and updatables carry only
their parent index (the text closure of an updatable has no host-tree
effect); conditionals carry their condition and nested builder, each blocks
their `get_items` closure. -/
inductive BuilderT (Ctx : Type) : Type
  | mk (pieces : List (Option Nat)) (upds : List (Option Nat))
      (conds : BCondsT Ctx) (eachs : BEachsT Ctx)

/-- The conditional-builder list of a `BuilderT`. -/
inductive BCondsT (Ctx : Type) : Type
  | nil
  | cons (check : Ctx → Bool) (loc : Option Nat) (nested : BuilderT Ctx)
      (rest : BCondsT Ctx)

/-- The each-block-builder list of a `BuilderT`. -/
inductive BEachsT (Ctx : Type) : Type
  | nil
  | cons (getItems : Ctx → BuildersT Ctx) (loc : Option Nat) (rest : BEachsT Ctx)

/-- A list of builders, as returned by an each block's `get_items`. -/
inductive BuildersT (Ctx : Type) : Type
  | nil
  | cons (b : BuilderT Ctx) (rest : BuildersT Ctx)

end

mutual

/-- Model of the built `Fragment<Ctx>` of component/fragment.rs: concrete
node ids for pieces and updatable text nodes, conditionals with their
pre-built nested fragment and anchor, each blocks with their retained child
fragments (`mounted_fragments: Option<Vec<_>>`, modelled as the plain list
with `take` setting it to nil) and anchor, plus the `mounted` flag. -/
inductive FragT (Ctx : Type) : Type
  | mk (mounted : Bool) (pieces : List (Option Nat × Nat))
      (upds : List (Option Nat × Nat)) (conds : CondsT Ctx) (eachs : EachsT Ctx)

/-- The conditional list of a built fragment. -/
inductive CondsT (Ctx : Type) : Type
  | nil
  | cons (check : Ctx → Bool) (loc : Option Nat) (nested : FragT Ctx)
      (anchor : Nat) (rest : CondsT Ctx)

/-- The each-block list of a built fragment. -/
inductive EachsT (Ctx : Type) : Type
  | nil
  | cons (getItems : Ctx → BuildersT Ctx) (loc : Option Nat)
      (children : FragsT Ctx) (anchor : Nat) (rest : EachsT Ctx)

/-- A list of built fragments (an each block's retained children). -/
inductive FragsT (Ctx : Type) : Type
  | nil
  | cons (f : FragT Ctx) (rest : FragsT Ctx)

end

/-- The `mounted` flag of a built fragment. -/
def FragT.mounted {Ctx : Type} : FragT Ctx → Bool
  | FragT.mk m _ _ _ _ => m

/-- Pair a list of parent indices with freshly created node ids starting at
`alloc`. -/
def numberList : List (Option Nat) → Nat → List (Option Nat × Nat)
  | [], _ => []
  | loc :: rest, alloc => (loc, alloc) :: numberList rest (alloc + 1)

mutual

/-- Model of `FragmentBuilder::build` (component/fragment.rs lines 308-333):
create a node per piece, a text node per updatable, then per conditional
first build its nested fragment and then create its anchor, then per each
block create its anchor; every `DynamicPart` starts out not mounted and each
blocks start with no retained children.  `alloc` is the node-id allocator
standing for `Document`'s node creation. -/
def buildF {Ctx : Type} : BuilderT Ctx → Nat → FragT Ctx × Nat
  | BuilderT.mk pieces upds conds eachs, alloc =>
    let a1 := alloc + pieces.length
    let a2 := a1 + upds.length
    let cr := buildConds conds a2
    let er := buildEachs eachs cr.2
    (FragT.mk false (numberList pieces alloc) (numberList upds a1) cr.1 er.1,
      er.2)

/-- Build the conditionals: nested fragment first, then its anchor. -/
def buildConds {Ctx : Type} : BCondsT Ctx → Nat → CondsT Ctx × Nat
  | BCondsT.nil, alloc => (CondsT.nil, alloc)
  | BCondsT.cons check loc nested rest, alloc =>
    let nr := buildF nested alloc
    let rr := buildConds rest (nr.2 + 1)
    (CondsT.cons check loc nr.1 nr.2 rr.1, rr.2)

/-- Build the each blocks: only the anchor is created. -/
def buildEachs {Ctx : Type} : BEachsT Ctx → Nat → EachsT Ctx × Nat
  | BEachsT.nil, alloc => (EachsT.nil, alloc)
  | BEachsT.cons getItems loc rest, alloc =>
    let rr := buildEachs rest (alloc + 1)
    (EachsT.cons getItems loc FragsT.nil alloc rr.1, rr.2)

end

/-- The anchors of the conditional list, with their parent indices. -/
def condAnchors {Ctx : Type} : CondsT Ctx → List (Option Nat × Nat)
  | CondsT.nil => []
  | CondsT.cons _ loc _ anchor rest => (loc, anchor) :: condAnchors rest

/-- The anchors of the each-block list, with their parent indices. -/
def eachAnchors {Ctx : Type} : EachsT Ctx → List (Option Nat × Nat)
  | EachsT.nil => []
  | EachsT.cons _ loc _ anchor rest => (loc, anchor) :: eachAnchors rest

/-- The chained node sequence of `Fragment::mount`/`Fragment::detach`
(component/fragment.rs lines 464-484 / 528-548): pieces, then updatable text
nodes, then conditional anchors, then each-block anchors, each with its
parent index. -/
def chainParts {Ctx : Type} (pieces upds : List (Option Nat × Nat))
    (conds : CondsT Ctx) (eachs : EachsT Ctx) : List (Option Nat × Nat) :=
  pieces ++ upds ++ condAnchors conds ++ eachAnchors eachs

/-- The top-level members of the chain: those with no parent index — the
nodes `Fragment::detach` physically removes. -/
def topTargets {Ctx : Type} (pieces upds : List (Option Nat × Nat))
    (conds : CondsT Ctx) (eachs : EachsT Ctx) : List Nat :=
  ((chainParts pieces upds conds eachs).filter (fun e => e.1 = none)).map
    (fun e => e.2)

end CFDom

namespace CFDom

/-- The phase of `Fragment::mount` that places the chained nodes (lines
463-484): each node goes to its parent piece (`parentIndex`, resolved
against this fragment's pieces, appending) or, when top level, to the root
location (inserting before the root anchor when one is given).  Fails where
the source `expect`s would panic. -/
def mountChain : List (Option Nat × Nat) → List (Option Nat × Nat) → Nat →
    Option Nat → Dom → Option Dom
  | [], _, _, _, dom => some dom
  | (none, n) :: rest, pieces, p, a, dom =>
    match insertBeforeD dom p n a with
    | none => none
    | some dom1 => mountChain rest pieces p a dom1
  | (some i, n) :: rest, pieces, p, a, dom =>
    match pieces[i]? with
    | none => none
    | some pc =>
      match insertBeforeD dom pc.2 n none with
      | none => none
      | some dom1 => mountChain rest pieces p a dom1

/-- The top-node removal phase of `Fragment::detach` (lines 528-554): for
each node, look up its parent and remove it, recording the call. -/
def removeTops : List Nat → Dom → Option (Dom × List (Nat × Nat))
  | [], dom => some (dom, [])
  | n :: rest, dom =>
    match parentD dom n with
    | none => none
    | some pp =>
      match removeChildD dom pp n with
      | none => none
      | some dom1 =>
        match removeTops rest dom1 with
        | none => none
        | some r => some (r.1, (pp, n) :: r.2)

mutual

/-- Model of `Fragment::detach` (component/fragment.rs lines 520-571): a
no-op when not mounted; otherwise remove every chained node that has no
parent index from its host parent, then detach the conditionals (each
delegates to its nested fragment unconditionally — the nested fragment's
own `mounted` check makes that a no-op when it is not mounted) and the each
blocks (each detaches and drops its retained children), and clear
`mounted`.  Returns the remove-call trace. -/
def detachF {Ctx : Type} : FragT Ctx → Dom →
    Option (FragT Ctx × Dom × List (Nat × Nat))
  | FragT.mk false pieces upds conds eachs, dom =>
    some (FragT.mk false pieces upds conds eachs, dom, [])
  | FragT.mk true pieces upds conds eachs, dom =>
    match removeTops (topTargets pieces upds conds eachs) dom with
    | none => none
    | some (dom1, tr1) =>
      match detachConds conds dom1 with
      | none => none
      | some (conds2, dom2, tr2) =>
        match detachEachs eachs dom2 with
        | none => none
        | some (eachs3, dom3, tr3) =>
          some (FragT.mk false pieces upds conds2 eachs3, dom3,
            tr1 ++ tr2 ++ tr3)

/-- Detach the conditional list (old-generation `Conditional::detach`
delegates to the nested fragment). -/
def detachConds {Ctx : Type} : CondsT Ctx → Dom →
    Option (CondsT Ctx × Dom × List (Nat × Nat))
  | CondsT.nil, dom => some (CondsT.nil, dom, [])
  | CondsT.cons check loc nested anchor rest, dom =>
    match detachF nested dom with
    | none => none
    | some (nested2, dom1, tr1) =>
      match detachConds rest dom1 with
      | none => none
      | some (rest2, dom2, tr2) =>
        some (CondsT.cons check loc nested2 anchor rest2, dom2, tr1 ++ tr2)

/-- Detach the each-block list (`Each::detach` takes and detaches every
retained child fragment). -/
def detachEachs {Ctx : Type} : EachsT Ctx → Dom →
    Option (EachsT Ctx × Dom × List (Nat × Nat))
  | EachsT.nil, dom => some (EachsT.nil, dom, [])
  | EachsT.cons getItems loc children anchor rest, dom =>
    match detachFrags children dom with
    | none => none
    | some (dom1, tr1) =>
      match detachEachs rest dom1 with
      | none => none
      | some (rest2, dom2, tr2) =>
        some (EachsT.cons getItems loc FragsT.nil anchor rest2, dom2,
          tr1 ++ tr2)

/-- Detach a list of child fragments in order. -/
def detachFrags {Ctx : Type} : FragsT Ctx → Dom →
    Option (Dom × List (Nat × Nat))
  | FragsT.nil, dom => some (dom, [])
  | FragsT.cons f rest, dom =>
    match detachF f dom with
    | none => none
    | some (_, dom1, tr1) =>
      match detachFrags rest dom1 with
      | none => none
      | some (dom2, tr2) => some (dom2, tr1 ++ tr2)

end

end CFDom

namespace CFDom

mutual

/-- Model of `Fragment::mount` (component/fragment.rs lines 451-518).  The
early return on `self.mounted` (lines 453-456) makes a second mount a
silent no-op.  Otherwise: place all chained nodes (pieces, text nodes,
anchors); run the conditionals (mount the nested fragment at its anchor
when the condition holds — in this generation nested content is populated
during mounting); run the each blocks (`Each::mount` is `Each::update`:
detach any retained children, then build, mount and retain one child per
`get_items` item); set `mounted`.  `fuel` bounds the recursion through
dynamically built children; every step consumes fuel, and exhaustion gives
`none`, as does any condition on which the source would panic. -/
def mountF {Ctx : Type} : Nat → FragT Ctx → Ctx → Nat → Option Nat → Dom →
    Nat → Option (FragT Ctx × Dom × Nat)
  | 0, _, _, _, _, _, _ => none
  | _ + 1, FragT.mk true pieces upds conds eachs, _, _, _, dom, alloc =>
    some (FragT.mk true pieces upds conds eachs, dom, alloc)
  | fuel + 1, FragT.mk false pieces upds conds eachs, ctx, p, a, dom, alloc =>
    match mountChain (chainParts pieces upds conds eachs) pieces p a dom with
    | none => none
    | some dom1 =>
      match mountConds fuel conds ctx dom1 alloc with
      | none => none
      | some (conds2, dom2, alloc2) =>
        match mountEachs fuel eachs ctx dom2 alloc2 with
        | none => none
        | some (eachs3, dom3, alloc3) =>
          some (FragT.mk true pieces upds conds2 eachs3, dom3, alloc3)

/-- Mount the conditionals (lines 496-505 with `Conditional::mount`, lines
119-130): look up the anchor's parent; when the condition holds, mount the
nested fragment before the anchor. -/
def mountConds {Ctx : Type} : Nat → CondsT Ctx → Ctx → Dom → Nat →
    Option (CondsT Ctx × Dom × Nat)
  | 0, _, _, _, _ => none
  | _ + 1, CondsT.nil, _, dom, alloc => some (CondsT.nil, dom, alloc)
  | fuel + 1, CondsT.cons check loc nested anchor rest, ctx, dom, alloc =>
    match parentD dom anchor with
    | none => none
    | some pp =>
      if check ctx then
        match mountF fuel nested ctx pp (some anchor) dom alloc with
        | none => none
        | some (nested2, dom1, alloc1) =>
          match mountConds fuel rest ctx dom1 alloc1 with
          | none => none
          | some (rest2, dom2, alloc2) =>
            some (CondsT.cons check loc nested2 anchor rest2, dom2, alloc2)
      else
        match mountConds fuel rest ctx dom alloc with
        | none => none
        | some (rest2, dom2, alloc2) =>
          some (CondsT.cons check loc nested anchor rest2, dom2, alloc2)

/-- Mount the each blocks (lines 507-515 with `Each::mount`/`Each::update`,
lines 165-209): look up the anchor's parent, detach any retained children,
then build, mount and update one fresh child per `get_items` item, and
retain the new list. -/
def mountEachs {Ctx : Type} : Nat → EachsT Ctx → Ctx → Dom → Nat →
    Option (EachsT Ctx × Dom × Nat)
  | 0, _, _, _, _ => none
  | _ + 1, EachsT.nil, _, dom, alloc => some (EachsT.nil, dom, alloc)
  | fuel + 1, EachsT.cons getItems loc children anchor rest, ctx, dom, alloc =>
    match parentD dom anchor with
    | none => none
    | some pp =>
      match detachFrags children dom with
      | none => none
      | some (dom1, _) =>
        match mountKids fuel (getItems ctx) ctx pp anchor dom1 alloc with
        | none => none
        | some (kids, dom2, alloc2) =>
          match mountEachs fuel rest ctx dom2 alloc2 with
          | none => none
          | some (rest2, dom3, alloc3) =>
            some (EachsT.cons getItems loc kids anchor rest2, dom3, alloc3)

/-- Build and mount one child fragment per item, in item order, each
inserted before the each block's anchor. -/
def mountKids {Ctx : Type} : Nat → BuildersT Ctx → Ctx → Nat → Nat → Dom →
    Nat → Option (FragsT Ctx × Dom × Nat)
  | 0, _, _, _, _, _, _ => none
  | _ + 1, BuildersT.nil, _, _, _, dom, alloc => some (FragsT.nil, dom, alloc)
  | fuel + 1, BuildersT.cons b rest, ctx, pp, anchor, dom, alloc =>
    match mountF fuel (buildF b alloc).1 ctx pp (some anchor) dom
        (buildF b alloc).2 with
    | none => none
    | some (nf, dom1, alloc1) =>
      match mountKids fuel rest ctx pp anchor dom1 alloc1 with
      | none => none
      | some (kids, dom2, alloc2) => some (FragsT.cons nf kids, dom2, alloc2)

end

end CFDom

namespace CFDom

/-- Drop from `l` every element of `S` (iterated `remove_child` viewed as a
pointwise list filter). -/
def keepOthers (S l : List Nat) : List Nat :=
  l.filter (fun x => !(S.contains x))

theorem keepOthers_nil (l : List Nat) : keepOthers [] l = l := by
  rw [keepOthers, List.filter_eq_self]
  intro x _
  rfl

theorem keepOthers_of_disjoint {S l : List Nat} (h : ∀ x ∈ l, x ∉ S) :
    keepOthers S l = l := by
  rw [keepOthers, List.filter_eq_self]
  intro x hx
  simpa using h x hx

theorem keepOthers_append (S l1 l2 : List Nat) :
    keepOthers S (l1 ++ l2) = keepOthers S l1 ++ keepOthers S l2 := by
  rw [keepOthers, keepOthers, keepOthers, List.filter_append]

theorem keepOthers_keepOthers (S1 S2 l : List Nat) :
    keepOthers S2 (keepOthers S1 l)
      = l.filter (fun x => !(S1.contains x) && !(S2.contains x)) := by
  rw [keepOthers, keepOthers, List.filter_filter]
  congr 1
  funext x
  rw [Bool.and_comm]

theorem keepOthers_subset_absorb {S1 S2 : List Nat} (h : ∀ x ∈ S1, x ∈ S2)
    (l : List Nat) : keepOthers S2 (keepOthers S1 l) = keepOthers S2 l := by
  rw [keepOthers_keepOthers, keepOthers]
  congr 1
  funext x
  cases h2 : S2.contains x with
  | true => simp
  | false =>
    have h1 : S1.contains x = false := by
      cases h1 : S1.contains x with
      | false => rfl
      | true =>
        have hx2 : x ∈ S2 := h x (by simpa using h1)
        rw [← h2]
        simpa using hx2
    simp [h1]
    simpa using h1

theorem keepOthers_singleton (n : Nat) (l : List Nat) :
    keepOthers [n] l = l.filter (fun x => x != n) := by
  rw [keepOthers]
  congr 1
  funext x
  simp only [List.contains, bne, List.elem_cons, List.elem_nil]
  cases h : x == n <;> simp [h]

mutual

/-- Every node id a built fragment owns, at all nesting levels. -/
def fragNodes {Ctx : Type} : FragT Ctx → List Nat
  | FragT.mk _ pieces upds conds eachs =>
    pieces.map (fun e => e.2) ++ upds.map (fun e => e.2)
      ++ condsNodes conds ++ eachsNodes eachs

/-- Node ids owned by a conditional list. -/
def condsNodes {Ctx : Type} : CondsT Ctx → List Nat
  | CondsT.nil => []
  | CondsT.cons _ _ nested anchor rest =>
    fragNodes nested ++ anchor :: condsNodes rest

/-- Node ids owned by an each-block list. -/
def eachsNodes {Ctx : Type} : EachsT Ctx → List Nat
  | EachsT.nil => []
  | EachsT.cons _ _ children anchor rest =>
    fragsNodes children ++ anchor :: eachsNodes rest

/-- Node ids owned by a fragment list. -/
def fragsNodes {Ctx : Type} : FragsT Ctx → List Nat
  | FragsT.nil => []
  | FragsT.cons f rest => fragNodes f ++ fragsNodes rest

end

mutual

/-- A freshly built, never mounted fragment: unmounted at every level, each
blocks with no retained children. -/
def PristineF {Ctx : Type} : FragT Ctx → Prop
  | FragT.mk m _ _ conds eachs =>
    m = false ∧ PristineConds conds ∧ PristineEachs eachs

/-- Pristineness of a conditional list. -/
def PristineConds {Ctx : Type} : CondsT Ctx → Prop
  | CondsT.nil => True
  | CondsT.cons _ _ nested _ rest => PristineF nested ∧ PristineConds rest

/-- Pristineness of an each-block list. -/
def PristineEachs {Ctx : Type} : EachsT Ctx → Prop
  | EachsT.nil => True
  | EachsT.cons _ _ children _ rest =>
    children = FragsT.nil ∧ PristineEachs rest

end

mutual

/-- The nodes `Fragment::detach` will remove from the host tree, at all
levels: nothing when unmounted; the own top-level chain nodes, then the
mounted conditionals' removals, then the retained each children's. -/
def topClosure {Ctx : Type} : FragT Ctx → List Nat
  | FragT.mk false _ _ _ _ => []
  | FragT.mk true pieces upds conds eachs =>
    topTargets pieces upds conds eachs
      ++ closureConds conds ++ closureEachs eachs

/-- Removal closure of a conditional list. -/
def closureConds {Ctx : Type} : CondsT Ctx → List Nat
  | CondsT.nil => []
  | CondsT.cons _ _ nested _ rest => topClosure nested ++ closureConds rest

/-- Removal closure of an each-block list. -/
def closureEachs {Ctx : Type} : EachsT Ctx → List Nat
  | EachsT.nil => []
  | EachsT.cons _ _ children _ rest => closureFrags children ++ closureEachs rest

/-- Removal closure of a fragment list. -/
def closureFrags {Ctx : Type} : FragsT Ctx → List Nat
  | FragsT.nil => []
  | FragsT.cons f rest => topClosure f ++ closureFrags rest

end

mutual

/-- Well-mounted: what `Fragment::detach` relies on.  The fragment is
mounted, each of its top-level chain nodes is somewhere in the host tree,
mounted nested conditional fragments are themselves well-mounted, and so is
every retained each child. -/
def WMF {Ctx : Type} : FragT Ctx → Dom → Prop
  | FragT.mk m pieces upds conds eachs, dom =>
    m = true ∧ (∀ n ∈ topTargets pieces upds conds eachs, Present dom n)
      ∧ WMConds conds dom ∧ WMEachs eachs dom

/-- Well-mountedness for a conditional list. -/
def WMConds {Ctx : Type} : CondsT Ctx → Dom → Prop
  | CondsT.nil, _ => True
  | CondsT.cons _ _ nested _ rest, dom =>
    (nested.mounted = true → WMF nested dom) ∧ WMConds rest dom

/-- Well-mountedness for an each-block list. -/
def WMEachs {Ctx : Type} : EachsT Ctx → Dom → Prop
  | EachsT.nil, _ => True
  | EachsT.cons _ _ children _ rest, dom =>
    WMFrags children dom ∧ WMEachs rest dom

/-- Well-mountedness for a fragment list. -/
def WMFrags {Ctx : Type} : FragsT Ctx → Dom → Prop
  | FragsT.nil, _ => True
  | FragsT.cons f rest, dom => WMF f dom ∧ WMFrags rest dom

end

end CFDom

namespace CFDom

theorem subperm_append_both {a b c d : List Nat} (h1 : List.Subperm a c)
    (h2 : List.Subperm b d) : List.Subperm (a ++ b) (c ++ d) := by
  obtain ⟨la, pa, sa⟩ := h1
  obtain ⟨lb, pb, sb⟩ := h2
  exact ⟨la ++ lb, pa.append pb, sa.append sb⟩

theorem subperm_nodup {l1 l2 : List Nat} (h : List.Subperm l1 l2)
    (h2 : l2.Nodup) : l1.Nodup := by
  obtain ⟨l, hperm, hsub⟩ := h
  exact hperm.nodup_iff.mp (hsub.nodup h2)

theorem numberList_snd (l : List (Option Nat)) (lo : Nat) :
    (numberList l lo).map (fun e => e.2) = List.range' lo l.length := by
  induction l generalizing lo with
  | nil => rfl
  | cons x xs ih =>
    rw [numberList, List.map_cons, ih, List.length_cons, List.range'_succ]

theorem numberList_length (l : List (Option Nat)) (lo : Nat) :
    (numberList l lo).length = l.length := by
  induction l generalizing lo with
  | nil => rfl
  | cons x xs ih => rw [numberList, List.length_cons, ih, List.length_cons]

theorem range'_glue (a b c : Nat) (hab : a ≤ b) (hbc : b ≤ c) :
    List.range' a (b - a) ++ List.range' b (c - b) = List.range' a (c - a) := by
  have h := List.range'_append a (b - a) (c - b) 1
  simp only [Nat.one_mul] at h
  rw [Nat.add_sub_cancel' hab] at h
  rw [h]
  congr 1
  omega

mutual

theorem buildF_nodes {Ctx : Type} (b : BuilderT Ctx) (alloc : Nat) :
    alloc ≤ (buildF b alloc).2
      ∧ fragNodes (buildF b alloc).1
          = List.range' alloc ((buildF b alloc).2 - alloc) := by
  cases b with
  | mk pieces upds conds eachs =>
    have hc := buildConds_nodes conds (alloc + pieces.length + upds.length)
    have he := buildEachs_nodes eachs
      (buildConds conds (alloc + pieces.length + upds.length)).2
    rw [buildF]
    simp only [fragNodes]
    refine ⟨by omega, ?_⟩
    rw [numberList_snd, numberList_snd, hc.2, he.2]
    have g1 := range'_glue (alloc + pieces.length + upds.length)
      (buildConds conds (alloc + pieces.length + upds.length)).2
      (buildEachs eachs (buildConds conds (alloc + pieces.length + upds.length)).2).2
      hc.1 he.1
    have hu : upds.length = (alloc + pieces.length + upds.length) - (alloc + pieces.length) := by
      omega
    have g2 := range'_glue (alloc + pieces.length)
      (alloc + pieces.length + upds.length)
      (buildEachs eachs (buildConds conds (alloc + pieces.length + upds.length)).2).2
      (by omega) (by omega)
    have hp : pieces.length = (alloc + pieces.length) - alloc := by omega
    have g3 := range'_glue alloc (alloc + pieces.length)
      (buildEachs eachs (buildConds conds (alloc + pieces.length + upds.length)).2).2
      (by omega) (by omega)
    simp only [List.append_assoc]
    rw [g1]
    rw [← hu] at g2
    rw [g2]
    rw [← hp] at g3
    rw [g3]

theorem buildConds_nodes {Ctx : Type} (c : BCondsT Ctx) (alloc : Nat) :
    alloc ≤ (buildConds c alloc).2
      ∧ condsNodes (buildConds c alloc).1
          = List.range' alloc ((buildConds c alloc).2 - alloc) := by
  cases c with
  | nil => simp [buildConds, condsNodes]
  | cons check loc nested rest =>
    have hn := buildF_nodes nested alloc
    have hr := buildConds_nodes rest ((buildF nested alloc).2 + 1)
    rw [buildConds]
    simp only [condsNodes]
    refine ⟨by omega, ?_⟩
    rw [hn.2, hr.2]
    have h1 : (buildF nested alloc).2
          :: List.range' ((buildF nested alloc).2 + 1)
            ((buildConds rest ((buildF nested alloc).2 + 1)).2
              - ((buildF nested alloc).2 + 1))
        = List.range' (buildF nested alloc).2
            ((buildConds rest ((buildF nested alloc).2 + 1)).2
              - (buildF nested alloc).2) := by
      have h2 : (buildConds rest ((buildF nested alloc).2 + 1)).2
          - (buildF nested alloc).2
          = ((buildConds rest ((buildF nested alloc).2 + 1)).2
            - ((buildF nested alloc).2 + 1)) + 1 := by omega
      rw [h2, List.range'_succ]
    rw [h1]
    exact range'_glue alloc (buildF nested alloc).2
      (buildConds rest ((buildF nested alloc).2 + 1)).2 hn.1 (by omega)

theorem buildEachs_nodes {Ctx : Type} (e : BEachsT Ctx) (alloc : Nat) :
    alloc ≤ (buildEachs e alloc).2
      ∧ eachsNodes (buildEachs e alloc).1
          = List.range' alloc ((buildEachs e alloc).2 - alloc) := by
  cases e with
  | nil => simp [buildEachs, eachsNodes]
  | cons getItems loc rest =>
    have hr := buildEachs_nodes rest (alloc + 1)
    rw [buildEachs]
    simp only [eachsNodes, fragsNodes]
    refine ⟨by omega, ?_⟩
    rw [hr.2]
    have h2 : (buildEachs rest (alloc + 1)).2 - alloc
        = ((buildEachs rest (alloc + 1)).2 - (alloc + 1)) + 1 := by omega
    rw [h2, List.range'_succ]
    rfl

end

mutual

theorem buildF_pristine {Ctx : Type} (b : BuilderT Ctx) (alloc : Nat) :
    PristineF (buildF b alloc).1 := by
  cases b with
  | mk pieces upds conds eachs =>
    rw [buildF]
    exact ⟨rfl, buildConds_pristine conds _, buildEachs_pristine eachs _⟩

theorem buildConds_pristine {Ctx : Type} (c : BCondsT Ctx) (alloc : Nat) :
    PristineConds (buildConds c alloc).1 := by
  cases c with
  | nil => trivial
  | cons check loc nested rest =>
    rw [buildConds]
    exact ⟨buildF_pristine nested _, buildConds_pristine rest _⟩

theorem buildEachs_pristine {Ctx : Type} (e : BEachsT Ctx) (alloc : Nat) :
    PristineEachs (buildEachs e alloc).1 := by
  cases e with
  | nil => trivial
  | cons getItems loc rest =>
    rw [buildEachs]
    exact ⟨rfl, buildEachs_pristine rest _⟩

end

end CFDom

namespace CFDom

/-- The nested fragments' nodes of a conditional list (anchors excluded). -/
def nestedNodes {Ctx : Type} : CondsT Ctx → List Nat
  | CondsT.nil => []
  | CondsT.cons _ _ nested _ rest => fragNodes nested ++ nestedNodes rest

/-- The retained children's nodes of an each-block list (anchors excluded). -/
def childNodes {Ctx : Type} : EachsT Ctx → List Nat
  | EachsT.nil => []
  | EachsT.cons _ _ children _ rest => fragsNodes children ++ childNodes rest

theorem perm_shuffle (A B C : List Nat) :
    (A ++ (B ++ C)).Perm (B ++ (A ++ C)) := by
  have h1 : A ++ (B ++ C) = (A ++ B) ++ C := (List.append_assoc A B C).symm
  have h2 : (B ++ A) ++ C = B ++ (A ++ C) := List.append_assoc B A C
  rw [h1, ← h2]
  exact List.Perm.append_right C List.perm_append_comm

theorem condsNodes_perm {Ctx : Type} :
    (c : CondsT Ctx) →
      (condsNodes c).Perm ((condAnchors c).map (fun e => e.2) ++ nestedNodes c)
  | CondsT.nil => List.Perm.refl _
  | CondsT.cons check loc nested anchor rest => by
    have ih := condsNodes_perm rest
    show (fragNodes nested ++ anchor :: condsNodes rest).Perm
      ((anchor :: (condAnchors rest).map (fun e => e.2))
        ++ (fragNodes nested ++ nestedNodes rest))
    have s1 : (fragNodes nested ++ anchor :: condsNodes rest).Perm
        (fragNodes nested
          ++ anchor :: ((condAnchors rest).map (fun e => e.2) ++ nestedNodes rest)) :=
      List.Perm.append_left _ (List.Perm.cons _ ih)
    have s2 : (fragNodes nested
        ++ anchor :: ((condAnchors rest).map (fun e => e.2) ++ nestedNodes rest)).Perm
        (anchor :: (fragNodes nested
          ++ ((condAnchors rest).map (fun e => e.2) ++ nestedNodes rest))) :=
      List.perm_middle
    have s3 : (anchor :: (fragNodes nested
        ++ ((condAnchors rest).map (fun e => e.2) ++ nestedNodes rest))).Perm
        (anchor :: ((condAnchors rest).map (fun e => e.2)
          ++ (fragNodes nested ++ nestedNodes rest))) :=
      List.Perm.cons _ (perm_shuffle _ _ _)
    exact (s1.trans s2).trans s3

theorem eachsNodes_perm {Ctx : Type} :
    (e : EachsT Ctx) →
      (eachsNodes e).Perm ((eachAnchors e).map (fun x => x.2) ++ childNodes e)
  | EachsT.nil => List.Perm.refl _
  | EachsT.cons getItems loc children anchor rest => by
    have ih := eachsNodes_perm rest
    show (fragsNodes children ++ anchor :: eachsNodes rest).Perm
      ((anchor :: (eachAnchors rest).map (fun x => x.2))
        ++ (fragsNodes children ++ childNodes rest))
    have s1 : (fragsNodes children ++ anchor :: eachsNodes rest).Perm
        (fragsNodes children
          ++ anchor :: ((eachAnchors rest).map (fun x => x.2) ++ childNodes rest)) :=
      List.Perm.append_left _ (List.Perm.cons _ ih)
    have s2 : (fragsNodes children
        ++ anchor :: ((eachAnchors rest).map (fun x => x.2) ++ childNodes rest)).Perm
        (anchor :: (fragsNodes children
          ++ ((eachAnchors rest).map (fun x => x.2) ++ childNodes rest))) :=
      List.perm_middle
    have s3 : (anchor :: (fragsNodes children
        ++ ((eachAnchors rest).map (fun x => x.2) ++ childNodes rest))).Perm
        (anchor :: ((eachAnchors rest).map (fun x => x.2)
          ++ (fragsNodes children ++ childNodes rest))) :=
      List.Perm.cons _ (perm_shuffle _ _ _)
    exact (s1.trans s2).trans s3

theorem fragNodes_perm_chain {Ctx : Type} (m : Bool)
    (pieces upds : List (Option Nat × Nat)) (conds : CondsT Ctx)
    (eachs : EachsT Ctx) :
    (fragNodes (FragT.mk m pieces upds conds eachs)).Perm
      ((chainParts pieces upds conds eachs).map (fun x => x.2)
        ++ (nestedNodes conds ++ childNodes eachs)) := by
  show (pieces.map (fun x => x.2) ++ upds.map (fun x => x.2)
      ++ condsNodes conds ++ eachsNodes eachs).Perm _
  have h1 : (chainParts pieces upds conds eachs).map (fun x => x.2)
      = pieces.map (fun x => x.2) ++ (upds.map (fun x => x.2)
        ++ ((condAnchors conds).map (fun x => x.2)
          ++ (eachAnchors eachs).map (fun x => x.2))) := by
    rw [chainParts]
    simp [List.map_append]
  rw [h1]
  simp only [List.append_assoc]
  refine List.Perm.append_left _ (List.Perm.append_left _ ?_)
  have s1 : (condsNodes conds ++ eachsNodes eachs).Perm
      (((condAnchors conds).map (fun x => x.2) ++ nestedNodes conds)
        ++ ((eachAnchors eachs).map (fun x => x.2) ++ childNodes eachs)) :=
    List.Perm.append (condsNodes_perm conds) (eachsNodes_perm eachs)
  have s2 : (((condAnchors conds).map (fun x => x.2) ++ nestedNodes conds)
      ++ ((eachAnchors eachs).map (fun x => x.2) ++ childNodes eachs)).Perm
      ((condAnchors conds).map (fun x => x.2)
        ++ ((eachAnchors eachs).map (fun x => x.2)
          ++ (nestedNodes conds ++ childNodes eachs))) := by
    rw [List.append_assoc]
    exact List.Perm.append_left _ (perm_shuffle _ _ _)
  exact s1.trans s2

end CFDom

namespace CFDom

mutual

theorem topClosure_subperm {Ctx : Type} :
    (f : FragT Ctx) → List.Subperm (topClosure f) (fragNodes f)
  | FragT.mk false _ _ _ _ => List.nil_subperm
  | FragT.mk true pieces upds conds eachs => by
    have t1 : List.Subperm (topTargets pieces upds conds eachs)
        ((chainParts pieces upds conds eachs).map (fun x => x.2)) :=
      (List.Sublist.map _ (List.filter_sublist _)).subperm
    have t2 := closureConds_subperm conds
    have t3 := closureEachs_subperm eachs
    have hall : List.Subperm
        (topTargets pieces upds conds eachs
          ++ (closureConds conds ++ closureEachs eachs))
        ((chainParts pieces upds conds eachs).map (fun x => x.2)
          ++ (nestedNodes conds ++ childNodes eachs)) :=
      subperm_append_both t1 (subperm_append_both t2 t3)
    have hperm := (fragNodes_perm_chain true pieces upds conds eachs).symm
    show List.Subperm (topTargets pieces upds conds eachs
      ++ closureConds conds ++ closureEachs eachs) _
    rw [List.append_assoc]
    exact hall.trans hperm.subperm

theorem closureConds_subperm {Ctx : Type} :
    (c : CondsT Ctx) → List.Subperm (closureConds c) (nestedNodes c)
  | CondsT.nil => List.nil_subperm
  | CondsT.cons _ _ nested _ rest =>
    subperm_append_both (topClosure_subperm nested) (closureConds_subperm rest)

theorem closureEachs_subperm {Ctx : Type} :
    (e : EachsT Ctx) → List.Subperm (closureEachs e) (childNodes e)
  | EachsT.nil => List.nil_subperm
  | EachsT.cons _ _ children _ rest =>
    subperm_append_both (closureFrags_subperm children)
      (closureEachs_subperm rest)

theorem closureFrags_subperm {Ctx : Type} :
    (fs : FragsT Ctx) → List.Subperm (closureFrags fs) (fragsNodes fs)
  | FragsT.nil => List.nil_subperm
  | FragsT.cons f rest =>
    subperm_append_both (topClosure_subperm f) (closureFrags_subperm rest)

end

end CFDom

namespace CFDom

theorem keepOthers_cons (n : Nat) (S l : List Nat) :
    keepOthers S (keepOthers [n] l) = keepOthers (n :: S) l := by
  rw [keepOthers_keepOthers]
  rw [keepOthers]
  congr 1
  funext x
  show (!([n].contains x) && !(S.contains x)) = !((n :: S).contains x)
  have h1 : (n :: S).contains x = ((x == n) || S.contains x) :=
    List.contains_cons
  have h2 : ([n] : List Nat).contains x = (x == n) := by
    rw [List.contains_cons]
    simp only [List.contains, List.elem_nil, Bool.or_false]
  rw [h1, h2, Bool.not_or]

theorem removeTops_spec {targets : List Nat} {dom : Dom}
    (hinv : TreeInv dom) (hnd : targets.Nodup)
    (hpres : ∀ n ∈ targets, Present dom n) :
    ∃ dom2 tr, removeTops targets dom = some (dom2, tr)
      ∧ tr.map (fun e => e.2) = targets
      ∧ (∀ q, childList dom2 q = keepOthers targets (childList dom q))
      ∧ TreeInv dom2 := by
  induction targets generalizing dom with
  | nil =>
    refine ⟨dom, [], rfl, rfl, ?_, hinv⟩
    intro q
    rw [keepOthers_nil]
  | cons n rest ih =>
    obtain ⟨q0, hq0⟩ := hpres n (List.mem_cons_self _ _)
    have hparent : parentD dom n = some q0 := parentD_eq hinv hq0
    have hrm : removeChildD dom q0 n
        = some (setChildren dom q0 ((childList dom q0).erase n)) := by
      rw [removeChildD, if_pos hq0]
    have hpt := removeChildD_pointwise hinv hrm
    have hinv1 := removeChildD_treeInv hinv hrm
    rw [List.nodup_cons] at hnd
    have hpres1 : ∀ m ∈ rest,
        Present (setChildren dom q0 ((childList dom q0).erase n)) m := by
      intro m hm
      obtain ⟨qm, hqm⟩ := hpres m (List.mem_cons_of_mem _ hm)
      refine ⟨qm, ?_⟩
      rw [hpt qm]
      rw [List.mem_filter]
      refine ⟨hqm, ?_⟩
      have hmn : m ≠ n := fun he => hnd.1 (he ▸ hm)
      simpa using hmn
    obtain ⟨dom2, tr, hrun, htr, hpt2, hinv2⟩ := ih hinv1 hnd.2 hpres1
    refine ⟨dom2, (q0, n) :: tr, ?_, ?_, ?_, hinv2⟩
    · simp only [removeTops, hparent, hrm, hrun]
    · rw [List.map_cons, htr]
    · intro q
      rw [hpt2 q]
      have : keepOthers rest
          (childList (setChildren dom q0 ((childList dom q0).erase n)) q)
          = keepOthers rest (keepOthers [n] (childList dom q)) := by
        rw [hpt q, keepOthers_singleton]
      rw [this, keepOthers_cons]

end CFDom

namespace CFDom

theorem contains_append (S1 S2 : List Nat) (x : Nat) :
    (S1 ++ S2).contains x = (S1.contains x || S2.contains x) := by
  induction S1 with
  | nil => simp [List.contains]
  | cons a as ih => simp [List.contains_cons, ih, Bool.or_assoc]

theorem keepOthers_sets_append (S1 S2 l : List Nat) :
    keepOthers S2 (keepOthers S1 l) = keepOthers (S1 ++ S2) l := by
  rw [keepOthers_keepOthers, keepOthers]
  congr 1
  funext x
  rw [contains_append, Bool.not_or]

theorem mem_nestedNodes_condsNodes {Ctx : Type} {n : Nat} :
    (c : CondsT Ctx) → n ∈ nestedNodes c → n ∈ condsNodes c
  | CondsT.nil, h => absurd h (List.not_mem_nil n)
  | CondsT.cons check loc nested anchor rest, h => by
    rcases List.mem_append.mp h with h2 | h2
    · exact List.mem_append.mpr (Or.inl h2)
    · exact List.mem_append.mpr
        (Or.inr (List.mem_cons_of_mem _ (mem_nestedNodes_condsNodes rest h2)))

theorem mem_childNodes_eachsNodes {Ctx : Type} {n : Nat} :
    (e : EachsT Ctx) → n ∈ childNodes e → n ∈ eachsNodes e
  | EachsT.nil, h => absurd h (List.not_mem_nil n)
  | EachsT.cons getItems loc children anchor rest, h => by
    rcases List.mem_append.mp h with h2 | h2
    · exact List.mem_append.mpr (Or.inl h2)
    · exact List.mem_append.mpr
        (Or.inr (List.mem_cons_of_mem _ (mem_childNodes_eachsNodes rest h2)))

theorem mem_topTargets_chainSnd {Ctx : Type}
    {pieces upds : List (Option Nat × Nat)} {conds : CondsT Ctx}
    {eachs : EachsT Ctx} {n : Nat}
    (h : n ∈ topTargets pieces upds conds eachs) :
    n ∈ (chainParts pieces upds conds eachs).map (fun x => x.2) := by
  rw [topTargets] at h
  obtain ⟨e, he, hn⟩ := List.mem_map.mp h
  exact List.mem_map.mpr ⟨e, List.mem_of_mem_filter he, hn⟩

/-- Decomposition of a fragment's node-list Nodup along the chain / nested /
children partition. -/
theorem fragNodes_decomp {Ctx : Type} {m : Bool}
    {pieces upds : List (Option Nat × Nat)} {conds : CondsT Ctx}
    {eachs : EachsT Ctx}
    (h : (fragNodes (FragT.mk m pieces upds conds eachs)).Nodup) :
    ((chainParts pieces upds conds eachs).map (fun x => x.2)).Nodup
      ∧ (nestedNodes conds).Nodup ∧ (childNodes eachs).Nodup
      ∧ ((chainParts pieces upds conds eachs).map (fun x => x.2)).Disjoint
          (nestedNodes conds ++ childNodes eachs)
      ∧ (nestedNodes conds).Disjoint (childNodes eachs) := by
  have hperm := fragNodes_perm_chain m pieces upds conds eachs
  have h2 := hperm.nodup_iff.mp h
  rw [List.nodup_append] at h2
  obtain ⟨hchain, h3, hdisj⟩ := h2
  rw [List.nodup_append] at h3
  exact ⟨hchain, h3.1, h3.2.1, hdisj, h3.2.2⟩

end CFDom

namespace CFDom

theorem mem_chainSnd_fragNodes {Ctx : Type} {m : Bool}
    {pieces upds : List (Option Nat × Nat)} {conds : CondsT Ctx}
    {eachs : EachsT Ctx} {n : Nat}
    (h : n ∈ (chainParts pieces upds conds eachs).map (fun x => x.2)) :
    n ∈ fragNodes (FragT.mk m pieces upds conds eachs) :=
  (fragNodes_perm_chain m pieces upds conds eachs).mem_iff.mpr
    (List.mem_append.mpr (Or.inl h))

theorem mem_nested_fragNodes {Ctx : Type} {m : Bool}
    {pieces upds : List (Option Nat × Nat)} {conds : CondsT Ctx}
    {eachs : EachsT Ctx} {n : Nat} (h : n ∈ nestedNodes conds) :
    n ∈ fragNodes (FragT.mk m pieces upds conds eachs) :=
  (fragNodes_perm_chain m pieces upds conds eachs).mem_iff.mpr
    (List.mem_append.mpr (Or.inr (List.mem_append.mpr (Or.inl h))))

theorem mem_child_fragNodes {Ctx : Type} {m : Bool}
    {pieces upds : List (Option Nat × Nat)} {conds : CondsT Ctx}
    {eachs : EachsT Ctx} {n : Nat} (h : n ∈ childNodes eachs) :
    n ∈ fragNodes (FragT.mk m pieces upds conds eachs) :=
  (fragNodes_perm_chain m pieces upds conds eachs).mem_iff.mpr
    (List.mem_append.mpr (Or.inr (List.mem_append.mpr (Or.inr h))))

mutual

theorem WMF_frame {Ctx : Type} {dom dom' : Dom} :
    (f : FragT Ctx) →
      (∀ n ∈ fragNodes f, Present dom n → Present dom' n) →
        WMF f dom → WMF f dom'
  | FragT.mk m pieces upds conds eachs, hkeep, hwm => by
    obtain ⟨hm, hpres, hc, he⟩ := hwm
    refine ⟨hm, ?_, ?_, ?_⟩
    · intro n hn
      exact hkeep n (mem_chainSnd_fragNodes (mem_topTargets_chainSnd hn))
        (hpres n hn)
    · exact WMConds_frame conds
        (fun n hn => hkeep n (mem_nested_fragNodes hn)) hc
    · exact WMEachs_frame eachs
        (fun n hn => hkeep n (mem_child_fragNodes hn)) he

theorem WMConds_frame {Ctx : Type} {dom dom' : Dom} :
    (c : CondsT Ctx) →
      (∀ n ∈ nestedNodes c, Present dom n → Present dom' n) →
        WMConds c dom → WMConds c dom'
  | CondsT.nil, _, _ => trivial
  | CondsT.cons check loc nested anchor rest, hkeep, hwm => by
    obtain ⟨hn, hrest⟩ := hwm
    refine ⟨?_, ?_⟩
    · intro hmounted
      exact WMF_frame nested
        (fun n hn2 => hkeep n (List.mem_append.mpr (Or.inl hn2)))
        (hn hmounted)
    · exact WMConds_frame rest
        (fun n hn2 => hkeep n (List.mem_append.mpr (Or.inr hn2))) hrest

theorem WMEachs_frame {Ctx : Type} {dom dom' : Dom} :
    (e : EachsT Ctx) →
      (∀ n ∈ childNodes e, Present dom n → Present dom' n) →
        WMEachs e dom → WMEachs e dom'
  | EachsT.nil, _, _ => trivial
  | EachsT.cons getItems loc children anchor rest, hkeep, hwm => by
    obtain ⟨hch, hrest⟩ := hwm
    refine ⟨?_, ?_⟩
    · exact WMFrags_frame children
        (fun n hn2 => hkeep n (List.mem_append.mpr (Or.inl hn2))) hch
    · exact WMEachs_frame rest
        (fun n hn2 => hkeep n (List.mem_append.mpr (Or.inr hn2))) hrest

theorem WMFrags_frame {Ctx : Type} {dom dom' : Dom} :
    (fs : FragsT Ctx) →
      (∀ n ∈ fragsNodes fs, Present dom n → Present dom' n) →
        WMFrags fs dom → WMFrags fs dom'
  | FragsT.nil, _, _ => trivial
  | FragsT.cons f rest, hkeep, hwm => by
    obtain ⟨hf, hrest⟩ := hwm
    refine ⟨?_, ?_⟩
    · exact WMF_frame f
        (fun n hn2 => hkeep n (List.mem_append.mpr (Or.inl hn2))) hf
    · exact WMFrags_frame rest
        (fun n hn2 => hkeep n (List.mem_append.mpr (Or.inr hn2))) hrest

end

end CFDom

namespace CFDom

/-- Presence survives a pointwise removal filter that does not target the
node. -/
theorem Present_keepOthers {dom dom1 : Dom} {S : List Nat}
    (hpt : ∀ q, childList dom1 q = keepOthers S (childList dom q)) {n : Nat}
    (hns : n ∉ S) : Present dom n → Present dom1 n := by
  rintro ⟨q, hq⟩
  refine ⟨q, ?_⟩
  rw [hpt q, keepOthers, List.mem_filter]
  refine ⟨hq, ?_⟩
  simpa using hns

theorem mem_topClosure_fragNodes {Ctx : Type} {f : FragT Ctx} {n : Nat}
    (h : n ∈ topClosure f) : n ∈ fragNodes f :=
  (topClosure_subperm f).subset h

theorem mem_closureConds_nestedNodes {Ctx : Type} {c : CondsT Ctx} {n : Nat}
    (h : n ∈ closureConds c) : n ∈ nestedNodes c :=
  (closureConds_subperm c).subset h

theorem mem_closureEachs_childNodes {Ctx : Type} {e : EachsT Ctx} {n : Nat}
    (h : n ∈ closureEachs e) : n ∈ childNodes e :=
  (closureEachs_subperm e).subset h

theorem mem_closureFrags_fragsNodes {Ctx : Type} {fs : FragsT Ctx} {n : Nat}
    (h : n ∈ closureFrags fs) : n ∈ fragsNodes fs :=
  (closureFrags_subperm fs).subset h

theorem topTargets_nodup {Ctx : Type}
    {pieces upds : List (Option Nat × Nat)} {conds : CondsT Ctx}
    {eachs : EachsT Ctx}
    (h : ((chainParts pieces upds conds eachs).map (fun x => x.2)).Nodup) :
    (topTargets pieces upds conds eachs).Nodup :=
  subperm_nodup ((List.Sublist.map _ (List.filter_sublist _)).subperm) h

end CFDom

namespace CFDom

mutual

/-- `Fragment::detach` on a well-mounted fragment with duplicate-free node
ownership succeeds, its remove-call trace names exactly the closure of
top-level nodes, and the host tree loses exactly those nodes from every
child list (order of survivors untouched), preserving the forest
invariant. -/
theorem detachF_spec {Ctx : Type} :
    (f : FragT Ctx) → (dom : Dom) → TreeInv dom →
      (f.mounted = true → WMF f dom) → (fragNodes f).Nodup →
        ∃ f2 dom2 tr, detachF f dom = some (f2, dom2, tr)
          ∧ tr.map (fun e => e.2) = topClosure f
          ∧ (∀ q, childList dom2 q
              = keepOthers (topClosure f) (childList dom q))
          ∧ TreeInv dom2
  | FragT.mk false pieces upds conds eachs, dom, hinv, _, _ => by
    refine ⟨FragT.mk false pieces upds conds eachs, dom, [], rfl, rfl,
      ?_, hinv⟩
    intro q
    show childList dom q = keepOthers [] (childList dom q)
    rw [keepOthers_nil]
  | FragT.mk true pieces upds conds eachs, dom, hinv, hwm, hnd => by
    obtain ⟨_, hpres, hc, he⟩ := hwm rfl
    obtain ⟨hchain, hnest, hchild, hdisj, hdisj2⟩ := fragNodes_decomp hnd
    obtain ⟨dom1, tr1, hrun1, htr1, hpt1, hinv1⟩ :=
      removeTops_spec hinv (topTargets_nodup hchain) hpres
    have hkeep1 : ∀ n ∈ nestedNodes conds, Present dom n → Present dom1 n := by
      intro n hn
      refine Present_keepOthers hpt1 (fun htt => ?_)
      exact hdisj (mem_topTargets_chainSnd htt)
        (List.mem_append.mpr (Or.inl hn))
    obtain ⟨conds2, dom2, tr2, hrun2, htr2, hpt2, hinv2⟩ :=
      detachConds_spec conds dom1 hinv1 (WMConds_frame conds hkeep1 hc) hnest
    have hpt12 : ∀ q, childList dom2 q
        = keepOthers (topTargets pieces upds conds eachs
            ++ closureConds conds) (childList dom q) := by
      intro q
      rw [hpt2 q, hpt1 q, keepOthers_sets_append]
    have hkeep2 : ∀ n ∈ childNodes eachs, Present dom n → Present dom2 n := by
      intro n hn
      refine Present_keepOthers hpt12 (fun hmem => ?_)
      rcases List.mem_append.mp hmem with htt | hcc
      · exact hdisj (mem_topTargets_chainSnd htt)
          (List.mem_append.mpr (Or.inr hn))
      · exact hdisj2 (mem_closureConds_nestedNodes hcc) hn
    obtain ⟨eachs3, dom3, tr3, hrun3, htr3, hpt3, hinv3⟩ :=
      detachEachs_spec eachs dom2 hinv2 (WMEachs_frame eachs hkeep2 he) hchild
    refine ⟨FragT.mk false pieces upds conds2 eachs3, dom3, tr1 ++ tr2 ++ tr3,
      ?_, ?_, ?_, hinv3⟩
    · simp only [detachF, hrun1, hrun2, hrun3]
    · show ((tr1 ++ tr2) ++ tr3).map (fun e => e.2) = topClosure _
      rw [List.map_append, List.map_append, htr1, htr2, htr3]
      rfl
    · intro q
      rw [hpt3 q, hpt12 q, keepOthers_sets_append]
      rfl

/-- Detaching the conditional list of a well-mounted fragment. -/
theorem detachConds_spec {Ctx : Type} :
    (c : CondsT Ctx) → (dom : Dom) → TreeInv dom → WMConds c dom →
      (nestedNodes c).Nodup →
        ∃ c2 dom2 tr, detachConds c dom = some (c2, dom2, tr)
          ∧ tr.map (fun e => e.2) = closureConds c
          ∧ (∀ q, childList dom2 q
              = keepOthers (closureConds c) (childList dom q))
          ∧ TreeInv dom2
  | CondsT.nil, dom, hinv, _, _ => by
    refine ⟨CondsT.nil, dom, [], rfl, rfl, ?_, hinv⟩
    intro q
    show childList dom q = keepOthers [] (childList dom q)
    rw [keepOthers_nil]
  | CondsT.cons check loc nested anchor rest, dom, hinv, hwm, hnd => by
    obtain ⟨hn, hrest⟩ := hwm
    rw [nestedNodes, List.nodup_append] at hnd
    obtain ⟨hndN, hndR, hdisj⟩ := hnd
    obtain ⟨nested2, dom1, tr1, hrun1, htr1, hpt1, hinv1⟩ :=
      detachF_spec nested dom hinv hn hndN
    have hkeep : ∀ n ∈ nestedNodes rest, Present dom n → Present dom1 n := by
      intro n hn2
      exact Present_keepOthers hpt1
        (fun hcl => hdisj (mem_topClosure_fragNodes hcl) hn2)
    obtain ⟨rest2, dom2, tr2, hrun2, htr2, hpt2, hinv2⟩ :=
      detachConds_spec rest dom1 hinv1 (WMConds_frame rest hkeep hrest) hndR
    refine ⟨CondsT.cons check loc nested2 anchor rest2, dom2, tr1 ++ tr2,
      ?_, ?_, ?_, hinv2⟩
    · simp only [detachConds, hrun1, hrun2]
    · rw [List.map_append, htr1, htr2]
      rfl
    · intro q
      rw [hpt2 q, hpt1 q, keepOthers_sets_append]
      rfl

/-- Detaching the each-block list of a well-mounted fragment. -/
theorem detachEachs_spec {Ctx : Type} :
    (e : EachsT Ctx) → (dom : Dom) → TreeInv dom → WMEachs e dom →
      (childNodes e).Nodup →
        ∃ e2 dom2 tr, detachEachs e dom = some (e2, dom2, tr)
          ∧ tr.map (fun x => x.2) = closureEachs e
          ∧ (∀ q, childList dom2 q
              = keepOthers (closureEachs e) (childList dom q))
          ∧ TreeInv dom2
  | EachsT.nil, dom, hinv, _, _ => by
    refine ⟨EachsT.nil, dom, [], rfl, rfl, ?_, hinv⟩
    intro q
    show childList dom q = keepOthers [] (childList dom q)
    rw [keepOthers_nil]
  | EachsT.cons getItems loc children anchor rest, dom, hinv, hwm, hnd => by
    obtain ⟨hch, hrest⟩ := hwm
    rw [childNodes, List.nodup_append] at hnd
    obtain ⟨hndC, hndR, hdisj⟩ := hnd
    obtain ⟨dom1, tr1, hrun1, htr1, hpt1, hinv1⟩ :=
      detachFrags_spec children dom hinv hch hndC
    have hkeep : ∀ n ∈ childNodes rest, Present dom n → Present dom1 n := by
      intro n hn2
      exact Present_keepOthers hpt1
        (fun hcl => hdisj (mem_closureFrags_fragsNodes hcl) hn2)
    obtain ⟨rest2, dom2, tr2, hrun2, htr2, hpt2, hinv2⟩ :=
      detachEachs_spec rest dom1 hinv1 (WMEachs_frame rest hkeep hrest) hndR
    refine ⟨EachsT.cons getItems loc FragsT.nil anchor rest2, dom2,
      tr1 ++ tr2, ?_, ?_, ?_, hinv2⟩
    · simp only [detachEachs, hrun1, hrun2]
    · rw [List.map_append, htr1, htr2]
      rfl
    · intro q
      rw [hpt2 q, hpt1 q, keepOthers_sets_append]
      rfl

/-- Detaching a list of retained child fragments. -/
theorem detachFrags_spec {Ctx : Type} :
    (fs : FragsT Ctx) → (dom : Dom) → TreeInv dom → WMFrags fs dom →
      (fragsNodes fs).Nodup →
        ∃ dom2 tr, detachFrags fs dom = some (dom2, tr)
          ∧ tr.map (fun x => x.2) = closureFrags fs
          ∧ (∀ q, childList dom2 q
              = keepOthers (closureFrags fs) (childList dom q))
          ∧ TreeInv dom2
  | FragsT.nil, dom, hinv, _, _ => by
    refine ⟨dom, [], rfl, rfl, ?_, hinv⟩
    intro q
    show childList dom q = keepOthers [] (childList dom q)
    rw [keepOthers_nil]
  | FragsT.cons f rest, dom, hinv, hwm, hnd => by
    obtain ⟨hf, hrest⟩ := hwm
    rw [fragsNodes, List.nodup_append] at hnd
    obtain ⟨hndF, hndR, hdisj⟩ := hnd
    obtain ⟨f2, dom1, tr1, hrun1, htr1, hpt1, hinv1⟩ :=
      detachF_spec f dom hinv (fun _ => hf) hndF
    have hkeep : ∀ n ∈ fragsNodes rest, Present dom n → Present dom1 n := by
      intro n hn2
      exact Present_keepOthers hpt1
        (fun hcl => hdisj (mem_topClosure_fragNodes hcl) hn2)
    obtain ⟨dom2, tr2, hrun2, htr2, hpt2, hinv2⟩ :=
      detachFrags_spec rest dom1 hinv1 (WMFrags_frame rest hkeep hrest) hndR
    refine ⟨dom2, tr1 ++ tr2, ?_, ?_, ?_, hinv2⟩
    · simp only [detachFrags, hrun1, hrun2]
    · rw [List.map_append, htr1, htr2]
      rfl
    · intro q
      rw [hpt2 q, hpt1 q, keepOthers_sets_append]
      rfl

end

end CFDom

namespace CFDom

theorem keepOthers_comm (S1 S2 l : List Nat) :
    keepOthers S2 (keepOthers S1 l) = keepOthers S1 (keepOthers S2 l) := by
  rw [keepOthers_keepOthers, keepOthers_keepOthers]
  congr 1
  funext x
  rw [Bool.and_comm]

/-- A pointwise filtered-list equality weakens to any larger removal set. -/
theorem keepOthers_mono_eq {S0 S : List Nat} (hsub : ∀ x ∈ S0, x ∈ S)
    {l1 l2 : List Nat} (h : keepOthers S0 l1 = keepOthers S0 l2) :
    keepOthers S l1 = keepOthers S l2 := by
  have h1 := congrArg (keepOthers S) h
  rwa [keepOthers_comm, keepOthers_subset_absorb hsub,
    keepOthers_comm, keepOthers_subset_absorb hsub] at h1

/-- A node outside the removal set that is present after a pointwise
removal was present before. -/
theorem present_of_keepOthers_eq {dom dom' : Dom} {S : List Nat}
    (hpt : ∀ q, keepOthers S (childList dom' q)
      = keepOthers S (childList dom q))
    {n : Nat} (hns : n ∉ S) : Present dom' n → Present dom n := by
  rintro ⟨q, hq⟩
  refine ⟨q, ?_⟩
  have h1 : n ∈ keepOthers S (childList dom' q) := by
    rw [keepOthers, List.mem_filter]
    exact ⟨hq, by simpa using hns⟩
  rw [hpt q] at h1
  exact List.mem_of_mem_filter h1

/-- Two node sets each split into a bounded old part and a fresh range are
disjoint when the old parts are and the ranges do not overlap. -/
theorem disjoint_of_oldnew {X Y OX OY : List Nat} {alloc mid hi : Nat}
    (hmid : alloc ≤ mid)
    (hX : ∀ n ∈ X, n ∈ OX ∨ (alloc ≤ n ∧ n < mid))
    (hY : ∀ n ∈ Y, n ∈ OY ∨ (mid ≤ n ∧ n < hi))
    (hOX : ∀ n ∈ OX, n < alloc) (hOY : ∀ n ∈ OY, n < alloc)
    (hdisj : ∀ n, n ∈ OX → n ∈ OY → False) :
    ∀ n, n ∈ X → n ∈ Y → False := by
  intro n hx hy
  rcases hX n hx with h1 | h1 <;> rcases hY n hy with h2 | h2
  · exact hdisj n h1 h2
  · have := hOX n h1
    omega
  · have := hOY n h2
    omega
  · omega

theorem pristine_not_mounted {Ctx : Type} :
    (f : FragT Ctx) → PristineF f → f.mounted = false
  | FragT.mk _ _ _ _ _, h => h.1

/-- The top-level chain targets of a built fragment. -/
def topTargetsF {Ctx : Type} : FragT Ctx → List Nat
  | FragT.mk _ pieces upds conds eachs => topTargets pieces upds conds eachs

theorem topFilter_cons_none (n : Nat) (rest : List (Option Nat × Nat)) :
    ((((none, n) :: rest).filter (fun e => e.1 = none)).map (fun x => x.2))
      = n :: ((rest.filter (fun e => e.1 = none)).map (fun x => x.2)) := by
  simp [List.filter_cons]

theorem topFilter_cons_some (i n : Nat) (rest : List (Option Nat × Nat)) :
    ((((some i, n) :: rest).filter (fun e => e.1 = none)).map (fun x => x.2))
      = (rest.filter (fun e => e.1 = none)).map (fun x => x.2) := by
  simp [List.filter_cons]

/-- Inserting a single fresh node leaves every child list unchanged once
that node is filtered back out. -/
theorem insertBeforeD_keepOthers {dom domA : Dom} {p n : Nat} {a : Option Nat}
    (hfresh : ∀ q, n ∉ childList dom q)
    (h : insertBeforeD dom p n a = some domA) :
    ∀ q, keepOthers [n] (childList domA q) = keepOthers [n] (childList dom q) := by
  obtain ⟨hne, ⟨u, v, huv, hp⟩⟩ := insertBeforeD_childList hfresh h
  intro q
  by_cases hq : q = p
  · subst hq
    rw [hp, huv, keepOthers_append, keepOthers_append]
    congr 1
    show (n :: v).filter (fun x => !([n].contains x)) = keepOthers [n] v
    rw [List.filter_cons]
    have hn : (!([n].contains n)) = false := by
      simp [List.contains]
    rw [hn]
    rfl
  · rw [hne q hq]

end CFDom

namespace CFDom

/-- `Fragment::mount`'s node-placement loop: when it succeeds it preserves
the forest invariant, keeps every previously present node present, makes
every chain node present, changes no child list except by inserting chain
nodes, inserts into non-piece lists only the top-level (no parent index)
chain nodes, and respects any node-id bound covering the chain. -/
theorem mountChain_spec :
    (chain : List (Option Nat × Nat)) →
      ∀ (pieces : List (Option Nat × Nat)) (p : Nat) (a : Option Nat)
        (dom dom1 : Dom),
      TreeInv dom →
      (∀ e ∈ chain, ∀ q, e.2 ∉ childList dom q) →
      ((chain.map (fun x => x.2)).Nodup) →
      mountChain chain pieces p a dom = some dom1 →
      TreeInv dom1
        ∧ (∀ n, Present dom n → Present dom1 n)
        ∧ (∀ e ∈ chain, Present dom1 e.2)
        ∧ (∀ q, keepOthers (chain.map (fun x => x.2)) (childList dom1 q)
            = keepOthers (chain.map (fun x => x.2)) (childList dom q))
        ∧ (∀ q, q ∉ pieces.map (fun x => x.2) →
            ∀ x ∈ childList dom1 q,
              x ∈ childList dom q
                ∨ x ∈ (chain.filter (fun e => e.1 = none)).map (fun x => x.2))
        ∧ (∀ b, DomBound dom b → (∀ e ∈ chain, e.2 < b) → DomBound dom1 b)
  | [], pieces, p, a, dom, dom1, hinv, _, _, hrun => by
    cases hrun
    refine ⟨hinv, fun n h => h, fun e he => absurd he (List.not_mem_nil e),
      fun q => rfl, fun q _ x hx => Or.inl hx, fun b hb _ => hb⟩
  | (none, n) :: rest, pieces, p, a, dom, dom1, hinv, hfr, hnd, hrun => by
    rw [mountChain] at hrun
    cases h1 : insertBeforeD dom p n a with
    | none => rw [h1] at hrun; cases hrun
    | some domA =>
      rw [h1] at hrun
      have hfreshn : ∀ q, n ∉ childList dom q := by
        intro q
        exact hfr (none, n) (List.mem_cons_self _ _) q
      obtain ⟨hne, ⟨u, v, huv, hp⟩⟩ := insertBeforeD_childList hfreshn h1
      rw [List.map_cons, List.nodup_cons] at hnd
      have hfrA : ∀ e ∈ rest, ∀ q, e.2 ∉ childList domA q := by
        intro e he q hmem
        have hen : e.2 ≠ n := by
          intro hcontra
          exact hnd.1 (hcontra ▸ List.mem_map.mpr ⟨e, he, rfl⟩)
        by_cases hq : q = p
        · rw [hq, hp] at hmem
          rcases List.mem_append.mp hmem with h2 | h2
          · exact hfr e (List.mem_cons_of_mem _ he) p
              (by rw [huv]; exact List.mem_append.mpr (Or.inl h2))
          · rcases List.mem_cons.mp h2 with h3 | h3
            · exact hen h3
            · exact hfr e (List.mem_cons_of_mem _ he) p
                (by rw [huv]; exact List.mem_append.mpr (Or.inr h3))
        · rw [hne q hq] at hmem
          exact hfr e (List.mem_cons_of_mem _ he) q hmem
      obtain ⟨hinv1, hmono, hpres, hpt, hout, hbnd⟩ :=
        mountChain_spec rest pieces p a domA dom1
          (insertBeforeD_treeInv hfreshn hinv h1) hfrA hnd.2 hrun
      have hmonoA := insertBeforeD_mem_mono hfreshn h1
      have hkeepA := insertBeforeD_keepOthers hfreshn h1
      refine ⟨hinv1, ?_, ?_, ?_, ?_, ?_⟩
      · rintro m ⟨q, hq⟩
        exact hmono m ⟨q, hmonoA q m hq⟩
      · intro e he
        rcases List.mem_cons.mp he with h2 | h2
        · subst h2
          refine hmono n ⟨p, ?_⟩
          rw [hp]
          exact List.mem_append.mpr (Or.inr (List.mem_cons_self _ _))
        · exact hpres e h2
      · intro q
        show keepOthers (n :: rest.map (fun x => x.2)) (childList dom1 q)
          = keepOthers (n :: rest.map (fun x => x.2)) (childList dom q)
        rw [← keepOthers_cons n (rest.map (fun x => x.2)) (childList dom1 q),
          ← keepOthers_cons n (rest.map (fun x => x.2)) (childList dom q)]
        have s1 := keepOthers_comm [n] (rest.map (fun x => x.2))
          (childList dom1 q)
        have s2 := congrArg (keepOthers [n]) (hpt q)
        have s3 := (keepOthers_comm [n] (rest.map (fun x => x.2))
          (childList domA q)).symm
        have s4 := congrArg (keepOthers (rest.map (fun x => x.2))) (hkeepA q)
        exact ((s1.trans s2).trans s3).trans s4
      · intro q hqp x hx
        rcases hout q hqp x hx with h2 | h2
        · by_cases hq : q = p
          · rw [hq, hp] at h2
            rcases List.mem_append.mp h2 with h3 | h3
            · refine Or.inl ?_
              rw [hq, huv]
              exact List.mem_append.mpr (Or.inl h3)
            · rcases List.mem_cons.mp h3 with h4 | h4
              · refine Or.inr ?_
                rw [topFilter_cons_none]
                exact h4 ▸ List.mem_cons_self _ _
              · refine Or.inl ?_
                rw [hq, huv]
                exact List.mem_append.mpr (Or.inr h4)
          · rw [hne q hq] at h2
            exact Or.inl h2
        · refine Or.inr ?_
          rw [topFilter_cons_none]
          exact List.mem_cons_of_mem _ h2
      · intro b hb hlt
        refine hbnd b
          (insertBeforeD_domBound hb (hlt (none, n) (List.mem_cons_self _ _))
            hfreshn h1) ?_
        intro e he
        exact hlt e (List.mem_cons_of_mem _ he)
  | (some i, n) :: rest, pieces, p, a, dom, dom1, hinv, hfr, hnd, hrun => by
    rw [mountChain] at hrun
    cases hpc : pieces[i]? with
    | none => rw [hpc] at hrun; cases hrun
    | some pc =>
      simp only [hpc] at hrun
      cases h1 : insertBeforeD dom pc.2 n none with
      | none => rw [h1] at hrun; cases hrun
      | some domA =>
        rw [h1] at hrun
        have hfreshn : ∀ q, n ∉ childList dom q := by
          intro q
          exact hfr (some i, n) (List.mem_cons_self _ _) q
        obtain ⟨hne, ⟨u, v, huv, hp⟩⟩ := insertBeforeD_childList hfreshn h1
        rw [List.map_cons, List.nodup_cons] at hnd
        have hfrA : ∀ e ∈ rest, ∀ q, e.2 ∉ childList domA q := by
          intro e he q hmem
          have hen : e.2 ≠ n := by
            intro hcontra
            exact hnd.1 (hcontra ▸ List.mem_map.mpr ⟨e, he, rfl⟩)
          by_cases hq : q = pc.2
          · rw [hq, hp] at hmem
            rcases List.mem_append.mp hmem with h2 | h2
            · exact hfr e (List.mem_cons_of_mem _ he) pc.2
                (by rw [huv]; exact List.mem_append.mpr (Or.inl h2))
            · rcases List.mem_cons.mp h2 with h3 | h3
              · exact hen h3
              · exact hfr e (List.mem_cons_of_mem _ he) pc.2
                  (by rw [huv]; exact List.mem_append.mpr (Or.inr h3))
          · rw [hne q hq] at hmem
            exact hfr e (List.mem_cons_of_mem _ he) q hmem
        obtain ⟨hinv1, hmono, hpres, hpt, hout, hbnd⟩ :=
          mountChain_spec rest pieces p a domA dom1
            (insertBeforeD_treeInv hfreshn hinv h1) hfrA hnd.2 hrun
        have hmonoA := insertBeforeD_mem_mono hfreshn h1
        have hkeepA := insertBeforeD_keepOthers hfreshn h1
        have hpcmem : pc.2 ∈ pieces.map (fun x => x.2) := by
          have hm : pc ∈ pieces := by
            obtain ⟨hlen, hget⟩ := List.getElem?_eq_some_iff.mp hpc
            exact hget ▸ List.getElem_mem hlen
          exact List.mem_map.mpr ⟨pc, hm, rfl⟩
        refine ⟨hinv1, ?_, ?_, ?_, ?_, ?_⟩
        · rintro m ⟨q, hq⟩
          exact hmono m ⟨q, hmonoA q m hq⟩
        · intro e he
          rcases List.mem_cons.mp he with h2 | h2
          · subst h2
            refine hmono n ⟨pc.2, ?_⟩
            rw [hp]
            exact List.mem_append.mpr (Or.inr (List.mem_cons_self _ _))
          · exact hpres e h2
        · intro q
          show keepOthers (n :: rest.map (fun x => x.2)) (childList dom1 q)
            = keepOthers (n :: rest.map (fun x => x.2)) (childList dom q)
          rw [← keepOthers_cons n (rest.map (fun x => x.2)) (childList dom1 q),
            ← keepOthers_cons n (rest.map (fun x => x.2)) (childList dom q)]
          have s1 := keepOthers_comm [n] (rest.map (fun x => x.2))
            (childList dom1 q)
          have s2 := congrArg (keepOthers [n]) (hpt q)
          have s3 := (keepOthers_comm [n] (rest.map (fun x => x.2))
            (childList domA q)).symm
          have s4 := congrArg (keepOthers (rest.map (fun x => x.2))) (hkeepA q)
          exact ((s1.trans s2).trans s3).trans s4
        · intro q hqp x hx
          have hqpc : q ≠ pc.2 := by
            intro hcontra
            exact hqp (hcontra ▸ hpcmem)
          rcases hout q hqp x hx with h2 | h2
          · rw [hne q hqpc] at h2
            exact Or.inl h2
          · refine Or.inr ?_
            rw [topFilter_cons_some]
            exact h2
        · intro b hb hlt
          refine hbnd b
            (insertBeforeD_domBound hb
              (hlt (some i, n) (List.mem_cons_self _ _)) hfreshn h1) ?_
          intro e he
          exact hlt e (List.mem_cons_of_mem _ he)

end CFDom

namespace CFDom

/-- What one mounting phase guarantees: the allocator only grows, the
forest invariant and the allocator bound persist, presence is monotone,
the phase's resulting node set is duplicate-free and consists of its old
nodes plus freshly allocated ones, every child list is unchanged once the
phase's nodes are filtered out, and lists outside the phase's nodes gain
only members of its removal closure. -/
def PhaseOut (dom dom' : Dom) (alloc alloc' : Nat)
    (oldNodes newNodes closure : List Nat) : Prop :=
  alloc ≤ alloc'
    ∧ TreeInv dom'
    ∧ DomBound dom' alloc'
    ∧ (∀ n, Present dom n → Present dom' n)
    ∧ newNodes.Nodup
    ∧ (∀ n ∈ newNodes, n ∈ oldNodes ∨ (alloc ≤ n ∧ n < alloc'))
    ∧ (∀ q, keepOthers newNodes (childList dom' q)
        = keepOthers newNodes (childList dom q))
    ∧ (∀ q, q ∉ newNodes →
        ∀ x ∈ childList dom' q, x ∈ childList dom q ∨ x ∈ closure)

/-- The `mountF` clause of the mount specification at a given fuel. -/
def MountFStmt (Ctx : Type) (fuel : Nat) : Prop :=
  ∀ (f : FragT Ctx) (ctx : Ctx) (p : Nat) (a : Option Nat) (dom : Dom)
    (alloc : Nat) (f' : FragT Ctx) (dom' : Dom) (alloc' : Nat),
    TreeInv dom → DomBound dom alloc → (fragNodes f).Nodup →
    (∀ n ∈ fragNodes f, n < alloc) →
    (∀ n ∈ fragNodes f, ¬ Present dom n) →
    PristineF f →
    mountF fuel f ctx p a dom alloc = some (f', dom', alloc') →
    PhaseOut dom dom' alloc alloc' (fragNodes f) (fragNodes f')
        (topClosure f')
      ∧ WMF f' dom' ∧ topTargetsF f' = topTargetsF f

/-- The `mountConds` clause of the mount specification at a given fuel. -/
def MountCondsStmt (Ctx : Type) (fuel : Nat) : Prop :=
  ∀ (c : CondsT Ctx) (ctx : Ctx) (dom : Dom) (alloc : Nat) (c2 : CondsT Ctx)
    (dom2 : Dom) (alloc2 : Nat),
    TreeInv dom → DomBound dom alloc → (condsNodes c).Nodup →
    (∀ n ∈ condsNodes c, n < alloc) →
    (∀ n ∈ nestedNodes c, ¬ Present dom n) →
    PristineConds c →
    mountConds fuel c ctx dom alloc = some (c2, dom2, alloc2) →
    PhaseOut dom dom2 alloc alloc2 (condsNodes c) (condsNodes c2)
        (closureConds c2)
      ∧ WMConds c2 dom2 ∧ condAnchors c2 = condAnchors c

/-- The `mountEachs` clause of the mount specification at a given fuel. -/
def MountEachsStmt (Ctx : Type) (fuel : Nat) : Prop :=
  ∀ (e : EachsT Ctx) (ctx : Ctx) (dom : Dom) (alloc : Nat) (e2 : EachsT Ctx)
    (dom2 : Dom) (alloc2 : Nat),
    TreeInv dom → DomBound dom alloc → (eachsNodes e).Nodup →
    (∀ n ∈ eachsNodes e, n < alloc) →
    PristineEachs e →
    mountEachs fuel e ctx dom alloc = some (e2, dom2, alloc2) →
    PhaseOut dom dom2 alloc alloc2 (eachsNodes e) (eachsNodes e2)
        (closureEachs e2)
      ∧ WMEachs e2 dom2 ∧ eachAnchors e2 = eachAnchors e

/-- The `mountKids` clause of the mount specification at a given fuel. -/
def MountKidsStmt (Ctx : Type) (fuel : Nat) : Prop :=
  ∀ (bs : BuildersT Ctx) (ctx : Ctx) (pp anchor : Nat) (dom : Dom)
    (alloc : Nat) (kids : FragsT Ctx) (dom2 : Dom) (alloc2 : Nat),
    TreeInv dom → DomBound dom alloc →
    mountKids fuel bs ctx pp anchor dom alloc = some (kids, dom2, alloc2) →
    PhaseOut dom dom2 alloc alloc2 [] (fragsNodes kids) (closureFrags kids)
      ∧ WMFrags kids dom2

end CFDom

namespace CFDom

theorem mountKids_step {Ctx : Type} {fuel : Nat}
    (ihF : MountFStmt Ctx fuel) (ihK : MountKidsStmt Ctx fuel) :
    MountKidsStmt Ctx (fuel + 1) := by
  intro bs ctx pp anchor dom alloc kids dom2 alloc2 hinv hbnd hrun
  cases bs with
  | nil =>
    simp only [mountKids] at hrun
    cases hrun
    refine ⟨⟨Nat.le_refl _, hinv, hbnd, fun n h => h, List.nodup_nil,
      ?_, fun q => rfl, fun q _ x hx => Or.inl hx⟩, trivial⟩
    intro n hn
    exact absurd hn (List.not_mem_nil n)
  | cons b rest =>
    simp only [mountKids] at hrun
    rcases h1 : mountF fuel (buildF b alloc).1 ctx pp (some anchor) dom
        (buildF b alloc).2 with _ | ⟨nf, dom1, alloc1⟩
    · rw [h1] at hrun
      cases hrun
    · simp only [h1] at hrun
      rcases h2 : mountKids fuel rest ctx pp anchor dom1 alloc1 with
        _ | ⟨kids2, dom2x, alloc2x⟩
      · rw [h2] at hrun
        cases hrun
      · simp only [h2] at hrun
        cases hrun
        have hbn := buildF_nodes b alloc
        have hfresh : ∀ n ∈ fragNodes (buildF b alloc).1, ¬ Present dom n := by
          intro n hn hpr
          rw [hbn.2] at hn
          have hge : alloc ≤ n := by
            have := List.mem_range'_1.mp hn
            omega
          obtain ⟨q, hq⟩ := hpr
          exact DomBound.fresh hbnd hge q hq
        obtain ⟨⟨hle1, hinv1, hbnd1, hmono1, hndN, hmemN, hptN, houtN⟩,
            hwmN, _⟩ :=
          ihF (buildF b alloc).1 ctx pp (some anchor) dom (buildF b alloc).2
            nf dom1 alloc1 hinv (DomBound.mono hbnd hbn.1)
            (by rw [hbn.2]; exact List.nodup_range' _ _)
            (by
              intro n hn
              rw [hbn.2] at hn
              have := List.mem_range'_1.mp hn
              omega)
            hfresh (buildF_pristine b alloc) h1
        obtain ⟨⟨hle2, hinv2, hbnd2, hmono2, hndK, hmemK, hptK, houtK⟩,
            hwmK⟩ :=
          ihK rest ctx pp anchor dom1 alloc1 kids2 dom2 alloc2 hinv1
            hbnd1 h2
        have hnfBound : ∀ n ∈ fragNodes nf, alloc ≤ n ∧ n < alloc1 := by
          intro n hn
          rcases hmemN n hn with h3 | h3
          · rw [hbn.2] at h3
            have := List.mem_range'_1.mp h3
            omega
          · omega
        have hkidsBound : ∀ n ∈ fragsNodes kids2,
            alloc1 ≤ n ∧ n < alloc2 := by
          intro n hn
          rcases hmemK n hn with h3 | h3
          · exact absurd h3 (List.not_mem_nil n)
          · exact h3
        have hsetEq : fragsNodes (FragsT.cons nf kids2)
            = fragNodes nf ++ fragsNodes kids2 := rfl
        refine ⟨⟨?_, hinv2, hbnd2, ?_, ?_, ?_, ?_, ?_⟩, ?_, hwmK⟩
        · omega
        · intro n hp
          exact hmono2 n (hmono1 n hp)
        · rw [hsetEq, List.nodup_append]
          refine ⟨hndN, hndK, ?_⟩
          intro x hx hy
          have := hnfBound x hx
          have := hkidsBound x hy
          omega
        · intro n hn
          rw [hsetEq] at hn
          rcases List.mem_append.mp hn with h3 | h3
          · have := hnfBound n h3
            exact Or.inr (by omega)
          · have := hkidsBound n h3
            exact Or.inr (by omega)
        · intro q
          rw [hsetEq]
          have w1 := @keepOthers_mono_eq (fragsNodes kids2)
            (fragNodes nf ++ fragsNodes kids2)
            (fun x hx => List.mem_append.mpr (Or.inr hx)) _ _ (hptK q)
          have w2 := @keepOthers_mono_eq (fragNodes nf)
            (fragNodes nf ++ fragsNodes kids2)
            (fun x hx => List.mem_append.mpr (Or.inl hx)) _ _ (hptN q)
          exact w1.trans w2
        · intro q hq x hx
          rw [hsetEq] at hq
          have hq1 : q ∉ fragNodes nf :=
            fun h => hq (List.mem_append.mpr (Or.inl h))
          have hq2 : q ∉ fragsNodes kids2 :=
            fun h => hq (List.mem_append.mpr (Or.inr h))
          rcases houtK q hq2 x hx with h3 | h3
          · rcases houtN q hq1 x h3 with h4 | h4
            · exact Or.inl h4
            · refine Or.inr ?_
              show x ∈ topClosure nf ++ closureFrags kids2
              exact List.mem_append.mpr (Or.inl h4)
          · refine Or.inr ?_
            show x ∈ topClosure nf ++ closureFrags kids2
            exact List.mem_append.mpr (Or.inr h3)
        · exact WMF_frame nf (fun n _ hp => hmono2 n hp) hwmN

end CFDom

namespace CFDom

theorem mountEachs_step {Ctx : Type} {fuel : Nat}
    (ihK : MountKidsStmt Ctx fuel) (ihE : MountEachsStmt Ctx fuel) :
    MountEachsStmt Ctx (fuel + 1) := by
  intro e ctx dom alloc e2 dom2 alloc2 hinv hbnd hnd hlt hpr hrun
  cases e with
  | nil =>
    simp only [mountEachs] at hrun
    cases hrun
    exact ⟨⟨Nat.le_refl _, hinv, hbnd, fun n h => h, List.nodup_nil,
      fun n hn => absurd hn (List.not_mem_nil n), fun q => rfl,
      fun q _ x hx => Or.inl hx⟩, trivial, rfl⟩
  | cons getItems loc children anchor rest =>
    obtain ⟨hchil, hprest⟩ := hpr
    subst hchil
    simp only [mountEachs] at hrun
    rcases hpd : parentD dom anchor with _ | pp
    · rw [hpd] at hrun
      cases hrun
    · simp only [hpd, detachFrags] at hrun
      rcases hK : mountKids fuel (getItems ctx) ctx pp anchor dom alloc with
        _ | ⟨kids, dom1, alloc1⟩
      · rw [hK] at hrun
        cases hrun
      · simp only [hK] at hrun
        rcases hE : mountEachs fuel rest ctx dom1 alloc1 with
          _ | ⟨rest2, dom3, alloc3⟩
        · rw [hE] at hrun
          cases hrun
        · simp only [hE] at hrun
          cases hrun
          have hnd' : (anchor :: eachsNodes rest).Nodup := hnd
          rw [List.nodup_cons] at hnd'
          obtain ⟨hanotin, hndrest⟩ := hnd'
          have hlt' : ∀ n ∈ anchor :: eachsNodes rest, n < alloc := hlt
          have hanchorlt : anchor < alloc := hlt' anchor (List.mem_cons_self _ _)
          obtain ⟨⟨hle1, hinv1, hbnd1, hmono1, hndK, hmemK, hptK, houtK⟩,
              hwmK⟩ :=
            ihK (getItems ctx) ctx pp anchor dom alloc kids dom1 alloc1
              hinv hbnd hK
          obtain ⟨⟨hle2, hinv2, hbnd2, hmono2, hndE, hmemE, hptE, houtE⟩,
              hwmE, hanc⟩ :=
            ihE rest ctx dom1 alloc1 rest2 dom2 alloc2 hinv1 hbnd1 hndrest
              (fun n hn => Nat.lt_of_lt_of_le
                (hlt' n (List.mem_cons_of_mem _ hn)) hle1)
              hprest hE
          have hkidsB : ∀ n ∈ fragsNodes kids, alloc ≤ n ∧ n < alloc1 := by
            intro n hn
            rcases hmemK n hn with h3 | h3
            · exact absurd h3 (List.not_mem_nil n)
            · exact h3
          have hrestB : ∀ n ∈ eachsNodes rest2,
              n ∈ eachsNodes rest ∨ (alloc1 ≤ n ∧ n < alloc2) := hmemE
          have hsetEq : eachsNodes (EachsT.cons getItems loc kids anchor rest2)
              = fragsNodes kids ++ anchor :: eachsNodes rest2 := rfl
          refine ⟨⟨by omega, hinv2, hbnd2, ?_, ?_, ?_, ?_, ?_⟩, ?_, ?_⟩
          · intro n hp
            exact hmono2 n (hmono1 n hp)
          · rw [hsetEq, List.nodup_append]
            refine ⟨hndK, ?_, ?_⟩
            · rw [List.nodup_cons]
              refine ⟨?_, hndE⟩
              intro hmem
              rcases hrestB anchor hmem with h3 | h3
              · exact hanotin h3
              · omega
            · intro x hx hy
              have hb1 := hkidsB x hx
              rcases List.mem_cons.mp hy with h3 | h3
              · omega
              · rcases hrestB x h3 with h4 | h4
                · have := hlt' x (List.mem_cons_of_mem _ h4)
                  omega
                · omega
          · intro n hn
            rw [hsetEq] at hn
            rcases List.mem_append.mp hn with h3 | h3
            · have := hkidsB n h3
              exact Or.inr (by omega)
            · rcases List.mem_cons.mp h3 with h4 | h4
              · refine Or.inl ?_
                subst h4
                exact List.mem_cons_self _ _
              · rcases hrestB n h4 with h5 | h5
                · exact Or.inl (List.mem_cons_of_mem _ h5)
                · exact Or.inr (by omega)
          · intro q
            rw [hsetEq]
            have w1 := @keepOthers_mono_eq (eachsNodes rest2)
              (fragsNodes kids ++ anchor :: eachsNodes rest2)
              (fun x hx => List.mem_append.mpr
                (Or.inr (List.mem_cons_of_mem _ hx))) _ _ (hptE q)
            have w2 := @keepOthers_mono_eq (fragsNodes kids)
              (fragsNodes kids ++ anchor :: eachsNodes rest2)
              (fun x hx => List.mem_append.mpr (Or.inl hx)) _ _ (hptK q)
            exact w1.trans w2
          · intro q hq x hx
            rw [hsetEq] at hq
            have hq1 : q ∉ fragsNodes kids :=
              fun h => hq (List.mem_append.mpr (Or.inl h))
            have hq2 : q ∉ eachsNodes rest2 :=
              fun h => hq (List.mem_append.mpr
                (Or.inr (List.mem_cons_of_mem _ h)))
            rcases houtE q hq2 x hx with h3 | h3
            · rcases houtK q hq1 x h3 with h4 | h4
              · exact Or.inl h4
              · refine Or.inr ?_
                show x ∈ closureFrags kids ++ closureEachs rest2
                exact List.mem_append.mpr (Or.inl h4)
            · refine Or.inr ?_
              show x ∈ closureFrags kids ++ closureEachs rest2
              exact List.mem_append.mpr (Or.inr h3)
          · exact ⟨WMFrags_frame kids (fun n _ hp => hmono2 n hp) hwmK, hwmE⟩
          · show (loc, anchor) :: eachAnchors rest2
              = (loc, anchor) :: eachAnchors rest
            rw [hanc]

end CFDom

namespace CFDom

theorem mountConds_step {Ctx : Type} {fuel : Nat}
    (ihF : MountFStmt Ctx fuel) (ihC : MountCondsStmt Ctx fuel) :
    MountCondsStmt Ctx (fuel + 1) := by
  intro c ctx dom alloc c2 dom2 alloc2 hinv hbnd hnd hlt hfr hprc hrun
  cases c with
  | nil =>
    simp only [mountConds] at hrun
    cases hrun
    exact ⟨⟨Nat.le_refl _, hinv, hbnd, fun n h => h, List.nodup_nil,
      fun n hn => absurd hn (List.not_mem_nil n), fun q => rfl,
      fun q _ x hx => Or.inl hx⟩, trivial, rfl⟩
  | cons check loc nested anchor rest =>
    obtain ⟨hprn, hprrest⟩ := hprc
    simp only [mountConds] at hrun
    rcases hpd : parentD dom anchor with _ | pp
    · rw [hpd] at hrun
      cases hrun
    · simp only [hpd] at hrun
      have hnd' : (fragNodes nested ++ anchor :: condsNodes rest).Nodup := hnd
      rw [List.nodup_append] at hnd'
      obtain ⟨hndN, hndcons, hdisjNC⟩ := hnd'
      rw [List.nodup_cons] at hndcons
      obtain ⟨hanotinrest, hndrest⟩ := hndcons
      have hlt' : ∀ n ∈ fragNodes nested ++ anchor :: condsNodes rest,
          n < alloc := hlt
      have hfr' : ∀ n ∈ fragNodes nested ++ nestedNodes rest,
          ¬ Present dom n := hfr
      have hanchorlt : anchor < alloc :=
        hlt' anchor (List.mem_append.mpr (Or.inr (List.mem_cons_self _ _)))
      have hanotinN : anchor ∉ fragNodes nested := by
        intro hmem
        exact hdisjNC hmem (List.mem_cons_self _ _)
      by_cases hc : check ctx = true
      · rw [if_pos hc] at hrun
        rcases hF : mountF fuel nested ctx pp (some anchor) dom alloc with
          _ | ⟨nested2, dom1, alloc1⟩
        · rw [hF] at hrun
          cases hrun
        · simp only [hF] at hrun
          rcases hC : mountConds fuel rest ctx dom1 alloc1 with
            _ | ⟨rest2, dom2x, alloc2x⟩
          · rw [hC] at hrun
            cases hrun
          · simp only [hC] at hrun
            cases hrun
            obtain ⟨⟨hle1, hinv1, hbnd1, hmono1, hndN2, hmemN2, hptN2,
                houtN2⟩, hwmN2, htt⟩ :=
              ihF nested ctx pp (some anchor) dom alloc nested2 dom1 alloc1
                hinv hbnd hndN
                (fun n hn => hlt' n (List.mem_append.mpr (Or.inl hn)))
                (fun n hn => hfr' n (List.mem_append.mpr (Or.inl hn))) hprn hF
            have hN2B : ∀ n ∈ fragNodes nested2,
                n ∈ fragNodes nested ∨ (alloc ≤ n ∧ n < alloc1) := hmemN2
            have hfr1 : ∀ n ∈ nestedNodes rest, ¬ Present dom1 n := by
              intro n hn hp
              have hnotin2 : n ∉ fragNodes nested2 := by
                intro hmem
                rcases hN2B n hmem with h3 | h3
                · exact hdisjNC h3
                    (List.mem_cons_of_mem _ (mem_nestedNodes_condsNodes rest hn))
                · have := hlt' n (List.mem_append.mpr
                    (Or.inr (List.mem_cons_of_mem _
                      (mem_nestedNodes_condsNodes rest hn))))
                  omega
              exact hfr' n (List.mem_append.mpr (Or.inr hn))
                (present_of_keepOthers_eq hptN2 hnotin2 hp)
            obtain ⟨⟨hle2, hinv2, hbnd2, hmono2, hndR2, hmemR2, hptR2,
                houtR2⟩, hwmR2, hancR⟩ :=
              ihC rest ctx dom1 alloc1 rest2 dom2 alloc2 hinv1 hbnd1 hndrest
                (fun n hn => Nat.lt_of_lt_of_le
                  (hlt' n (List.mem_append.mpr
                    (Or.inr (List.mem_cons_of_mem _ hn)))) hle1)
                hfr1 hprrest hC
            have hrestB : ∀ n ∈ condsNodes rest2,
                n ∈ condsNodes rest ∨ (alloc1 ≤ n ∧ n < alloc2) := hmemR2
            have hsetEq : condsNodes
                  (CondsT.cons check loc nested2 anchor rest2)
                = fragNodes nested2 ++ anchor :: condsNodes rest2 := rfl
            refine ⟨⟨by omega, hinv2, hbnd2, ?_, ?_, ?_, ?_, ?_⟩, ?_, ?_⟩
            · intro n hp
              exact hmono2 n (hmono1 n hp)
            · rw [hsetEq, List.nodup_append]
              refine ⟨hndN2, ?_, ?_⟩
              · rw [List.nodup_cons]
                refine ⟨?_, hndR2⟩
                intro hmem
                rcases hrestB anchor hmem with h3 | h3
                · exact hanotinrest h3
                · omega
              · intro x hx hy
                rcases List.mem_cons.mp hy with h3 | h3
                · subst h3
                  rcases hN2B x hx with h4 | h4
                  · exact hanotinN h4
                  · omega
                · refine disjoint_of_oldnew hle1 hN2B hrestB
                    (fun n hn => hlt' n (List.mem_append.mpr (Or.inl hn)))
                    (fun n hn => hlt' n (List.mem_append.mpr
                      (Or.inr (List.mem_cons_of_mem _ hn))))
                    (fun n h1 h2 => hdisjNC h1 (List.mem_cons_of_mem _ h2))
                    x hx h3
            · intro n hn
              rw [hsetEq] at hn
              rcases List.mem_append.mp hn with h3 | h3
              · rcases hN2B n h3 with h4 | h4
                · exact Or.inl (List.mem_append.mpr (Or.inl h4))
                · exact Or.inr (by omega)
              · rcases List.mem_cons.mp h3 with h4 | h4
                · refine Or.inl ?_
                  subst h4
                  exact List.mem_append.mpr (Or.inr (List.mem_cons_self _ _))
                · rcases hrestB n h4 with h5 | h5
                  · exact Or.inl (List.mem_append.mpr
                      (Or.inr (List.mem_cons_of_mem _ h5)))
                  · exact Or.inr (by omega)
            · intro q
              rw [hsetEq]
              have w1 := @keepOthers_mono_eq (condsNodes rest2)
                (fragNodes nested2 ++ anchor :: condsNodes rest2)
                (fun x hx => List.mem_append.mpr
                  (Or.inr (List.mem_cons_of_mem _ hx))) _ _ (hptR2 q)
              have w2 := @keepOthers_mono_eq (fragNodes nested2)
                (fragNodes nested2 ++ anchor :: condsNodes rest2)
                (fun x hx => List.mem_append.mpr (Or.inl hx)) _ _ (hptN2 q)
              exact w1.trans w2
            · intro q hq x hx
              rw [hsetEq] at hq
              have hq1 : q ∉ fragNodes nested2 :=
                fun h => hq (List.mem_append.mpr (Or.inl h))
              have hq2 : q ∉ condsNodes rest2 :=
                fun h => hq (List.mem_append.mpr
                  (Or.inr (List.mem_cons_of_mem _ h)))
              rcases houtR2 q hq2 x hx with h3 | h3
              · rcases houtN2 q hq1 x h3 with h4 | h4
                · exact Or.inl h4
                · refine Or.inr ?_
                  show x ∈ topClosure nested2 ++ closureConds rest2
                  exact List.mem_append.mpr (Or.inl h4)
              · refine Or.inr ?_
                show x ∈ topClosure nested2 ++ closureConds rest2
                exact List.mem_append.mpr (Or.inr h3)
            · exact ⟨fun _ => WMF_frame nested2
                (fun n _ hp => hmono2 n hp) hwmN2, hwmR2⟩
            · show (loc, anchor) :: condAnchors rest2
                = (loc, anchor) :: condAnchors rest
              rw [hancR]
      · rw [if_neg hc] at hrun
        rcases hC : mountConds fuel rest ctx dom alloc with
          _ | ⟨rest2, dom2x, alloc2x⟩
        · rw [hC] at hrun
          cases hrun
        · simp only [hC] at hrun
          cases hrun
          obtain ⟨⟨hle2, hinv2, hbnd2, hmono2, hndR2, hmemR2, hptR2,
              houtR2⟩, hwmR2, hancR⟩ :=
            ihC rest ctx dom alloc rest2 dom2 alloc2 hinv hbnd hndrest
              (fun n hn => hlt' n (List.mem_append.mpr
                (Or.inr (List.mem_cons_of_mem _ hn))))
              (fun n hn => hfr' n (List.mem_append.mpr (Or.inr hn)))
              hprrest hC
          have hrestB : ∀ n ∈ condsNodes rest2,
              n ∈ condsNodes rest ∨ (alloc ≤ n ∧ n < alloc2) := hmemR2
          have hsetEq : condsNodes (CondsT.cons check loc nested anchor rest2)
              = fragNodes nested ++ anchor :: condsNodes rest2 := rfl
          refine ⟨⟨hle2, hinv2, hbnd2, hmono2, ?_, ?_, ?_, ?_⟩, ?_, ?_⟩
          · rw [hsetEq, List.nodup_append]
            refine ⟨hndN, ?_, ?_⟩
            · rw [List.nodup_cons]
              refine ⟨?_, hndR2⟩
              intro hmem
              rcases hrestB anchor hmem with h3 | h3
              · exact hanotinrest h3
              · omega
            · intro x hx hy
              have hxlt := hlt' x (List.mem_append.mpr (Or.inl hx))
              rcases List.mem_cons.mp hy with h3 | h3
              · subst h3
                exact hanotinN hx
              · rcases hrestB x h3 with h4 | h4
                · exact hdisjNC hx (List.mem_cons_of_mem _ h4)
                · omega
          · intro n hn
            rw [hsetEq] at hn
            rcases List.mem_append.mp hn with h3 | h3
            · exact Or.inl (List.mem_append.mpr (Or.inl h3))
            · rcases List.mem_cons.mp h3 with h4 | h4
              · refine Or.inl ?_
                subst h4
                exact List.mem_append.mpr (Or.inr (List.mem_cons_self _ _))
              · rcases hrestB n h4 with h5 | h5
                · exact Or.inl (List.mem_append.mpr
                    (Or.inr (List.mem_cons_of_mem _ h5)))
                · exact Or.inr h5
          · intro q
            rw [hsetEq]
            exact @keepOthers_mono_eq (condsNodes rest2)
              (fragNodes nested ++ anchor :: condsNodes rest2)
              (fun x hx => List.mem_append.mpr
                (Or.inr (List.mem_cons_of_mem _ hx))) _ _ (hptR2 q)
          · intro q hq x hx
            rw [hsetEq] at hq
            have hq2 : q ∉ condsNodes rest2 :=
              fun h => hq (List.mem_append.mpr
                (Or.inr (List.mem_cons_of_mem _ h)))
            rcases houtR2 q hq2 x hx with h3 | h3
            · exact Or.inl h3
            · refine Or.inr ?_
              show x ∈ topClosure nested ++ closureConds rest2
              exact List.mem_append.mpr (Or.inr h3)
          · refine ⟨?_, hwmR2⟩
            intro hm
            rw [pristine_not_mounted nested hprn] at hm
            exact absurd hm Bool.false_ne_true
          · show (loc, anchor) :: condAnchors rest2
              = (loc, anchor) :: condAnchors rest
            rw [hancR]

end CFDom

namespace CFDom

theorem mountF_step {Ctx : Type} {fuel : Nat}
    (ihC : MountCondsStmt Ctx fuel) (ihE : MountEachsStmt Ctx fuel) :
    MountFStmt Ctx (fuel + 1) := by
  intro f ctx p a dom alloc f' dom' alloc' hinv hbnd hnd hlt hfrP hpr hrun
  cases f with
  | mk m pieces upds conds eachs =>
    cases m with
    | true => exact Bool.noConfusion hpr.1
    | false =>
      obtain ⟨_, hprC, hprE⟩ := hpr
      simp only [mountF] at hrun
      rcases hCh : mountChain (chainParts pieces upds conds eachs) pieces p a
          dom with _ | dom1
      · rw [hCh] at hrun
        cases hrun
      · simp only [hCh] at hrun
        rcases hC : mountConds fuel conds ctx dom1 alloc with
          _ | ⟨conds2, dom2m, alloc2m⟩
        · rw [hC] at hrun
          cases hrun
        · simp only [hC] at hrun
          rcases hE : mountEachs fuel eachs ctx dom2m alloc2m with
            _ | ⟨eachs3, dom3x, alloc3x⟩
          · rw [hE] at hrun
            cases hrun
          · simp only [hE] at hrun
            cases hrun
            obtain ⟨hchainNd, hnestNd, hchildNd, hdisj, hdisj2⟩ :=
              fragNodes_decomp hnd
            have hsubPU : ∀ n ∈ pieces.map (fun x => x.2)
                  ++ upds.map (fun x => x.2),
                n ∈ fragNodes (FragT.mk false pieces upds conds eachs) := by
              intro n hn
              show n ∈ (pieces.map (fun x => x.2) ++ upds.map (fun x => x.2)
                ++ condsNodes conds ++ eachsNodes eachs)
              exact List.mem_append.mpr
                (Or.inl (List.mem_append.mpr (Or.inl hn)))
            have hsubC : ∀ n ∈ condsNodes conds,
                n ∈ fragNodes (FragT.mk false pieces upds conds eachs) := by
              intro n hn
              show n ∈ (pieces.map (fun x => x.2) ++ upds.map (fun x => x.2)
                ++ condsNodes conds ++ eachsNodes eachs)
              exact List.mem_append.mpr
                (Or.inl (List.mem_append.mpr (Or.inr hn)))
            have hsubE : ∀ n ∈ eachsNodes eachs,
                n ∈ fragNodes (FragT.mk false pieces upds conds eachs) := by
              intro n hn
              show n ∈ (pieces.map (fun x => x.2) ++ upds.map (fun x => x.2)
                ++ condsNodes conds ++ eachsNodes eachs)
              exact List.mem_append.mpr (Or.inr hn)
            have hnd0 : ((pieces.map (fun x => x.2) ++ upds.map (fun x => x.2)
                ++ condsNodes conds) ++ eachsNodes eachs).Nodup := hnd
            rw [List.nodup_append] at hnd0
            obtain ⟨hndPUC, hndE, hdisjPUC_E⟩ := hnd0
            rw [List.nodup_append] at hndPUC
            obtain ⟨hndPU, hndC, hdisjPU_C⟩ := hndPUC
            have hfreshChain : ∀ e ∈ chainParts pieces upds conds eachs,
                ∀ q, e.2 ∉ childList dom q := by
              intro e he q hq
              exact hfrP e.2
                (mem_chainSnd_fragNodes (List.mem_map.mpr ⟨e, he, rfl⟩))
                ⟨q, hq⟩
            obtain ⟨hinv1, hmono1, hpres1, hpt1, hout1, hbnd1f⟩ :=
              mountChain_spec (chainParts pieces upds conds eachs) pieces p a
                dom dom1 hinv hfreshChain hchainNd hCh
            have hbnd1 : DomBound dom1 alloc :=
              hbnd1f alloc hbnd (fun e he => hlt e.2
                (mem_chainSnd_fragNodes (List.mem_map.mpr ⟨e, he, rfl⟩)))
            have hfrC : ∀ n ∈ nestedNodes conds, ¬ Present dom1 n := by
              intro n hn hp
              have hnotin : n ∉ (chainParts pieces upds conds eachs).map
                  (fun x => x.2) := by
                intro hc
                exact hdisj hc (List.mem_append.mpr (Or.inl hn))
              exact hfrP n (mem_nested_fragNodes hn)
                (present_of_keepOthers_eq hpt1 hnotin hp)
            obtain ⟨⟨hle2, hinv2, hbnd2, hmono2, hndC2, hmemC2, hptC2,
                houtC2⟩, hwmC2, hancC⟩ :=
              ihC conds ctx dom1 alloc conds2 dom2m alloc2m hinv1 hbnd1 hndC
                (fun n hn => hlt n (hsubC n hn)) hfrC hprC hC
            obtain ⟨⟨hle3, hinv3, hbnd3, hmono3, hndE3, hmemE3, hptE3,
                houtE3⟩, hwmE3, hancE⟩ :=
              ihE eachs ctx dom2m alloc2m eachs3 dom' alloc' hinv2 hbnd2 hndE
                (fun n hn => Nat.lt_of_lt_of_le (hlt n (hsubE n hn)) hle2)
                hprE hE
            have hchainEq : chainParts pieces upds conds2 eachs3
                = chainParts pieces upds conds eachs := by
              rw [chainParts, chainParts, hancC, hancE]
            have htteq : topTargets pieces upds conds2 eachs3
                = topTargets pieces upds conds eachs := by
              rw [topTargets, topTargets, hchainEq]
            have hsub'P : ∀ n ∈ pieces.map (fun x => x.2),
                n ∈ fragNodes (FragT.mk true pieces upds conds2 eachs3) := by
              intro n hn
              show n ∈ (pieces.map (fun x => x.2) ++ upds.map (fun x => x.2)
                ++ condsNodes conds2 ++ eachsNodes eachs3)
              exact List.mem_append.mpr (Or.inl (List.mem_append.mpr
                (Or.inl (List.mem_append.mpr (Or.inl hn)))))
            have hsub'C : ∀ n ∈ condsNodes conds2,
                n ∈ fragNodes (FragT.mk true pieces upds conds2 eachs3) := by
              intro n hn
              show n ∈ (pieces.map (fun x => x.2) ++ upds.map (fun x => x.2)
                ++ condsNodes conds2 ++ eachsNodes eachs3)
              exact List.mem_append.mpr
                (Or.inl (List.mem_append.mpr (Or.inr hn)))
            have hsub'E : ∀ n ∈ eachsNodes eachs3,
                n ∈ fragNodes (FragT.mk true pieces upds conds2 eachs3) := by
              intro n hn
              show n ∈ (pieces.map (fun x => x.2) ++ upds.map (fun x => x.2)
                ++ condsNodes conds2 ++ eachsNodes eachs3)
              exact List.mem_append.mpr (Or.inr hn)
            have hsub'Ch : ∀ n ∈ (chainParts pieces upds conds eachs).map
                  (fun x => x.2),
                n ∈ fragNodes (FragT.mk true pieces upds conds2 eachs3) := by
              intro n hn
              rw [← hchainEq] at hn
              exact mem_chainSnd_fragNodes hn
            have hC2B : ∀ n ∈ condsNodes conds2,
                n ∈ condsNodes conds ∨ (alloc ≤ n ∧ n < alloc2m) := hmemC2
            have hE3B : ∀ n ∈ eachsNodes eachs3,
                n ∈ eachsNodes eachs ∨ (alloc2m ≤ n ∧ n < alloc') := hmemE3
            have hPUCmem : ∀ n ∈ (pieces.map (fun x => x.2)
                  ++ upds.map (fun x => x.2) ++ condsNodes conds2),
                n ∈ (pieces.map (fun x => x.2) ++ upds.map (fun x => x.2)
                  ++ condsNodes conds) ∨ (alloc ≤ n ∧ n < alloc2m) := by
              intro n hn
              rcases List.mem_append.mp hn with h3 | h3
              · exact Or.inl (List.mem_append.mpr (Or.inl h3))
              · rcases hC2B n h3 with h4 | h4
                · exact Or.inl (List.mem_append.mpr (Or.inr h4))
                · exact Or.inr h4
            refine ⟨⟨by omega, hinv3, hbnd3, ?_, ?_, ?_, ?_, ?_⟩, ?_, ?_⟩
            · intro n hp
              exact hmono3 n (hmono2 n (hmono1 n hp))
            · show ((pieces.map (fun x => x.2) ++ upds.map (fun x => x.2)
                ++ condsNodes conds2) ++ eachsNodes eachs3).Nodup
              rw [List.nodup_append]
              refine ⟨?_, hndE3, ?_⟩
              · rw [List.nodup_append]
                refine ⟨hndPU, hndC2, ?_⟩
                intro x hx hy
                rcases hC2B x hy with h3 | h3
                · exact hdisjPU_C hx h3
                · have := hlt x (hsubPU x hx)
                  omega
              · exact disjoint_of_oldnew hle2 hPUCmem hE3B
                  (fun n hn => by
                    rcases List.mem_append.mp hn with h3 | h3
                    · exact hlt n (hsubPU n h3)
                    · exact hlt n (hsubC n h3))
                  (fun n hn => hlt n (hsubE n hn)) hdisjPUC_E
            · intro n hn
              have hn' : n ∈ ((pieces.map (fun x => x.2)
                  ++ upds.map (fun x => x.2) ++ condsNodes conds2)
                  ++ eachsNodes eachs3) := hn
              rcases List.mem_append.mp hn' with h3 | h3
              · rcases hPUCmem n h3 with h4 | h4
                · refine Or.inl ?_
                  rcases List.mem_append.mp h4 with h5 | h5
                  · exact hsubPU n h5
                  · exact hsubC n h5
                · exact Or.inr (by omega)
              · rcases hE3B n h3 with h4 | h4
                · exact Or.inl (hsubE n h4)
                · exact Or.inr (by omega)
            · intro q
              have w1 := @keepOthers_mono_eq (eachsNodes eachs3)
                (fragNodes (FragT.mk true pieces upds conds2 eachs3)) hsub'E
                _ _ (hptE3 q)
              have w2 := @keepOthers_mono_eq (condsNodes conds2)
                (fragNodes (FragT.mk true pieces upds conds2 eachs3)) hsub'C
                _ _ (hptC2 q)
              have w3 := @keepOthers_mono_eq
                ((chainParts pieces upds conds eachs).map (fun x => x.2))
                (fragNodes (FragT.mk true pieces upds conds2 eachs3)) hsub'Ch
                _ _ (hpt1 q)
              exact (w1.trans w2).trans w3
            · intro q hq x hx
              have hqP : q ∉ pieces.map (fun x => x.2) :=
                fun h => hq (hsub'P q h)
              have hqC : q ∉ condsNodes conds2 := fun h => hq (hsub'C q h)
              have hqE : q ∉ eachsNodes eachs3 := fun h => hq (hsub'E q h)
              rcases houtE3 q hqE x hx with h3 | h3
              · rcases houtC2 q hqC x h3 with h4 | h4
                · rcases hout1 q hqP x h4 with h5 | h5
                  · exact Or.inl h5
                  · refine Or.inr ?_
                    show x ∈ topTargets pieces upds conds2 eachs3
                      ++ closureConds conds2 ++ closureEachs eachs3
                    refine List.mem_append.mpr (Or.inl
                      (List.mem_append.mpr (Or.inl ?_)))
                    rw [htteq]
                    exact h5
                · refine Or.inr ?_
                  show x ∈ topTargets pieces upds conds2 eachs3
                    ++ closureConds conds2 ++ closureEachs eachs3
                  exact List.mem_append.mpr (Or.inl
                    (List.mem_append.mpr (Or.inr h4)))
              · refine Or.inr ?_
                show x ∈ topTargets pieces upds conds2 eachs3
                  ++ closureConds conds2 ++ closureEachs eachs3
                exact List.mem_append.mpr (Or.inr h3)
            · refine ⟨rfl, ?_, ?_, hwmE3⟩
              · intro n hn
                rw [htteq] at hn
                obtain ⟨e, he, hne⟩ :=
                  List.mem_map.mp (mem_topTargets_chainSnd hn)
                exact hmono3 n (hmono2 n (hne ▸ hpres1 e he))
              · exact WMConds_frame conds2 (fun n _ hp => hmono3 n hp) hwmC2
            · show topTargets pieces upds conds2 eachs3
                = topTargets pieces upds conds eachs
              exact htteq

end CFDom

namespace CFDom

theorem contains_true_of_mem {l : List Nat} {x : Nat} (h : x ∈ l) :
    l.contains x = true := by
  simpa using h

theorem contains_false_of_not_mem {l : List Nat} {x : Nat} (h : x ∉ l) :
    l.contains x = false := by
  simpa using h

theorem WMF_mounted {Ctx : Type} {dom : Dom} :
    (f : FragT Ctx) → WMF f dom → f.mounted = true
  | FragT.mk _ _ _ _ _, h => h.1

theorem topClosure_mounted {Ctx : Type} :
    (f : FragT Ctx) → f.mounted = true →
      ∃ restCl, topClosure f = topTargetsF f ++ restCl
  | FragT.mk true pieces upds conds eachs, _ =>
    ⟨closureConds conds ++ closureEachs eachs, by
      show topTargets pieces upds conds eachs ++ closureConds conds
          ++ closureEachs eachs
        = topTargets pieces upds conds eachs
          ++ (closureConds conds ++ closureEachs eachs)
      rw [List.append_assoc]⟩
  | FragT.mk false _ _ _ _, h => Bool.noConfusion h

theorem TreeInv_nil : TreeInv [] :=
  ⟨List.nodup_nil, fun _ => List.nodup_nil,
    fun n _ _ h1 _ => absurd h1 (List.not_mem_nil n)⟩

theorem DomBound_nil (b : Nat) : DomBound [] b :=
  fun _ x hx => absurd hx (List.not_mem_nil x)

/-- The mount specification holds at every fuel, by induction with the four
step lemmas. -/
theorem mount_spec (Ctx : Type) :
    ∀ fuel : Nat, MountFStmt Ctx fuel ∧ MountCondsStmt Ctx fuel
      ∧ MountEachsStmt Ctx fuel ∧ MountKidsStmt Ctx fuel := by
  intro fuel
  induction fuel with
  | zero =>
    refine ⟨?_, ?_, ?_, ?_⟩
    · intro f ctx p a dom alloc f' dom' alloc' _ _ _ _ _ _ hrun
      rw [mountF] at hrun
      exact Option.noConfusion hrun
    · intro c ctx dom alloc c2 dom2 alloc2 _ _ _ _ _ _ hrun
      rw [mountConds] at hrun
      exact Option.noConfusion hrun
    · intro e ctx dom alloc e2 dom2 alloc2 _ _ _ _ _ hrun
      rw [mountEachs] at hrun
      exact Option.noConfusion hrun
    · intro bs ctx pp anchor dom alloc kids dom2 alloc2 _ _ hrun
      rw [mountKids] at hrun
      exact Option.noConfusion hrun
  | succ fuel ih =>
    obtain ⟨ihF, ihC, ihE, ihK⟩ := ih
    exact ⟨mountF_step ihC ihE, mountConds_step ihF ihC,
      mountEachs_step ihK ihE, mountKids_step ihF ihK⟩

end CFDom

namespace CFDom

/-- C6 (counterexample): `Fragment::mount` (component/fragment.rs lines
452-456) on an already-mounted fragment returns successfully with
everything unchanged — a silent no-op, not the fail-fast
(abort/panic-equivalent, modelled as `none`) the claim demands. -/
theorem c6_mount_silent_counterexample :
    mountF (4 + 1) (FragT.mk true [] [] (CondsT.nil : CondsT Unit)
        EachsT.nil) () 0 none [] 0
      = some (FragT.mk true [] [] CondsT.nil EachsT.nil, [], 0)
    ∧ mountF (4 + 1) (FragT.mk true [] [] (CondsT.nil : CondsT Unit)
        EachsT.nil) () 0 none [] 0 ≠ none := by
  have h1 : mountF (4 + 1) (FragT.mk true [] [] (CondsT.nil : CondsT Unit)
      EachsT.nil) () 0 none [] 0
      = some (FragT.mk true [] [] CondsT.nil EachsT.nil, [], 0) := by
    simp only [mountF]
  refine ⟨h1, ?_⟩
  intro h
  rw [h1] at h
  exact Option.noConfusion h

/-- C6 (amended): calling `Fragment::mount` on an already-mounted fragment
(component/fragment.rs lines 452-456) is a silent no-op: the early return
on `self.mounted` leaves the fragment, the host tree and the allocator
exactly as they were, and reports no error. -/
theorem c6_mount_already_mounted_noop {Ctx : Type} (fuel : Nat)
    (f : FragT Ctx) (ctx : Ctx) (p : Nat) (a : Option Nat) (dom : Dom)
    (alloc : Nat) (h : f.mounted = true) :
    mountF (fuel + 1) f ctx p a dom alloc = some (f, dom, alloc) := by
  cases f with
  | mk m pieces upds conds eachs =>
    cases m with
    | false => exact Bool.noConfusion h
    | true => simp only [mountF]

theorem c6_mount_already_mounted_noop_witness :
    (FragT.mk true [] [] (CondsT.nil : CondsT Unit) EachsT.nil).mounted = true
    ∧ mountF (4 + 1) (FragT.mk true [] [] (CondsT.nil : CondsT Unit)
        EachsT.nil) () 0 none [] 0
      = some (FragT.mk true [] [] CondsT.nil EachsT.nil, [], 0) :=
  ⟨rfl, c6_mount_already_mounted_noop 4 _ () 0 none [] 0 rfl⟩

end CFDom

namespace CFDom

/-- C7 (amended, component/fragment.rs generation): for any freshly built,
never-updated fragment, whenever `Fragment::mount` at a location succeeds,
the following `Fragment::detach` succeeds and leaves every host child list
outside the fragment's own nodes — in particular the mount location's, and
every list that existed before the build — identical, by node identity and
order, to its state before the mount; the remove-call trace is exactly the
fragment's removal closure, whose leading segment is exactly the static
chain nodes with no parent index (nodes with a parent index are removed
from no host list), and those top-level targets are the ones the build
produced. -/
theorem c7_mount_detach_roundtrip {Ctx : Type} (b : BuilderT Ctx) (ctx : Ctx)
    (p : Nat) (a : Option Nat) (dom : Dom) (alloc0 fuel : Nat)
    (f' : FragT Ctx) (dom' : Dom) (alloc' : Nat)
    (hinv : TreeInv dom) (hbnd : DomBound dom alloc0)
    (hrun : mountF fuel (buildF b alloc0).1 ctx p a dom (buildF b alloc0).2
      = some (f', dom', alloc')) :
    ∃ f2 dom2 tr, detachF f' dom' = some (f2, dom2, tr)
      ∧ (∀ q, q < alloc0 → childList dom2 q = childList dom q)
      ∧ (∀ q, q ∉ fragNodes f' → childList dom2 q = childList dom q)
      ∧ tr.map (fun x => x.2) = topClosure f'
      ∧ topTargetsF f' = topTargetsF (buildF b alloc0).1
      ∧ ∃ tr1 tr2, tr = tr1 ++ tr2
          ∧ tr1.map (fun x => x.2) = topTargetsF f' := by
  have hbn := buildF_nodes b alloc0
  obtain ⟨msF, -, -, -⟩ := mount_spec Ctx fuel
  have hfresh : ∀ n ∈ fragNodes (buildF b alloc0).1, ¬ Present dom n := by
    intro n hn hp
    rw [hbn.2] at hn
    have hge0 : alloc0 ≤ n := by
      have := List.mem_range'_1.mp hn
      omega
    obtain ⟨q, hq⟩ := hp
    exact DomBound.fresh hbnd hge0 q hq
  obtain ⟨⟨hle, hinv', hbnd', hmono, hndF', hmemF', hptF', houtF'⟩,
      hwm', htt⟩ :=
    msF (buildF b alloc0).1 ctx p a dom (buildF b alloc0).2 f' dom' alloc'
      hinv (DomBound.mono hbnd hbn.1)
      (by rw [hbn.2]; exact List.nodup_range' _ _)
      (by
        intro n hn
        rw [hbn.2] at hn
        have := List.mem_range'_1.mp hn
        omega)
      hfresh (buildF_pristine b alloc0) hrun
  have hge : ∀ n ∈ fragNodes f', alloc0 ≤ n := by
    intro n hn
    rcases hmemF' n hn with h1 | h1
    · rw [hbn.2] at h1
      have := List.mem_range'_1.mp h1
      omega
    · have := hbn.1
      omega
  obtain ⟨f2, dom2, tr, hdrun, htr, hdpt, hinv2⟩ :=
    detachF_spec f' dom' hinv' (fun _ => hwm') hndF'
  have hrestore : ∀ q, q ∉ fragNodes f' →
      childList dom2 q = childList dom q := by
    intro q hq
    rw [hdpt q]
    have hstepA : keepOthers (topClosure f') (childList dom' q)
        = keepOthers (fragNodes f') (childList dom' q) := by
      rw [keepOthers, keepOthers]
      apply List.filter_congr
      intro x hx
      by_cases hxf : x ∈ fragNodes f'
      · have hxcl : x ∈ topClosure f' := by
          rcases houtF' q hq x hx with h1 | h1
          · have h2 := hbnd q x h1
            have h3 := hge x hxf
            omega
          · exact h1
        rw [contains_true_of_mem hxcl, contains_true_of_mem hxf]
      · have hxcl : x ∉ topClosure f' :=
          fun h => hxf (mem_topClosure_fragNodes h)
        rw [contains_false_of_not_mem hxcl, contains_false_of_not_mem hxf]
    rw [hstepA, hptF' q]
    apply keepOthers_of_disjoint
    intro x hxl hxf
    have h2 := hbnd q x hxl
    have h3 := hge x hxf
    omega
  refine ⟨f2, dom2, tr, hdrun, ?_, hrestore, htr, htt, ?_⟩
  · intro q hqlt
    refine hrestore q (fun h => ?_)
    have := hge q h
    omega
  · obtain ⟨restCl, hcl⟩ := topClosure_mounted f' (WMF_mounted f' hwm')
    rw [hcl] at htr
    obtain ⟨tr1, tr2, h12, hmap1, -⟩ := List.append_eq_map_iff.mp htr.symm
    exact ⟨tr1, tr2, h12, hmap1⟩

theorem c7_mount_detach_roundtrip_witness :
    TreeInv [] ∧ DomBound [] 0
    ∧ ∃ f2 dom2 tr,
        detachF (FragT.mk true [(none, 0)] [] (CondsT.nil : CondsT Unit)
            EachsT.nil) [(5, [0])]
          = some (f2, dom2, tr)
        ∧ (∀ q, q < 0 → childList dom2 q = childList [] q)
        ∧ (∀ q, q ∉ fragNodes (FragT.mk true [(none, 0)] []
              (CondsT.nil : CondsT Unit) EachsT.nil) →
            childList dom2 q = childList [] q)
        ∧ tr.map (fun x => x.2) = topClosure (FragT.mk true [(none, 0)] []
            (CondsT.nil : CondsT Unit) EachsT.nil)
        ∧ topTargetsF (FragT.mk true [(none, 0)] []
              (CondsT.nil : CondsT Unit) EachsT.nil)
            = topTargetsF (buildF (BuilderT.mk [none] [] BCondsT.nil
                BEachsT.nil : BuilderT Unit) 0).1
        ∧ ∃ tr1 tr2, tr = tr1 ++ tr2
            ∧ tr1.map (fun x => x.2) = topTargetsF (FragT.mk true
                [(none, 0)] [] (CondsT.nil : CondsT Unit) EachsT.nil) :=
  ⟨TreeInv_nil, DomBound_nil 0,
    c7_mount_detach_roundtrip
      (BuilderT.mk [none] [] BCondsT.nil BEachsT.nil : BuilderT Unit)
      () 5 none [] 0 (1 + 1)
      (FragT.mk true [(none, 0)] [] CondsT.nil EachsT.nil) [(5, [0])] 1
      TreeInv_nil (DomBound_nil 0)
      (by
        simp [mountF, mountConds, mountEachs, mountChain, buildF, buildConds,
          buildEachs, numberList, chainParts, condAnchors, eachAnchors,
          insertBeforeD, insertList, eraseAllD, childList, setChildren])⟩

end CFDom
